import Mathlib

/-!
# Verification of the Sudoku solver repository

Shallow embedding of the Python sources (`sudo.py`, `aco_solver.py`,
`abc_solver.py`, `hybrid_abc_cp.py`, `msabc_solver.py`) and proofs about the
claims on the constraint-model builder, the propagation engine, the exact
backtracking search and the population-based solvers.

Conventions used throughout the embedding:

* A Python cell id is the string `f"{r}{c}"` where `r` is one character from
  `'ABCDEFGHIJKLMNOPQRSTUVWXYZ'[:size]` and `c` is the decimal numeral of a
  1-based column.  For the sizes accepted by the builder (at most 26) this
  formatting is injective, so a cell id is embedded as the pair
  `(row label character, column number)`; equality of the pairs coincides with
  equality of the Python strings.
* The digit symbols are the one-character strings `'1'..'9'` followed by
  letters; they are embedded as `Char`.
* Python `dict`s of candidate lists are embedded as total functions
  `Cell → List Char` (the solver only ever reads keys it has written).
* A Python function that can return `False` (or raise) is embedded as an
  `Option`/`Except` returning function.
* Recursive propagation is embedded with an explicit fuel parameter; running
  out of fuel gives `none`, and every theorem about a successful result is
  quantified over the fuel.
-/

namespace SudokuRepo

/-- A cell id `f"{r}{c}"`: row label character and 1-based column number. -/
abbrev Cell := Char × Nat

/-- The row-label alphabet `'ABCDEFGHIJKLMNOPQRSTUVWXYZ'` from `sudo.py`. -/
def alphabet : List Char :=
  ['A', 'B', 'C', 'D', 'E', 'F', 'G', 'H', 'I', 'J', 'K', 'L', 'M',
   'N', 'O', 'P', 'Q', 'R', 'S', 'T', 'U', 'V', 'W', 'X', 'Y', 'Z']

/-- The numeral characters used for digits `1..9`. -/
def numerals : List Char := ['1', '2', '3', '4', '5', '6', '7', '8', '9']

/-- `rows = 'ABCDEFGHIJKLMNOPQRSTUVWXYZ'[:size]`. -/
def rowsOf (size : Nat) : List Char := alphabet.take size

/-- `cols = [str(i+1) for i in range(size)]`, embedded as the numbers
`1..size` themselves. -/
def colsOf (size : Nat) : List Nat := (List.range size).map (· + 1)

/-- `cross(A, B)` from `sudo.py`: all pairs, in row-major order. -/
def cross (A : List Char) (B : List Nat) : List Cell :=
  A.flatMap fun a => B.map fun b => (a, b)

/-- `squares = cross(rows, cols)`. -/
def squaresOf (size : Nat) : List Cell := cross (rowsOf size) (colsOf size)

/-- The `while size % subgrid_rows != 0: subgrid_rows -= 1` loop of
`initialize_structures`, counting down from the start value. -/
def srLoop (size : Nat) : Nat → Nat
  | 0 => 0
  | k + 1 => if size % (k + 1) = 0 then k + 1 else srLoop size k

/-- `int(size**0.5)`: the integer square root (the float square root of the
small integers the builder can accept is computed exactly enough for `int`
truncation to agree with the integer square root).  Implemented as a count so
that the kernel can evaluate it on concrete sizes. -/
def intSqrt (n : Nat) : Nat :=
  ((List.range (n + 1)).filter fun k => decide (k * k ≤ n)).length - 1

/-- `subgrid_rows = int(size**0.5)` followed by the divisor-searching loop. -/
def subgridRowsOf (size : Nat) : Nat := srLoop size (intSqrt size)

/-- `subgrid_cols = size // subgrid_rows`. -/
def subgridColsOf (size : Nat) : Nat := size / subgridRowsOf size

/-- The digit alphabet: `[str(i+1) for i in range(min(size, 9))]` plus
`[chr(ord('A') + i) for i in range(size - 9)]`, as characters. -/
def digitsOf (size : Nat) : List Char :=
  numerals.take (min size 9) ++ alphabet.take (size - 9)

/-- `range(0, stop, step)` for a positive step: the multiples of `step`
below `stop`. -/
def stepRange (stop step : Nat) : List Nat :=
  (List.range ((stop + step - 1) / step)).map (· * step)

/-- `rows[k]` (indexing into the sliced alphabet); total with a junk default,
used only at indices the builder has checked to be in range. -/
def rowLabel (size k : Nat) : Char := (rowsOf size).getD k '?'

/-- One subgrid unit: the double loop over `x in range(subgrid_rows)`,
`y in range(subgrid_cols)` appending `rows[i+x]` paired with `cols[j+y]`. -/
def boxUnit (size i j : Nat) : List Cell :=
  (List.range (subgridRowsOf size)).flatMap fun x =>
    (List.range (subgridColsOf size)).map fun y =>
      (rowLabel size (i + x), j + y + 1)

/-- A column unit `[f"{r}{c}" for r in rows]`. -/
def colUnit (size : Nat) (c : Nat) : List Cell :=
  (rowsOf size).map fun r => (r, c)

/-- A row unit `[f"{r}{c}" for c in cols]`. -/
def rowUnit (size : Nat) (r : Char) : List Cell :=
  (colsOf size).map fun c => (r, c)

/-- The unit list of `initialize_structures`: column units, then row units,
then subgrid units. -/
def unitlistOf (size : Nat) : List (List Cell) :=
  (colsOf size).map (colUnit size) ++
  (rowsOf size).map (rowUnit size) ++
  ((stepRange size (subgridRowsOf size)).flatMap fun i =>
    (stepRange size (subgridColsOf size)).map fun j => boxUnit size i j)

/-- `units[s] = [u for u in unitlist if s in u]`. -/
def unitsOf (size : Nat) (s : Cell) : List (List Cell) :=
  (unitlistOf size).filter fun u => decide (s ∈ u)

/-- `peers[s] = set().union(*units[s]) - {s}`, as a duplicate-free list.
(Python iterates this set in an unspecified order; no theorem below depends
on the order of this list.) -/
def peersOf (size : Nat) (s : Cell) : List Cell :=
  (((unitsOf size s).flatten).filter fun t => decide (t ≠ s)).dedup

/-- The failure modes of `initialize_structures`: the explicit
`ValueError` for `size < 1`, and the `IndexError` raised by `rows[i+x]`
in the subgrid loop when the sliced alphabet has fewer than `size` rows. -/
inductive StructError where
  | valueError : StructError
  | indexError : StructError
deriving DecidableEq, Repr

/-- The record of structures returned by `initialize_structures`. -/
structure SudokuStruct where
  rows : List Char
  cols : List Nat
  squares : List Cell
  unitlist : List (List Cell)
  subgridRows : Nat
  subgridCols : Nat
  digits : List Char
deriving Repr, DecidableEq

/-- `initialize_structures(size)` from `sudo.py`.  The subgrid loop reads
`rows[i + x]` for every row index `0 ≤ i + x < size`, so it raises
`IndexError` exactly when the sliced alphabet is shorter than `size`;
that check is made explicit here before the structures are assembled. -/
def init_structures (size : Nat) : Except StructError SudokuStruct :=
  if size < 1 then .error .valueError
  else if (rowsOf size).length < size then .error .indexError
  else .ok
    { rows := rowsOf size
      cols := colsOf size
      squares := squaresOf size
      unitlist := unitlistOf size
      subgridRows := subgridRowsOf size
      subgridCols := subgridColsOf size
      digits := digitsOf size }

/-! ### Basic facts about the builder -/

theorem alphabet_length : alphabet.length = 26 := by decide

theorem alphabet_nodup : alphabet.Nodup := by decide

theorem rowsOf_length (size : Nat) : (rowsOf size).length = min size 26 := by
  simp [rowsOf, alphabet_length]

/-- The divisor-searching loop returns a divisor whenever it starts at a
positive value. -/
theorem srLoop_dvd (size : Nat) (k : Nat) (hk : 1 ≤ k) :
    srLoop size k ∣ size ∧ 1 ≤ srLoop size k := by
  induction k with
  | zero => omega
  | succ n ih =>
    by_cases h : size % (n + 1) = 0
    · constructor
      · simp only [srLoop, h, if_pos]
        exact Nat.dvd_of_mod_eq_zero h
      · simp [srLoop, h]
    · rcases Nat.eq_zero_or_pos n with hn | hn
      · exfalso; subst hn; simp [Nat.mod_one] at h
      · simpa [srLoop, h] using ih hn

theorem intSqrt_pos (n : Nat) (h : 1 ≤ n) : 1 ≤ intSqrt n := by
  rw [intSqrt, List.range_succ_eq_map]
  rw [List.filter_cons_of_pos (by simp)]
  have hmem : (1 : Nat) ∈ (List.map Nat.succ (List.range n)).filter
      fun k => decide (k * k ≤ n) := by
    rw [List.mem_filter]
    refine ⟨List.mem_map.mpr ⟨0, by simpa using h, rfl⟩, by simpa using h⟩
  have := List.length_pos_of_mem hmem
  simp only [List.length_cons]
  omega

/-- Every positive board size admits a subgrid factorization: the loop
always reaches a divisor (in the worst case `1`). -/
theorem subgridRows_dvd (size : Nat) (h : 1 ≤ size) :
    subgridRowsOf size ∣ size ∧ 1 ≤ subgridRowsOf size :=
  srLoop_dvd size (intSqrt size) (intSqrt_pos size h)

theorem subgridRows_mul_cols (size : Nat) (h : 1 ≤ size) :
    subgridRowsOf size * subgridColsOf size = size := by
  obtain ⟨hdvd, hpos⟩ := subgridRows_dvd size h
  exact Nat.mul_div_cancel' hdvd

/-- Full characterization of the builder's error behavior: success exactly
for `1 ≤ N ≤ 26`, the `ValueError` exactly for `N = 0`, the `IndexError`
(row labels exhausted) exactly for `N > 26`, and every positive `N` admits a
subgrid factorization, so the "no valid factorization" failure imagined by
the specification cannot occur. -/
theorem init_structures_classification (N : Nat) :
    ((init_structures N).isOk = true ↔ (1 ≤ N ∧ N ≤ 26)) ∧
    (init_structures N = .error .valueError ↔ N = 0) ∧
    (init_structures N = .error .indexError ↔ 27 ≤ N) ∧
    (1 ≤ N → subgridRowsOf N ∣ N) := by
  have hlen : (rowsOf N).length = min N 26 := rowsOf_length N
  by_cases h1 : N < 1
  · have hN : N = 0 := by omega
    subst hN
    have h0 : init_structures 0 = .error .valueError := rfl
    refine ⟨by decide, ?_, ?_, by omega⟩
    · rw [h0]
      exact ⟨fun _ => rfl, fun _ => rfl⟩
    · rw [h0]
      constructor
      · intro h
        injection h with h2
        exact absurd h2 (by decide)
      · intro h; omega
  · by_cases h2 : 26 < N
    · have hcond : (rowsOf N).length < N := by omega
      have heq : init_structures N = .error .indexError := by
        unfold init_structures
        rw [if_neg h1, if_pos hcond]
      refine ⟨?_, ?_, ?_, fun h => (subgridRows_dvd N h).1⟩
      · rw [heq]
        constructor
        · intro h; exact absurd h (by decide)
        · intro h; omega
      · rw [heq]
        constructor
        · intro h
          injection h with h2
          exact absurd h2 (by decide)
        · intro h; omega
      · rw [heq]
        exact ⟨fun _ => by omega, fun _ => rfl⟩
    · have hcond : ¬ (rowsOf N).length < N := by omega
      have heq : (init_structures N).isOk = true := by
        unfold init_structures
        rw [if_neg h1, if_neg hcond]
        rfl
      refine ⟨?_, ?_, ?_, fun h => (subgridRows_dvd N h).1⟩
      · rw [heq]
        exact ⟨fun _ => by omega, fun _ => rfl⟩
      · constructor
        · intro h; rw [h] at heq; exact absurd heq (by decide)
        · intro h; omega
      · constructor
        · intro h; rw [h] at heq; exact absurd heq (by decide)
        · intro h; omega

/-- The board size 27 is positive and admits the subgrid factorization
3 × 9, yet the builder fails on it (with an `IndexError`, not the size
`ValueError`): it is a concrete refutation of "for every other N the builder
returns the model without error". -/
theorem init_structures_27_fails :
    (1 ≤ 27 ∧ subgridRowsOf 27 = 3 ∧ subgridRowsOf 27 ∣ 27) ∧
    (init_structures 27).isOk = false ∧
    init_structures 27 = .error .indexError := by
  have hsr : subgridRowsOf 27 = 3 := by decide
  have hcond : (rowsOf 27).length < 27 := by
    rw [rowsOf_length]; omega
  have heq : init_structures 27 = .error .indexError := by
    simp [init_structures, hcond]
  exact ⟨⟨by omega, hsr, by rw [hsr]; decide⟩, by rw [heq]; rfl, heq⟩

/-! ### Structural properties of the generated model

Lemmas about row labels, units and peers, for every board size the builder
accepts (`1 ≤ size ≤ 26`). -/

theorem rowsOf_length_of_le {size : Nat} (h : size ≤ 26) :
    (rowsOf size).length = size := by
  rw [rowsOf_length]; omega

theorem rowsOf_nodup (size : Nat) : (rowsOf size).Nodup :=
  (List.take_sublist _ _).nodup alphabet_nodup

theorem colsOf_nodup (size : Nat) : (colsOf size).Nodup :=
  (List.nodup_range _).map (fun a b h => by omega)

theorem colsOf_length (size : Nat) : (colsOf size).length = size := by
  simp [colsOf]

theorem mem_colsOf {size c : Nat} : c ∈ colsOf size ↔ 1 ≤ c ∧ c ≤ size := by
  simp only [colsOf, List.mem_map, List.mem_range]
  constructor
  · rintro ⟨a, ha, rfl⟩; omega
  · intro h; exact ⟨c - 1, by omega, by omega⟩

theorem rowLabel_eq_getElem {size k : Nat} (hk : k < size) (h26 : size ≤ 26) :
    rowLabel size k = (rowsOf size).get ⟨k, by rw [rowsOf_length_of_le h26]; omega⟩ := by
  rw [rowLabel, List.getD_eq_getElem, List.get_eq_getElem]

theorem rowLabel_mem {size k : Nat} (hk : k < size) (h26 : size ≤ 26) :
    rowLabel size k ∈ rowsOf size := by
  rw [rowLabel_eq_getElem hk h26, List.get_eq_getElem]
  exact List.getElem_mem _

theorem rowLabel_inj {size a b : Nat} (ha : a < size) (hb : b < size)
    (h26 : size ≤ 26) : rowLabel size a = rowLabel size b ↔ a = b := by
  rw [rowLabel_eq_getElem ha h26, rowLabel_eq_getElem hb h26, List.get_eq_getElem,
    List.get_eq_getElem, (rowsOf_nodup size).getElem_inj_iff]

theorem mem_rowsOf_iff {size : Nat} {r : Char} (h26 : size ≤ 26) :
    r ∈ rowsOf size ↔ ∃ a, a < size ∧ r = rowLabel size a := by
  constructor
  · intro h
    obtain ⟨i, hi, rfl⟩ := List.mem_iff_getElem.mp h
    have hi' : i < size := by rwa [rowsOf_length_of_le h26] at hi
    exact ⟨i, hi', by rw [rowLabel_eq_getElem hi' h26]; simp⟩
  · rintro ⟨a, ha, rfl⟩
    exact rowLabel_mem ha h26

theorem stepRange_eq {stop step : Nat} (hstep : 1 ≤ step) (hdvd : step ∣ stop) :
    stepRange stop step = (List.range (stop / step)).map (· * step) := by
  obtain ⟨q, rfl⟩ := hdvd
  have h1 : step * q + step - 1 = step * q + (step - 1) := by omega
  have h2 : (step * q + (step - 1)) / step = q + (step - 1) / step :=
    Nat.mul_add_div (by omega) q (step - 1)
  have h3 : (step - 1) / step = 0 := Nat.div_eq_of_lt (by omega)
  have h4 : step * q / step = q := Nat.mul_div_cancel_left q (by omega)
  rw [stepRange, h1, h2, h3, h4]
  simp

theorem mem_stepRange {stop step i : Nat} (hstep : 1 ≤ step) (hdvd : step ∣ stop) :
    i ∈ stepRange stop step ↔ ∃ k, k < stop / step ∧ i = k * step := by
  rw [stepRange_eq hstep hdvd]
  simp only [List.mem_map, List.mem_range]
  constructor
  · rintro ⟨k, hk, rfl⟩; exact ⟨k, hk, rfl⟩
  · rintro ⟨k, hk, rfl⟩; exact ⟨k, hk, rfl⟩

theorem mem_colUnit {size c : Nat} {s : Cell} :
    s ∈ colUnit size c ↔ s.2 = c ∧ s.1 ∈ rowsOf size := by
  obtain ⟨r0, c0⟩ := s
  simp only [colUnit, List.mem_map, Prod.mk.injEq]
  constructor
  · rintro ⟨r, hr, rfl, rfl⟩; exact ⟨rfl, hr⟩
  · rintro ⟨rfl, hr⟩; exact ⟨r0, hr, rfl, rfl⟩

theorem mem_rowUnit {size : Nat} {r : Char} {s : Cell} :
    s ∈ rowUnit size r ↔ s.1 = r ∧ s.2 ∈ colsOf size := by
  obtain ⟨r0, c0⟩ := s
  simp only [rowUnit, List.mem_map, Prod.mk.injEq]
  constructor
  · rintro ⟨c, hc, rfl, rfl⟩; exact ⟨rfl, hc⟩
  · rintro ⟨rfl, hc⟩; exact ⟨c0, hc, rfl, rfl⟩

theorem mem_boxUnit {size i j : Nat} {s : Cell} :
    s ∈ boxUnit size i j ↔ ∃ x, x < subgridRowsOf size ∧ ∃ y, y < subgridColsOf size ∧
      s = (rowLabel size (i + x), j + y + 1) := by
  simp only [boxUnit, List.mem_flatMap, List.mem_map, List.mem_range]
  constructor
  · rintro ⟨x, hx, y, hy, h⟩
    exact ⟨x, hx, y, hy, h.symm⟩
  · rintro ⟨x, hx, y, hy, h⟩
    exact ⟨x, hx, y, hy, h.symm⟩

theorem colUnit_length {size c : Nat} (h26 : size ≤ 26) :
    (colUnit size c).length = size := by
  simp [colUnit, rowsOf_length_of_le h26]

theorem rowUnit_length {size : Nat} {r : Char} :
    (rowUnit size r).length = size := by
  simp [rowUnit, colsOf_length]

theorem boxUnit_length {size i j : Nat} (h1 : 1 ≤ size) :
    (boxUnit size i j).length = size := by
  have : (boxUnit size i j).length =
      subgridRowsOf size * subgridColsOf size := by
    simp [boxUnit, List.length_flatMap, Function.comp_def, List.map_const',
      List.sum_replicate, smul_eq_mul]
  rw [this, subgridRows_mul_cols size h1]

theorem colUnit_nodup {size c : Nat} : (colUnit size c).Nodup :=
  (rowsOf_nodup size).map fun _ _ h => congrArg Prod.fst h

theorem rowUnit_nodup {size : Nat} {r : Char} : (rowUnit size r).Nodup :=
  (colsOf_nodup size).map fun _ _ h => congrArg Prod.snd h

theorem boxUnit_nodup {size i j : Nat} (h26 : size ≤ 26)
    (hi : i + subgridRowsOf size ≤ size) : (boxUnit size i j).Nodup := by
  rw [boxUnit, List.nodup_flatMap]
  constructor
  · intro x _
    exact (List.nodup_range _).map fun a b h => by
      have := congrArg Prod.snd h; simp at this; omega
  · rw [List.pairwise_iff_forall_sublist]
    intro x y hsub
    have hx : x < subgridRowsOf size := by
      have h := hsub.subset (List.mem_cons_self x [y])
      simpa using h
    have hy : y < subgridRowsOf size := by
      have h := hsub.subset (List.mem_cons_of_mem x (List.mem_cons_self y []))
      simpa using h
    have hxy : x ≠ y := by
      have h := hsub.nodup (List.nodup_range (subgridRowsOf size))
      simpa using h
    simp only [Function.onFun, List.disjoint_left]
    intro t ht1 ht2
    simp only [List.mem_map, List.mem_range] at ht1 ht2
    obtain ⟨y1, _, rfl⟩ := ht1
    obtain ⟨y2, _, heq⟩ := ht2
    have hfst := congrArg Prod.fst heq
    simp only at hfst
    rw [rowLabel_inj (by omega) (by omega) h26] at hfst
    omega

/-- Every unit in the generated unit list has exactly `size` cells, with no
cell repeated. -/
theorem unitlist_length_nodup {size : Nat} (h1 : 1 ≤ size) (h26 : size ≤ 26) :
    ∀ u ∈ unitlistOf size, u.length = size ∧ u.Nodup := by
  intro u hu
  rw [unitlistOf] at hu
  simp only [List.append_assoc, List.mem_append, List.mem_map, List.mem_flatMap] at hu
  rcases hu with ⟨c, _, rfl⟩ | ⟨r, _, rfl⟩ | ⟨i, hi, hu⟩
  · exact ⟨colUnit_length h26, colUnit_nodup⟩
  · exact ⟨rowUnit_length, rowUnit_nodup⟩
  · obtain ⟨hsrd, hsrp⟩ := subgridRows_dvd size h1
    obtain ⟨j, _, rfl⟩ := hu
    rw [mem_stepRange hsrp hsrd] at hi
    obtain ⟨k, hk, rfl⟩ := hi
    have hbound : k * subgridRowsOf size + subgridRowsOf size ≤ size := by
      have h5 : (k + 1) * subgridRowsOf size ≤ (size / subgridRowsOf size) * subgridRowsOf size :=
        Nat.mul_le_mul_right _ (by omega)
      have h6 : (size / subgridRowsOf size) * subgridRowsOf size = size :=
        Nat.div_mul_cancel hsrd
      have h7 : (k + 1) * subgridRowsOf size =
          k * subgridRowsOf size + subgridRowsOf size := by ring
      omega
    exact ⟨boxUnit_length h1, boxUnit_nodup h26 hbound⟩

/-- Membership in the peer list: a different cell sharing some unit. -/
theorem mem_peersOf {size : Nat} {s t : Cell} :
    t ∈ peersOf size s ↔ t ≠ s ∧ ∃ u ∈ unitlistOf size, s ∈ u ∧ t ∈ u := by
  simp only [peersOf, List.mem_dedup, List.mem_filter, List.mem_flatten, unitsOf,
    decide_eq_true_eq]
  constructor
  · rintro ⟨⟨u, ⟨hu, hsu⟩, htu⟩, hne⟩
    exact ⟨hne, u, hu, hsu, htu⟩
  · rintro ⟨hne, u, hu, hsu, htu⟩
    exact ⟨⟨u, ⟨hu, hsu⟩, htu⟩, hne⟩

/-- Two distinct cells of one unit are peers of each other. -/
theorem peers_of_same_unit {size : Nat} {u : List Cell} {s t : Cell}
    (hu : u ∈ unitlistOf size) (hs : s ∈ u) (ht : t ∈ u) (hne : t ≠ s) :
    t ∈ peersOf size s :=
  mem_peersOf.mpr ⟨hne, u, hu, hs, ht⟩

/-! ### Counting the units a cell belongs to -/

theorem countP_flatMap {α β : Type} (p : β → Bool) (f : α → List β) :
    ∀ l : List α, (l.flatMap f).countP p = (l.map fun a => (f a).countP p).sum := by
  intro l
  induction l with
  | nil => rfl
  | cons a l ih => simp [List.flatMap_cons, List.countP_append, ih]

theorem countP_eq_one_of_nodup_mem {α : Type} [DecidableEq α] {l : List α}
    {x : α} (h : l.Nodup) (hx : x ∈ l) :
    l.countP (fun y => decide (y = x)) = 1 := by
  have h2 := List.count_eq_one_of_mem h hx
  unfold List.count at h2
  rw [List.countP_congr] at h2
  · exact h2
  · intro a _
    simp [beq_iff_eq]

theorem countP_congr_decide {α : Type} {l : List α} {p q : α → Prop}
    [DecidablePred p] [DecidablePred q] (h : ∀ x ∈ l, p x ↔ q x) :
    l.countP (fun x => decide (p x)) = l.countP (fun x => decide (q x)) :=
  List.countP_congr fun x hx => by
    simp only [decide_eq_true_eq]
    exact h x hx

theorem sum_map_ite_one {α : Type} (l : List α) (p : α → Prop) [DecidablePred p] :
    (l.map fun i => if p i then 1 else 0).sum = l.countP (fun i => decide (p i)) := by
  induction l with
  | nil => rfl
  | cons a l ih =>
    by_cases h : p a <;> simp [List.countP_cons, h, ih] <;> omega

theorem div_interval_iff {d m b : Nat} (hd : 1 ≤ d) :
    (m * d ≤ b ∧ b < m * d + d) ↔ m = b / d := by
  have hdm := Nat.div_add_mod b d
  have hlt : b % d < d := Nat.mod_lt b (by omega)
  constructor
  · rintro ⟨hlo, hhi⟩
    by_cases hcmp : m = b / d
    · exact hcmp
    · exfalso
      rcases Nat.lt_or_ge m (b / d) with hlt2 | hgt
      · have h1 : (m + 1) * d ≤ (b / d) * d := Nat.mul_le_mul_right d hlt2
        have h3 : (b / d) * d ≤ b := Nat.div_mul_le_self b d
        have h4 : (m + 1) * d = m * d + d := by ring
        omega
      · have hgt2 : b / d + 1 ≤ m := by omega
        have h1 : (b / d + 1) * d ≤ m * d := Nat.mul_le_mul_right d hgt2
        have h4 : (b / d + 1) * d = (b / d) * d + d := by ring
        have h5 : (b / d) * d = d * (b / d) := Nat.mul_comm _ _
        omega
  · rintro rfl
    have h3 : (b / d) * d = d * (b / d) := Nat.mul_comm _ _
    omega

theorem subgridCols_pos (size : Nat) (h1 : 1 ≤ size) : 1 ≤ subgridColsOf size := by
  by_contra hcon
  have h0 : subgridColsOf size = 0 := by omega
  have hmul := subgridRows_mul_cols size h1
  rw [h0, Nat.mul_zero] at hmul
  omega

theorem subgridCols_dvd (size : Nat) (h1 : 1 ≤ size) : subgridColsOf size ∣ size := by
  refine ⟨subgridRowsOf size, ?_⟩
  conv_lhs => rw [← subgridRows_mul_cols size h1]
  ring

/-- A cell inside a box, under the in-range bounds established by the
builder: box membership is the pair of interval conditions on the row and
column indices. -/
theorem mem_boxUnit_iff_intervals {size i j a b : Nat} (h26 : size ≤ 26)
    (ha : a < size)
    (hi : i + subgridRowsOf size ≤ size) :
    ((rowLabel size a, b + 1) ∈ boxUnit size i j ↔
      (i ≤ a ∧ a < i + subgridRowsOf size) ∧ (j ≤ b ∧ b < j + subgridColsOf size)) := by
  rw [mem_boxUnit]
  constructor
  · rintro ⟨x, hx, y, hy, heq⟩
    have hfst := congrArg Prod.fst heq
    have hsnd := congrArg Prod.snd heq
    simp only at hfst hsnd
    rw [rowLabel_inj ha (by omega) h26] at hfst
    omega
  · rintro ⟨⟨hi1, hi2⟩, hj1, hj2⟩
    refine ⟨a - i, by omega, b - j, by omega, ?_⟩
    have h1 : i + (a - i) = a := by omega
    have h2 : j + (b - j) + 1 = b + 1 := by omega
    rw [h1, h2]

/-- Every cell of the board belongs to exactly 3 units: its column unit, its
row unit and its subgrid unit. -/
theorem units_count_three {size a b : Nat} (h1 : 1 ≤ size) (h26 : size ≤ 26)
    (ha : a < size) (hb : b < size) :
    (unitsOf size (rowLabel size a, b + 1)).length = 3 := by
  obtain ⟨hsrd, hsrp⟩ := subgridRows_dvd size h1
  have hscp := subgridCols_pos size h1
  have hscd := subgridCols_dvd size h1
  rw [unitsOf, ← List.countP_eq_length_filter, unitlistOf]
  rw [List.countP_append, List.countP_append]
  have hcol : ((colsOf size).map (colUnit size)).countP
      (fun u => decide ((rowLabel size a, b + 1) ∈ u)) = 1 := by
    rw [List.countP_map]
    simp only [Function.comp_def]
    have hco : ∀ c ∈ colsOf size,
        ((rowLabel size a, b + 1) ∈ colUnit size c) ↔ c = b + 1 := by
      intro c _
      rw [mem_colUnit]
      constructor
      · rintro ⟨h2, _⟩; exact h2.symm
      · rintro rfl; exact ⟨rfl, rowLabel_mem ha h26⟩
    rw [countP_congr_decide hco]
    exact countP_eq_one_of_nodup_mem (colsOf_nodup size) (mem_colsOf.mpr (by omega))
  have hrow : ((rowsOf size).map (rowUnit size)).countP
      (fun u => decide ((rowLabel size a, b + 1) ∈ u)) = 1 := by
    rw [List.countP_map]
    simp only [Function.comp_def]
    have hro : ∀ r ∈ rowsOf size,
        ((rowLabel size a, b + 1) ∈ rowUnit size r) ↔ r = rowLabel size a := by
      intro r _
      rw [mem_rowUnit]
      constructor
      · rintro ⟨h2, _⟩; exact h2.symm
      · rintro rfl; exact ⟨rfl, mem_colsOf.mpr (by omega)⟩
    rw [countP_congr_decide hro]
    exact countP_eq_one_of_nodup_mem (rowsOf_nodup size) (rowLabel_mem ha h26)
  have hbox : (((stepRange size (subgridRowsOf size)).flatMap fun i =>
      (stepRange size (subgridColsOf size)).map fun j => boxUnit size i j)).countP
      (fun u => decide ((rowLabel size a, b + 1) ∈ u)) = 1 := by
    rw [countP_flatMap]
    have hinner : ∀ i ∈ stepRange size (subgridRowsOf size),
        (fun i => ((stepRange size (subgridColsOf size)).map
            fun j => boxUnit size i j).countP
          (fun u => decide ((rowLabel size a, b + 1) ∈ u))) i =
        (fun i => if i ≤ a ∧ a < i + subgridRowsOf size then 1 else 0) i := by
      intro i hi
      simp only
      rw [mem_stepRange hsrp hsrd] at hi
      obtain ⟨k, hk, rfl⟩ := hi
      have hkb : k * subgridRowsOf size + subgridRowsOf size ≤ size := by
        have h5 : (k + 1) * subgridRowsOf size ≤
            (size / subgridRowsOf size) * subgridRowsOf size :=
          Nat.mul_le_mul_right _ (by omega)
        have h6 : (size / subgridRowsOf size) * subgridRowsOf size = size :=
          Nat.div_mul_cancel hsrd
        have h7 : (k + 1) * subgridRowsOf size =
            k * subgridRowsOf size + subgridRowsOf size := by ring
        omega
      rw [List.countP_map]
      by_cases hrowc : k * subgridRowsOf size ≤ a ∧
          a < k * subgridRowsOf size + subgridRowsOf size
      · rw [if_pos hrowc]
        rw [stepRange_eq hscp hscd, List.countP_map]
        simp only [Function.comp_def]
        have hcong : ∀ m ∈ List.range (size / subgridColsOf size),
            ((rowLabel size a, b + 1) ∈
              boxUnit size (k * subgridRowsOf size) (m * subgridColsOf size)) ↔
              m = b / subgridColsOf size := by
          intro m _
          rw [mem_boxUnit_iff_intervals h26 ha hkb]
          constructor
          · rintro ⟨_, hcc⟩
            exact (div_interval_iff hscp).mp (by omega)
          · intro hm
            have := (div_interval_iff hscp).mpr hm
            exact ⟨hrowc, by omega⟩
        rw [countP_congr_decide hcong]
        exact countP_eq_one_of_nodup_mem (List.nodup_range _)
          (List.mem_range.mpr (Nat.div_lt_div_of_lt_of_dvd hscd hb))
      · rw [if_neg hrowc]
        rw [List.countP_eq_zero]
        intro j hj
        simp only [Function.comp_apply, decide_eq_true_eq]
        rw [mem_boxUnit_iff_intervals h26 ha hkb]
        rintro ⟨hr, _⟩
        exact hrowc hr
    rw [List.map_congr_left hinner]
    rw [sum_map_ite_one]
    rw [stepRange_eq hsrp hsrd, List.countP_map]
    simp only [Function.comp_def]
    have hcong2 : ∀ k ∈ List.range (size / subgridRowsOf size),
        (k * subgridRowsOf size ≤ a ∧ a < k * subgridRowsOf size + subgridRowsOf size) ↔
          k = a / subgridRowsOf size := by
      intro k _
      constructor
      · intro hcc
        exact (div_interval_iff hsrp).mp (by omega)
      · intro hm
        have := (div_interval_iff hsrp).mpr hm
        omega
    rw [countP_congr_decide hcong2]
    exact countP_eq_one_of_nodup_mem (List.nodup_range _)
      (List.mem_range.mpr (Nat.div_lt_div_of_lt_of_dvd hsrd ha))
  rw [hcol, hrow, hbox]

/-- The generated unit list has exactly `3 * size` units. -/
theorem unitlist_length {size : Nat} (h1 : 1 ≤ size) (h26 : size ≤ 26) :
    (unitlistOf size).length = 3 * size := by
  obtain ⟨hsrd, hsrp⟩ := subgridRows_dvd size h1
  have hscp := subgridCols_pos size h1
  have hscd := subgridCols_dvd size h1
  rw [unitlistOf]
  simp only [List.length_append, List.length_map, colsOf_length,
    rowsOf_length_of_le h26, List.length_flatMap, Function.comp_def,
    List.map_const', List.sum_replicate, smul_eq_mul]
  rw [stepRange_eq hsrp hsrd, stepRange_eq hscp hscd]
  simp only [List.length_map, List.length_range]
  have h6 : size / subgridRowsOf size = subgridColsOf size := rfl
  have h7 : size / subgridColsOf size = subgridRowsOf size := by
    have hmul := subgridRows_mul_cols size h1
    have h8 : subgridRowsOf size * subgridColsOf size / subgridColsOf size =
        subgridRowsOf size := Nat.mul_div_cancel _ (by omega)
    rw [hmul] at h8
    exact h8
  rw [h6, h7]
  have hmul := subgridRows_mul_cols size h1
  have hcomm : subgridColsOf size * subgridRowsOf size =
      subgridRowsOf size * subgridColsOf size := by ring
  omega

/-- Membership in the generated cell set. -/
theorem mem_squaresOf {size : Nat} {s : Cell} (h26 : size ≤ 26) :
    s ∈ squaresOf size ↔
      ∃ a, a < size ∧ ∃ b, b < size ∧ s = (rowLabel size a, b + 1) := by
  simp only [squaresOf, cross, List.mem_flatMap, List.mem_map]
  constructor
  · rintro ⟨r, hr, c, hc, rfl⟩
    obtain ⟨a, ha, rfl⟩ := (mem_rowsOf_iff h26).mp hr
    obtain ⟨hc1, hc2⟩ := mem_colsOf.mp hc
    exact ⟨a, ha, c - 1, by omega, by rw [show c - 1 + 1 = c from by omega]⟩
  · rintro ⟨a, ha, c, hc, rfl⟩
    exact ⟨rowLabel size a, rowLabel_mem ha h26,
      c + 1, mem_colsOf.mpr (by omega), rfl⟩

theorem digitsOf_length {size : Nat} (h26 : size ≤ 26) :
    (digitsOf size).length = size := by
  simp only [digitsOf, List.length_append, List.length_take, alphabet_length]
  simp only [numerals, List.length_cons, List.length_nil]
  omega

theorem digitsOf_nodup (size : Nat) : (digitsOf size).Nodup := by
  rw [digitsOf, List.nodup_append]
  refine ⟨(List.take_sublist _ _).nodup (by decide),
    (List.take_sublist _ _).nodup alphabet_nodup, ?_⟩
  intro c hc hc2
  have h1 : c ∈ numerals := (List.take_sublist _ _).subset hc
  have h2 : c ∈ alphabet := (List.take_sublist _ _).subset hc2
  revert h2
  fin_cases h1 <;> decide

/-! ## The propagation engine and exact search of `sudo.py`

The candidate-set dict `{square: list of digits}` is embedded as a total
function `Cell → List Char`; in-place mutation of the dict becomes the
functional update `updateV`.  The recursive `eliminate` is fuel-indexed;
running out of fuel is reported as failure (`none`), and every theorem
is quantified over the fuel. -/

/-- A candidate-set assignment (the `values` dict). -/
def Values : Type := Cell → List Char

/-- Writing one entry of the `values` dict. -/
def updateV (v : Values) (s : Cell) (l : List Char) : Values :=
  fun t => if t = s then l else v t

theorem updateV_same (v : Values) (s : Cell) (l : List Char) :
    updateV v s l s = l := by simp [updateV]

theorem updateV_other (v : Values) (s t : Cell) (l : List Char) (h : t ≠ s) :
    updateV v s l t = v t := by simp [updateV, h]

/-- `eliminate(values, s, d)` from `sudo.py`: remove `d` from `values[s]`;
fail when the cell empties; when the cell collapses to one digit, eliminate
that digit from every peer.  (Note: unlike the ant-colony variant, this
`eliminate` has no unit-counting loop.) -/
def eliminate (size : Nat) : Nat → Values → Cell → Char → Option Values
  | 0, _, _, _ => none
  | fuel + 1, v, s, d =>
    if d ∈ v s then
      let v1 := updateV v s ((v s).erase d)
      if (v1 s).length = 0 then none
      else if (v1 s).length = 1 then
        (peersOf size s).foldlM (fun w s2 => eliminate size fuel w s2 ((v1 s).headI)) v1
      else some v1
    else some v

/-- `assign(values, s, d)` from `sudo.py`: eliminate every candidate of `s`
other than `d`. -/
def assign (size fuel : Nat) (v : Values) (s : Cell) (d : Char) : Option Values :=
  ((v s).filter fun d2 => decide (d2 ≠ d)).foldlM
    (fun w d2 => eliminate size fuel w s d2) v

/-- `parse_grid`: start from every digit in every cell and assign each clue
(`'.'` and out-of-alphabet characters are skipped). -/
def parse_grid (size fuel : Nat) (grid : List (Cell × Char)) : Option Values :=
  grid.foldlM
    (fun v sd =>
      if sd.2 ≠ '.' ∧ sd.2 ∈ digitsOf size then assign size fuel v sd.1 sd.2
      else some v)
    (fun _ => digitsOf size)

/-- The termination test of `search`: every square holds exactly one
candidate. -/
def allSolved (size : Nat) (v : Values) : Bool :=
  (squaresOf size).all fun s => (v s).length == 1

/-- The decimal numeral of a column number (columns on accepted boards have
at most two decimal digits). -/
def numeralChars (c : Nat) : List Char :=
  if c < 10 then [Char.ofNat (48 + c)]
  else [Char.ofNat (48 + c / 10), Char.ofNat (48 + c % 10)]

/-- Lexicographic order on character lists (Python string comparison). -/
def charListLt : List Char → List Char → Bool
  | [], [] => false
  | [], _ :: _ => true
  | _ :: _, [] => false
  | a :: as, b :: bs =>
    if a = b then charListLt as bs else decide (a.toNat < b.toNat)

/-- The Python comparison of the pairs `(len(values[s]), s)`:
first the candidate count, then the cell-id string. -/
def searchKeyLt (x y : Nat × List Char) : Bool :=
  decide (x.1 < y.1) || (decide (x.1 = y.1) && charListLt x.2 y.2)

/-- The cell-id string of a cell, as a character list. -/
def cellKey (s : Cell) : List Char := s.1 :: numeralChars s.2

/-- `min((len(values[s]), s) for s in squares if len(values[s]) > 1)`:
the unsolved square with the fewest candidates, ties broken by cell-id
order.  `none` when no square has more than one candidate (in Python the
`min` of an empty sequence raises, which also produces no solution). -/
def chooseCell (size : Nat) (v : Values) : Option Cell :=
  ((squaresOf size).filter fun s => decide (1 < (v s).length)).foldl
    (fun acc s =>
      match acc with
      | none => some s
      | some t =>
        if searchKeyLt ((v s).length, cellKey s) ((v t).length, cellKey t)
        then some s else some t)
    none

/-- The per-branch copy `{k: v.copy() for k, v in values.items()}` made by
`search` before each speculative `assign`.  On the embedded functional
state, taking a copy is the identity: what matters — and what the theorems
below express — is that each candidate is tried from the saved pre-branch
state, never from the state left behind by a failed sibling branch. -/
def copyValues (v : Values) : Values := v

/-- `search(values, size)` from `sudo.py`: depth-first search with the
minimum-remaining-values cell choice.  `search False = False` becomes
`search none = none`; the result on success is the dict `{s: values[s][0]}`,
embedded as `fun s => (v s).headI`.  The loop
`for d in values[s]: ... search(assign(values.copy(), s, d))` returning the
first success is `List.findSome?` over the candidate list. -/
def search (size : Nat) : Nat → Option Values → Option (Cell → Char)
  | _, none => none
  | 0, some _ => none
  | fuel + 1, some v =>
    if allSolved size v then some fun s => (v s).headI
    else
      match chooseCell size v with
      | none => none
      | some s =>
        (v s).findSome? fun d => search size fuel (assign size fuel (copyValues v) s d)

/-- One choice point's candidate loop, as run by `search` on the cell it
picked: try the digits of `ds` in order from the saved state `v`, entering a
recursive search under each speculative `assign`, and return the first
success. -/
def tryCandidates (size fuel : Nat) (v : Values) (s : Cell)
    (ds : List Char) : Option (Cell → Char) :=
  ds.findSome? fun d => search size fuel (assign size fuel (copyValues v) s d)

/-- `solve(grid, size)` from `sudo.py`: build the structures (any builder
error yields no solution), parse the grid, then search.  The final
conversion loop of `solve` is the identity here because `search` already
returns single digits. -/
def sudoSolve (size fuel : Nat) (grid : List (Cell × Char)) :
    Option (Cell → Char) :=
  match init_structures size with
  | .error _ => none
  | .ok _ => (parse_grid size fuel grid).bind fun v => search size fuel (some v)

/-! ### Invariants of the propagation engine -/

/-- No candidate set is empty. -/
def NEV (v : Values) : Prop := ∀ t, v t ≠ []

/-- Every candidate list is duplicate-free. -/
def NodupV (v : Values) : Prop := ∀ t, (v t).Nodup

/-- Every candidate list draws from the digit alphabet. -/
def SubD (size : Nat) (v : Values) : Prop := ∀ t, v t ⊆ digitsOf size

/-- The propagation invariant: a solved cell's digit has been eliminated
from all its peers. -/
def Rinv (size : Nat) (v : Values) : Prop :=
  ∀ t, (v t).length = 1 → ∀ p ∈ peersOf size t, (v t).headI ∉ v p

/-- Generic preservation of a state predicate along `foldlM` over `Option`. -/
theorem foldlM_inv {α : Type} {P : Values → Prop}
    {step : Values → α → Option Values}
    (hstep : ∀ w a w', P w → step w a = some w' → P w') :
    ∀ (l : List α) (w w' : Values), P w → l.foldlM step w = some w' → P w' := by
  intro l
  induction l with
  | nil =>
    intro w w' hP h
    simp only [List.foldlM_nil] at h
    cases h
    exact hP
  | cons a l ih =>
    intro w w' hP h
    simp only [List.foldlM_cons] at h
    cases hstep1 : step w a with
    | none => rw [hstep1] at h; cases h
    | some w1 =>
      rw [hstep1] at h
      exact ih w1 w' (hstep w a w1 hP hstep1) h

/-- Generic pointwise monotonicity along `foldlM` over `Option`. -/
theorem foldlM_mono {α : Type} {step : Values → α → Option Values}
    (hstep : ∀ w a w', step w a = some w' → ∀ t, w' t ⊆ w t) :
    ∀ (l : List α) (w w' : Values), l.foldlM step w = some w' →
      ∀ t, w' t ⊆ w t := by
  intro l
  induction l with
  | nil =>
    intro w w' h t
    simp only [List.foldlM_nil] at h
    cases h
    exact fun x hx => hx
  | cons a l ih =>
    intro w w' h t
    simp only [List.foldlM_cons] at h
    cases hstep1 : step w a with
    | none => rw [hstep1] at h; cases h
    | some w1 =>
      rw [hstep1] at h
      exact fun x hx => hstep w a w1 hstep1 t (ih w1 w' h t hx)

/-- A successful `eliminate` only shrinks candidate sets. -/
theorem elim_mono (size : Nat) :
    ∀ fuel v s d v', eliminate size fuel v s d = some v' → ∀ t, v' t ⊆ v t := by
  intro fuel
  induction fuel with
  | zero => intro v s d v' h; cases h
  | succ fuel ih =>
    intro v s d v' h t
    rw [eliminate] at h
    by_cases hd : d ∈ v s
    · rw [if_pos hd] at h
      by_cases h0 : ((updateV v s ((v s).erase d)) s).length = 0
      · rw [if_pos h0] at h; cases h
      · rw [if_neg h0] at h
        have hsub1 : ∀ t, (updateV v s ((v s).erase d)) t ⊆ v t := by
          intro t x hx
          by_cases hts : t = s
          · subst hts
            rw [updateV_same] at hx
            exact List.mem_of_mem_erase hx
          · rwa [updateV_other _ _ _ _ hts] at hx
        by_cases h1 : ((updateV v s ((v s).erase d)) s).length = 1
        · rw [if_pos h1] at h
          intro x hx
          exact hsub1 t (foldlM_mono (fun w a w2 hw => ih w a _ w2 hw) _ _ _ h t hx)
        · rw [if_neg h1] at h
          cases h
          exact hsub1 t
    · rw [if_neg hd] at h
      cases h
      exact fun x hx => hx

/-- A successful `eliminate` keeps candidate lists duplicate-free. -/
theorem elim_nodup (size : Nat) :
    ∀ fuel v s d v', NodupV v → eliminate size fuel v s d = some v' → NodupV v' := by
  intro fuel
  induction fuel with
  | zero => intro v s d v' _ h; cases h
  | succ fuel ih =>
    intro v s d v' hN h
    rw [eliminate] at h
    by_cases hd : d ∈ v s
    · rw [if_pos hd] at h
      have hN1 : NodupV (updateV v s ((v s).erase d)) := by
        intro t
        by_cases hts : t = s
        · subst hts; rw [updateV_same]; exact (hN t).erase d
        · rw [updateV_other _ _ _ _ hts]; exact hN t
      by_cases h0 : ((updateV v s ((v s).erase d)) s).length = 0
      · rw [if_pos h0] at h; cases h
      · rw [if_neg h0] at h
        by_cases h1 : ((updateV v s ((v s).erase d)) s).length = 1
        · rw [if_pos h1] at h
          exact foldlM_inv (fun w a w2 hw hstep => ih w a _ w2 hw hstep) _ _ _ hN1 h
        · rw [if_neg h1] at h
          cases h
          exact hN1
    · rw [if_neg hd] at h
      cases h
      exact hN

/-- A successful `eliminate` never leaves an empty candidate set. -/
theorem elim_ne (size : Nat) :
    ∀ fuel v s d v', NEV v → eliminate size fuel v s d = some v' → NEV v' := by
  intro fuel
  induction fuel with
  | zero => intro v s d v' _ h; cases h
  | succ fuel ih =>
    intro v s d v' hN h
    rw [eliminate] at h
    by_cases hd : d ∈ v s
    · rw [if_pos hd] at h
      by_cases h0 : ((updateV v s ((v s).erase d)) s).length = 0
      · rw [if_pos h0] at h; cases h
      · rw [if_neg h0] at h
        have hN1 : NEV (updateV v s ((v s).erase d)) := by
          intro t
          by_cases hts : t = s
          · subst hts
            rw [updateV_same]
            rw [updateV_same] at h0
            intro hnil
            rw [hnil] at h0
            exact h0 rfl
          · rw [updateV_other _ _ _ _ hts]; exact hN t
        by_cases h1 : ((updateV v s ((v s).erase d)) s).length = 1
        · rw [if_pos h1] at h
          exact foldlM_inv (fun w a w2 hw hstep => ih w a _ w2 hw hstep) _ _ _ hN1 h
        · rw [if_neg h1] at h
          cases h
          exact hN1
    · rw [if_neg hd] at h
      cases h
      exact hN

/-- After a successful `eliminate`, the digit is gone from the cell. -/
theorem elim_removes (size : Nat) :
    ∀ fuel v s d v', NodupV v → eliminate size fuel v s d = some v' →
      d ∉ v' s := by
  intro fuel v s d v' hN h
  cases fuel with
  | zero => cases h
  | succ fuel =>
    rw [eliminate] at h
    by_cases hd : d ∈ v s
    · rw [if_pos hd] at h
      by_cases h0 : ((updateV v s ((v s).erase d)) s).length = 0
      · rw [if_pos h0] at h; cases h
      · rw [if_neg h0] at h
        have hout : d ∉ (updateV v s ((v s).erase d)) s := by
          rw [updateV_same]
          exact (hN s).not_mem_erase
        by_cases h1 : ((updateV v s ((v s).erase d)) s).length = 1
        · rw [if_pos h1] at h
          intro hmem
          exact hout (foldlM_mono
            (fun w a w2 hw => elim_mono size fuel w a _ w2 hw) _ _ _ h s hmem)
        · rw [if_neg h1] at h
          cases h
          exact hout
    · rw [if_neg hd] at h
      cases h
      exact hd

theorem headI_mem {l : List Char} (h : l ≠ []) : l.headI ∈ l := by
  cases l with
  | nil => exact absurd rfl h
  | cons a t => simp

/-- Postcondition of the peer fold inside `eliminate`: every singleton of
the final state either is the unchanged singleton of the start state, or is
fully propagated; the propagated digit is gone from every processed peer;
and the fold only shrinks. -/
theorem foldElim_post (size fuel : Nat) (d2 : Char)
    (hok : ∀ v s d v', NodupV v → eliminate size fuel v s d = some v' →
      ∀ t, (v' t).length = 1 →
        v t = v' t ∨ ∀ p ∈ peersOf size t, (v' t).headI ∉ v' p) :
    ∀ (l : List Cell) (w w' : Values), NodupV w →
      l.foldlM (fun w s2 => eliminate size fuel w s2 d2) w = some w' →
      ((∀ t, (w' t).length = 1 →
          w t = w' t ∨ ∀ p ∈ peersOf size t, (w' t).headI ∉ w' p) ∧
       (∀ p ∈ l, d2 ∉ w' p) ∧ (∀ t, w' t ⊆ w t)) := by
  intro l
  induction l with
  | nil =>
    intro w w' _ h
    simp only [List.foldlM_nil] at h
    cases h
    exact ⟨fun t _ => Or.inl rfl, fun p hp => absurd hp (List.not_mem_nil p),
      fun t x hx => hx⟩
  | cons p ps ih =>
    intro w w' hN h
    simp only [List.foldlM_cons] at h
    cases hstep : eliminate size fuel w p d2 with
    | none => rw [hstep] at h; cases h
    | some w1 =>
      rw [hstep] at h
      have hN1 : NodupV w1 := elim_nodup size fuel w p d2 w1 hN hstep
      obtain ⟨A1, B1, C1⟩ := ih w1 w' hN1 h
      refine ⟨?_, ?_, ?_⟩
      · intro t hlen
        rcases A1 t hlen with heq | hprop
        · rcases hok w p d2 w1 hN hstep t (by rw [heq]; exact hlen) with heq2 | hprop2
          · exact Or.inl (heq2.trans heq)
          · refine Or.inr fun q hq hmem => ?_
            have hmem2 : (w1 t).headI ∈ w' q := by rw [heq]; exact hmem
            exact hprop2 q hq (C1 q hmem2)
        · exact Or.inr hprop
      · intro q hq
        rcases List.mem_cons.mp hq with rfl | hq2
        · intro hmem
          exact elim_removes size fuel w q d2 w1 hN hstep (C1 q hmem)
        · exact B1 q hq2
      · intro t x hx
        exact elim_mono size fuel w p d2 w1 hstep t (C1 t hx)

/-- The central postcondition of `eliminate`: in a successful result, any
cell solved to a single digit either already held exactly that list before
the call, or has had its digit eliminated from all of its peers. -/
theorem elim_ok (size : Nat) :
    ∀ fuel v s d v', NodupV v → eliminate size fuel v s d = some v' →
      ∀ t, (v' t).length = 1 →
        v t = v' t ∨ ∀ p ∈ peersOf size t, (v' t).headI ∉ v' p := by
  intro fuel
  induction fuel with
  | zero => intro v s d v' _ h; cases h
  | succ fuel ih =>
    intro v s d v' hN h t hlen
    rw [eliminate] at h
    by_cases hd : d ∈ v s
    · rw [if_pos hd] at h
      have hN1 : NodupV (updateV v s ((v s).erase d)) := by
        intro t2
        by_cases hts : t2 = s
        · subst hts; rw [updateV_same]; exact (hN t2).erase d
        · rw [updateV_other _ _ _ _ hts]; exact hN t2
      by_cases h0 : ((updateV v s ((v s).erase d)) s).length = 0
      · rw [if_pos h0] at h; cases h
      · rw [if_neg h0] at h
        by_cases h1 : ((updateV v s ((v s).erase d)) s).length = 1
        · rw [if_pos h1] at h
          obtain ⟨A, B, C⟩ := foldElim_post size fuel _ ih _ _ _ hN1 h
          rcases A t hlen with heq | hprop
          · by_cases hts : t = s
            · subst hts
              refine Or.inr fun q hq hmem => ?_
              have hd2 : (v' t).headI = (updateV v t ((v t).erase d) t).headI := by
                rw [heq]
              rw [hd2] at hmem
              exact B q hq hmem
            · rw [updateV_other _ _ _ _ hts] at heq
              exact Or.inl heq
          · exact Or.inr hprop
        · rw [if_neg h1] at h
          cases h
          by_cases hts : t = s
          · subst hts; exact absurd hlen h1
          · exact Or.inl (updateV_other _ _ _ _ hts).symm
    · rw [if_neg hd] at h
      cases h
      exact Or.inl rfl

/-- The conjunction of the engine invariants. -/
def GoodV (size : Nat) (v : Values) : Prop :=
  NodupV v ∧ NEV v ∧ SubD size v ∧ Rinv size v

theorem elim_good (size fuel : Nat) {v v' : Values} {s : Cell} {d : Char}
    (hG : GoodV size v) (h : eliminate size fuel v s d = some v') :
    GoodV size v' := by
  obtain ⟨hN, hNE, hS, hR⟩ := hG
  have hmono := elim_mono size fuel v s d v' h
  refine ⟨elim_nodup size fuel v s d v' hN h, elim_ne size fuel v s d v' hNE h,
    fun t x hx => hS t (hmono t hx), ?_⟩
  intro t hlen p hp hmem
  rcases elim_ok size fuel v s d v' hN h t hlen with heq | hprop
  · have hlen2 : (v t).length = 1 := by rw [heq]; exact hlen
    rw [← heq] at hmem
    exact hR t hlen2 p hp (hmono p hmem)
  · exact hprop p hp hmem

theorem assign_good (size fuel : Nat) {v v' : Values} {s : Cell} {d : Char}
    (hG : GoodV size v) (h : assign size fuel v s d = some v') :
    GoodV size v' :=
  foldlM_inv (fun w a w2 hw hstep => elim_good size fuel hw hstep) _ v v' hG h

theorem assign_mono (size fuel : Nat) {v v' : Values} {s : Cell} {d : Char}
    (h : assign size fuel v s d = some v') : ∀ t, v' t ⊆ v t :=
  foldlM_mono (fun w a w2 hstep => elim_mono size fuel w s a w2 hstep) _ v v' h

/-- All units of a 1-cell board are singletons, so the initial full-alphabet
state satisfies the propagation invariant at every size. -/
theorem Rinv_initial {size : Nat} (h1 : 1 ≤ size) (h26 : size ≤ 26) :
    Rinv size (fun _ => digitsOf size) := by
  intro t hlen p hp
  have hsz : size = 1 := by
    have h2 := digitsOf_length h26
    have hlen2 : (digitsOf size).length = 1 := hlen
    omega
  rw [mem_peersOf] at hp
  obtain ⟨hne, u, hu, htu, hpu⟩ := hp
  have hul := (unitlist_length_nodup h1 h26 u hu).1
  rw [hsz] at hul
  obtain ⟨x, rfl⟩ := List.length_eq_one.mp hul
  simp only [List.mem_singleton] at htu hpu
  exact absurd (hpu.trans htu.symm) hne

theorem good_initial {size : Nat} (h1 : 1 ≤ size) (h26 : size ≤ 26) :
    GoodV size (fun _ => digitsOf size) := by
  refine ⟨fun _ => digitsOf_nodup size, fun _ => ?_, fun _ => fun x hx => hx,
    Rinv_initial h1 h26⟩
  have h2 := digitsOf_length h26
  intro hnil
  have hnil2 : digitsOf size = [] := hnil
  rw [hnil2] at h2
  simp at h2
  omega

theorem parse_good {size fuel : Nat} {grid : List (Cell × Char)} {v : Values}
    (h1 : 1 ≤ size) (h26 : size ≤ 26)
    (h : parse_grid size fuel grid = some v) : GoodV size v := by
  refine foldlM_inv ?_ grid _ v (good_initial h1 h26) h
  intro w a w2 hw hstep
  by_cases hcond : a.2 ≠ '.' ∧ a.2 ∈ digitsOf size
  · rw [if_pos hcond] at hstep
    exact assign_good size fuel hw hstep
  · rw [if_neg hcond] at hstep
    cases hstep
    exact hw

theorem stepRange_add_le {stop step i : Nat} (hstep : 1 ≤ step)
    (hdvd : step ∣ stop) (hi : i ∈ stepRange stop step) : i + step ≤ stop := by
  rw [mem_stepRange hstep hdvd] at hi
  obtain ⟨k, hk, rfl⟩ := hi
  have h5 : (k + 1) * step ≤ (stop / step) * step := Nat.mul_le_mul_right _ (by omega)
  have h6 : (stop / step) * step = stop := Nat.div_mul_cancel hdvd
  have h7 : (k + 1) * step = k * step + step := by ring
  omega

/-- Every cell of every generated unit is one of the board's squares. -/
theorem unit_cells_mem_squares {size : Nat} (h1 : 1 ≤ size) (h26 : size ≤ 26) :
    ∀ u ∈ unitlistOf size, ∀ s ∈ u, s ∈ squaresOf size := by
  intro u hu s hs
  rw [unitlistOf] at hu
  simp only [List.append_assoc, List.mem_append, List.mem_map, List.mem_flatMap] at hu
  obtain ⟨hsrd, hsrp⟩ := subgridRows_dvd size h1
  have hscp := subgridCols_pos size h1
  have hscd := subgridCols_dvd size h1
  rcases hu with ⟨c, hc, rfl⟩ | ⟨r, hr, rfl⟩ | ⟨i, hi, hu⟩
  · obtain ⟨h2, h3⟩ := mem_colUnit.mp hs
    obtain ⟨a, ha, hra⟩ := (mem_rowsOf_iff h26).mp h3
    rw [mem_squaresOf h26]
    obtain ⟨hc1, hc2⟩ := mem_colsOf.mp hc
    refine ⟨a, ha, c - 1, by omega, ?_⟩
    rw [show c - 1 + 1 = c from by omega]
    exact Prod.ext_iff.mpr ⟨hra, h2⟩
  · obtain ⟨h2, h3⟩ := mem_rowUnit.mp hs
    have hrr : s.1 ∈ rowsOf size := by rw [h2]; exact hr
    obtain ⟨a, ha, hra⟩ := (mem_rowsOf_iff h26).mp hrr
    rw [mem_squaresOf h26]
    obtain ⟨hc1, hc2⟩ := mem_colsOf.mp h3
    refine ⟨a, ha, s.2 - 1, by omega, ?_⟩
    rw [show s.2 - 1 + 1 = s.2 from by omega]
    exact Prod.ext_iff.mpr ⟨hra, rfl⟩
  · obtain ⟨j, hj, rfl⟩ := hu
    have hib := stepRange_add_le hsrp hsrd hi
    have hjb := stepRange_add_le hscp hscd hj
    obtain ⟨x, hx, y, hy, rfl⟩ := mem_boxUnit.mp hs
    rw [mem_squaresOf h26]
    exact ⟨i + x, by omega, j + y, by omega, rfl⟩

/-- The base case of the search: a state in which every square is solved
and the propagation invariant holds reads back as a valid solution —
every unit is a permutation of the digit alphabet. -/
theorem solved_values_valid {size : Nat} (h1 : 1 ≤ size) (h26 : size ≤ 26)
    {v : Values} (hG : GoodV size v) (hall : allSolved size v = true) :
    ∀ u ∈ unitlistOf size, (u.map fun s => (v s).headI).Perm (digitsOf size) := by
  obtain ⟨hN, hNE, hS, hR⟩ := hG
  intro u hu
  obtain ⟨hlen, hnd⟩ := unitlist_length_nodup h1 h26 u hu
  have hsq := unit_cells_mem_squares h1 h26 u hu
  have hsing : ∀ s ∈ u, (v s).length = 1 := by
    intro s hs
    have h2 := List.all_eq_true.mp hall s (hsq s hs)
    simpa using h2
  have hmapnd : (u.map fun s => (v s).headI).Nodup := by
    refine List.Nodup.map_on ?_ hnd
    intro s hs t ht heq
    by_contra hne
    have hpeer : t ∈ peersOf size s :=
      peers_of_same_unit hu hs ht fun h2 => hne h2.symm
    have h3 := hR s (hsing s hs) t hpeer
    have h4 : (v t).headI ∈ v t := headI_mem (hNE t)
    rw [← heq] at h4
    exact h3 h4
  have hsub : (u.map fun s => (v s).headI) ⊆ digitsOf size := by
    intro x hx
    obtain ⟨s, hs, rfl⟩ := List.mem_map.mp hx
    exact hS s (headI_mem (hNE s))
  have hmaplen : (u.map fun s => (v s).headI).length = (digitsOf size).length := by
    rw [List.length_map, hlen, digitsOf_length h26]
  apply List.perm_of_nodup_nodup_toFinset_eq hmapnd (digitsOf_nodup size)
  apply Finset.eq_of_subset_of_card_le
  · intro x hx
    rw [List.mem_toFinset] at hx ⊢
    exact hsub hx
  · rw [List.toFinset_card_of_nodup hmapnd, List.toFinset_card_of_nodup (digitsOf_nodup size)]
    omega

theorem search_none (size fuel : Nat) : search size fuel none = none := by
  cases fuel <;> rw [search]

theorem tryCandidates_nil (size fuel : Nat) (v : Values) (s : Cell) :
    tryCandidates size fuel v s [] = none := rfl

theorem tryCandidates_cons (size fuel : Nat) (v : Values) (s : Cell)
    (d : Char) (ds : List Char) :
    tryCandidates size fuel v s (d :: ds) =
      match search size fuel (assign size fuel (copyValues v) s d) with
      | some sol => some sol
      | none => tryCandidates size fuel v s ds := by
  rw [tryCandidates, List.findSome?_cons]
  cases search size fuel (assign size fuel (copyValues v) s d) <;> rfl

/-- Soundness of the depth-first search: from any state satisfying the
engine invariants, a returned assignment makes every unit a permutation of
the digit alphabet. -/
theorem search_sound {size : Nat} (h1 : 1 ≤ size) (h26 : size ≤ 26) :
    ∀ fuel (v : Values) sol, GoodV size v →
      search size fuel (some v) = some sol →
      ∀ u ∈ unitlistOf size, (u.map sol).Perm (digitsOf size) := by
  intro fuel
  induction fuel with
  | zero =>
    intro v sol _ h
    rw [search] at h
    cases h
  | succ fuel ih =>
    intro v sol hG h
    rw [search] at h
    by_cases hall : allSolved size v
    · rw [if_pos hall] at h
      injection h with h2
      subst h2
      exact solved_values_valid h1 h26 hG hall
    · rw [if_neg hall] at h
      cases hc : chooseCell size v with
      | none => rw [hc] at h; cases h
      | some s =>
        rw [hc] at h
        clear hc
        have h2 : tryCandidates size fuel v s (v s) = some sol := h
        clear h
        generalize (v s) = ds at h2
        induction ds with
        | nil =>
          rw [tryCandidates_nil] at h2
          cases h2
        | cons d ds ihd =>
          rw [tryCandidates_cons] at h2
          cases ha : assign size fuel (copyValues v) s d with
          | none =>
            rw [ha, search_none] at h2
            exact ihd h2
          | some v2 =>
            rw [ha] at h2
            cases hs : search size fuel (some v2) with
            | none =>
              rw [hs] at h2
              exact ihd h2
            | some sol2 =>
              rw [hs] at h2
              injection h2 with h3
              subst h3
              have hG2 : GoodV size v2 := assign_good size fuel hG ha
              exact ih v2 _ hG2 hs

/-- Claim C1: whenever `solve`/`search` of `sudo.py` returns a complete
assignment (rather than a failure), every row, column and subgrid unit of
the board is a permutation of the full digit alphabet. -/
theorem exact_search_solutions_valid (size fuel : Nat)
    (grid : List (Cell × Char)) (sol : Cell → Char)
    (h : sudoSolve size fuel grid = some sol) :
    ∀ u ∈ unitlistOf size, (u.map sol).Perm (digitsOf size) := by
  rw [sudoSolve] at h
  cases hinit : init_structures size with
  | error e => rw [hinit] at h; cases h
  | ok st =>
    rw [hinit] at h
    have hok : (init_structures size).isOk = true := by rw [hinit]; rfl
    have hbounds := ((init_structures_classification size).1).mp hok
    cases hp : parse_grid size fuel grid with
    | none => rw [hp] at h; cases h
    | some v =>
      rw [hp] at h
      simp only [Option.some_bind] at h
      exact search_sound hbounds.1 hbounds.2 fuel v sol
        (parse_good hbounds.1 hbounds.2 hp) h

/-- A fully-clued valid 4×4 puzzle, used to instantiate the theorems on a
concrete solver run. -/
def demoGrid4 : List (Cell × Char) :=
  [(('A', 1), '1'), (('A', 2), '2'), (('A', 3), '3'), (('A', 4), '4'),
   (('B', 1), '3'), (('B', 2), '4'), (('B', 3), '1'), (('B', 4), '2'),
   (('C', 1), '2'), (('C', 2), '1'), (('C', 3), '4'), (('C', 4), '3'),
   (('D', 1), '4'), (('D', 2), '3'), (('D', 3), '2'), (('D', 4), '1')]

/-- The assignment returned by the exact solver on `demoGrid4`. -/
def demoSol4 : Cell → Char :=
  fun s => ((sudoSolve 4 50 demoGrid4).getD fun _ => '?') s

/-- Witness for C1: a concrete successful solver run whose result the
theorem certifies. -/
theorem exact_search_solutions_valid_witness :
    sudoSolve 4 50 demoGrid4 = some demoSol4 ∧
    ∀ u ∈ unitlistOf 4, (u.map demoSol4).Perm (digitsOf 4) := by
  have h : sudoSolve 4 50 demoGrid4 = some demoSol4 := rfl
  exact ⟨h, exact_search_solutions_valid 4 50 demoGrid4 demoSol4 h⟩

/-- Claim C3: the exact search's candidate loop is frame-safe.  Each
speculative branch runs on its own copy of the assignment
(`values.copy()` per candidate, the identity on the embedded functional
state), so when the speculative `assign` of a candidate — and the whole
recursive search under it — fails, the loop goes on to the next candidate
from exactly the state held at the choice point: dropping the failed
candidate leaves the rest of the loop unchanged. -/
theorem search_branch_frame (size fuel : Nat) (v : Values) (s : Cell)
    (d : Char) (ds : List Char)
    (hfail : search size fuel (assign size fuel (copyValues v) s d) = none) :
    tryCandidates size fuel v s (d :: ds) = tryCandidates size fuel v s ds := by
  rw [tryCandidates_cons, hfail]

/-- A small state in which assigning `'2'` to cell A1 contradicts
(it would empty cell A2). -/
def demoV1 : Values := fun t =>
  if t = (('A', 1) : Cell) then ['1', '2']
  else if t = (('A', 2) : Cell) then ['2']
  else ['1', '2', '3', '4']

/-- Witness for C3: a concrete failing speculative branch, skipped without
disturbing the choice-point state. -/
theorem search_branch_frame_witness :
    search 4 10 (assign 4 10 (copyValues demoV1) ('A', 1) '2') = none ∧
    tryCandidates 4 10 demoV1 ('A', 1) ('2' :: ['3']) =
      tryCandidates 4 10 demoV1 ('A', 1) ['3'] := by
  have h : search 4 10 (assign 4 10 (copyValues demoV1) ('A', 1) '2') = none := rfl
  exact ⟨h, search_branch_frame 4 10 demoV1 ('A', 1) '2' ['3'] h⟩

/-- Claim C10 (amended): the builder raises its size `ValueError` exactly
for `N < 1`; every positive `N` admits a factorization (the search loop
falls back to 1), so the "no valid factorization" failure cannot occur;
construction succeeds exactly for `1 ≤ N ≤ 26`, and for `N > 26` it fails
with an `IndexError` (row labels exhausted) rather than the configuration
error. -/
theorem model_builder_failure_characterization (N : Nat) :
    ((init_structures N).isOk = true ↔ (1 ≤ N ∧ N ≤ 26)) ∧
    (init_structures N = .error .valueError ↔ N = 0) ∧
    (init_structures N = .error .indexError ↔ 27 ≤ N) ∧
    (1 ≤ N → subgridRowsOf N ∣ N) :=
  init_structures_classification N

/-- Claim C4: for every board size the builder accepts, the generated unit
list has exactly `3 N` units (`N` columns, `N` rows, `N` subgrids), every
cell of the board belongs to exactly 3 units, and at `N = 9` every cell has
exactly 20 distinct peers. -/
theorem model_shape_3N_units (N : Nat) (h1 : 1 ≤ N) (h26 : N ≤ 26) :
    (unitlistOf N).length = 3 * N ∧
    (∀ s ∈ squaresOf N, (unitsOf N s).length = 3) ∧
    (N = 9 → ∀ s ∈ squaresOf N,
      (peersOf N s).length = 20 ∧ (peersOf N s).Nodup) := by
  refine ⟨unitlist_length h1 h26, ?_, ?_⟩
  · intro s hs
    obtain ⟨a, ha, b, hb, rfl⟩ := (mem_squaresOf h26).mp hs
    exact units_count_three h1 h26 ha hb
  · rintro rfl s hs
    refine ⟨?_, List.nodup_dedup _⟩
    revert hs
    revert s
    decide

/-- Witness for C4 at the standard board size. -/
theorem model_shape_3N_units_witness :
    (1 ≤ 9) ∧ (9 ≤ 26) ∧
    ((unitlistOf 9).length = 3 * 9 ∧
     (∀ s ∈ squaresOf 9, (unitsOf 9 s).length = 3) ∧
     (9 = 9 → ∀ s ∈ squaresOf 9,
       (peersOf 9 s).length = 20 ∧ (peersOf 9 s).Nodup)) :=
  ⟨by omega, by omega, model_shape_3N_units 9 (by omega) (by omega)⟩

/-! ## The ant-colony propagation engine

`ACOSolver._eliminate_value` is `sudo.eliminate` plus the unit loop: for
every unit of the cell it counts the places still admitting the digit,
fails on zero places, and assigns the digit on exactly one place.
`norvig.eliminate` implements the same two strategies.  The body of the
singleton branch is `self._assign_value(values, dplaces[0], d)` unfolded
(it is a fold of `_eliminate_value` over the other candidates of that
place), which keeps the recursion structural in the fuel. -/

/-- The body of the `for u in self.units[s]` loop of `_eliminate_value`,
parameterized by the eliminator used at the recursive call. -/
def unitStep (elim : Values → Cell → Char → Option Values) (d : Char)
    (w : Values) (u : List Cell) : Option Values :=
  let dplaces := u.filter fun c => decide (d ∈ w c)
  if dplaces.length = 0 then none
  else if dplaces.length = 1 then
    ((w dplaces.headI).filter fun x => decide (x ≠ d)).foldlM
      (fun w2 x => elim w2 dplaces.headI x) w
  else some w

/-- `_eliminate_value` from `aco_solver.py`. -/
def elimACO (size : Nat) : Nat → Values → Cell → Char → Option Values
  | 0, _, _, _ => none
  | fuel + 1, v, s, d =>
    if d ∈ v s then
      let v1 := updateV v s ((v s).erase d)
      if (v1 s).length = 0 then none
      else
        (if (v1 s).length = 1 then
          (peersOf size s).foldlM
            (fun w s2 => elimACO size fuel w s2 ((v1 s).headI)) v1
         else some v1).bind fun v2 =>
          (unitsOf size s).foldlM (unitStep (elimACO size fuel) d) v2
    else some v

/-- `_assign_value` from `aco_solver.py`. -/
def assignACO (size fuel : Nat) (v : Values) (s : Cell) (d : Char) :
    Option Values :=
  ((v s).filter fun x => decide (x ≠ d)).foldlM
    (fun w x => elimACO size fuel w s x) v

/-- The singleton branch of the unit loop is exactly
`_assign_value(values, dplaces[0], d)`. -/
theorem unitStep_singleton_eq_assign (size fuel : Nat) (d : Char)
    (w : Values) (u : List Cell) (c : Cell)
    (h : u.filter (fun c2 => decide (d ∈ w c2)) = [c]) :
    unitStep (elimACO size fuel) d w u = assignACO size fuel w c d := by
  rw [unitStep]
  simp only [h]
  rfl

theorem unitStep_mono {elim : Values → Cell → Char → Option Values}
    (helim : ∀ w s x w', elim w s x = some w' → ∀ t, w' t ⊆ w t)
    {d : Char} {w w' : Values} {u : List Cell}
    (h : unitStep elim d w u = some w') : ∀ t, w' t ⊆ w t := by
  rw [unitStep] at h
  by_cases h0 : (u.filter fun c => decide (d ∈ w c)).length = 0
  · rw [if_pos h0] at h; cases h
  · rw [if_neg h0] at h
    by_cases h1 : (u.filter fun c => decide (d ∈ w c)).length = 1
    · rw [if_pos h1] at h
      exact foldlM_mono (fun w2 a w3 hs => helim w2 _ a w3 hs) _ _ _ h
    · rw [if_neg h1] at h
      cases h
      exact fun t x hx => hx

theorem unitStep_inv {P : Values → Prop}
    {elim : Values → Cell → Char → Option Values}
    (helim : ∀ w s x w', P w → elim w s x = some w' → P w')
    {d : Char} {w w' : Values} {u : List Cell}
    (hP : P w) (h : unitStep elim d w u = some w') : P w' := by
  rw [unitStep] at h
  by_cases h0 : (u.filter fun c => decide (d ∈ w c)).length = 0
  · rw [if_pos h0] at h; cases h
  · rw [if_neg h0] at h
    by_cases h1 : (u.filter fun c => decide (d ∈ w c)).length = 1
    · rw [if_pos h1] at h
      exact foldlM_inv (fun w2 a w3 hw hs => helim w2 _ a w3 hw hs) _ _ _ hP h
    · rw [if_neg h1] at h
      cases h
      exact hP

theorem elimACO_mono (size : Nat) :
    ∀ fuel v s d v', elimACO size fuel v s d = some v' → ∀ t, v' t ⊆ v t := by
  intro fuel
  induction fuel with
  | zero => intro v s d v' h; cases h
  | succ fuel ih =>
    intro v s d v' h t
    rw [elimACO] at h
    by_cases hd : d ∈ v s
    · rw [if_pos hd] at h
      by_cases h0 : ((updateV v s ((v s).erase d)) s).length = 0
      · rw [if_pos h0] at h; cases h
      · rw [if_neg h0] at h
        have hsub1 : ∀ t, (updateV v s ((v s).erase d)) t ⊆ v t := by
          intro t2 x hx
          by_cases hts : t2 = s
          · subst hts
            rw [updateV_same] at hx
            exact List.mem_of_mem_erase hx
          · rwa [updateV_other _ _ _ _ hts] at hx
        cases hnk : (if ((updateV v s ((v s).erase d)) s).length = 1 then
            (peersOf size s).foldlM
              (fun w s2 => elimACO size fuel w s2 (((updateV v s ((v s).erase d)) s).headI))
              (updateV v s ((v s).erase d))
          else some (updateV v s ((v s).erase d))) with
        | none => rw [hnk] at h; cases h
        | some v2 =>
          rw [hnk] at h
          simp only [Option.some_bind] at h
          have hsub2 : ∀ t, v2 t ⊆ (updateV v s ((v s).erase d)) t := by
            by_cases h1 : ((updateV v s ((v s).erase d)) s).length = 1
            · rw [if_pos h1] at hnk
              exact foldlM_mono (fun w a w2 hs => ih w a _ w2 hs) _ _ _ hnk
            · rw [if_neg h1] at hnk
              cases hnk
              exact fun t x hx => hx
          have hsub3 : ∀ t, v' t ⊆ v2 t :=
            foldlM_mono (fun w a w2 hs =>
              unitStep_mono (fun w3 s3 x w4 hs2 => ih w3 s3 x w4 hs2) hs) _ _ _ h
          exact fun x hx => hsub1 t (hsub2 t (hsub3 t hx))
    · rw [if_neg hd] at h
      cases h
      exact fun x hx => hx

theorem elimACO_nodup (size : Nat) :
    ∀ fuel v s d v', NodupV v → elimACO size fuel v s d = some v' → NodupV v' := by
  intro fuel
  induction fuel with
  | zero => intro v s d v' _ h; cases h
  | succ fuel ih =>
    intro v s d v' hN h
    rw [elimACO] at h
    by_cases hd : d ∈ v s
    · rw [if_pos hd] at h
      have hN1 : NodupV (updateV v s ((v s).erase d)) := by
        intro t
        by_cases hts : t = s
        · subst hts; rw [updateV_same]; exact (hN t).erase d
        · rw [updateV_other _ _ _ _ hts]; exact hN t
      by_cases h0 : ((updateV v s ((v s).erase d)) s).length = 0
      · rw [if_pos h0] at h; cases h
      · rw [if_neg h0] at h
        cases hnk : (if ((updateV v s ((v s).erase d)) s).length = 1 then
            (peersOf size s).foldlM
              (fun w s2 => elimACO size fuel w s2 (((updateV v s ((v s).erase d)) s).headI))
              (updateV v s ((v s).erase d))
          else some (updateV v s ((v s).erase d))) with
        | none => rw [hnk] at h; cases h
        | some v2 =>
          rw [hnk] at h
          simp only [Option.some_bind] at h
          have hN2 : NodupV v2 := by
            by_cases h1 : ((updateV v s ((v s).erase d)) s).length = 1
            · rw [if_pos h1] at hnk
              exact foldlM_inv (fun w a w2 hw hs => ih w a _ w2 hw hs) _ _ _ hN1 hnk
            · rw [if_neg h1] at hnk
              cases hnk
              exact hN1
          exact foldlM_inv (fun w a w2 hw hs =>
            unitStep_inv (fun w3 s3 x w4 hw3 hs2 => ih w3 s3 x w4 hw3 hs2) hw hs)
            _ _ _ hN2 h
    · rw [if_neg hd] at h
      cases h
      exact hN

theorem elimACO_ne (size : Nat) :
    ∀ fuel v s d v', NEV v → elimACO size fuel v s d = some v' → NEV v' := by
  intro fuel
  induction fuel with
  | zero => intro v s d v' _ h; cases h
  | succ fuel ih =>
    intro v s d v' hN h
    rw [elimACO] at h
    by_cases hd : d ∈ v s
    · rw [if_pos hd] at h
      by_cases h0 : ((updateV v s ((v s).erase d)) s).length = 0
      · rw [if_pos h0] at h; cases h
      · rw [if_neg h0] at h
        have hN1 : NEV (updateV v s ((v s).erase d)) := by
          intro t
          by_cases hts : t = s
          · subst hts
            rw [updateV_same]
            rw [updateV_same] at h0
            intro hnil
            rw [hnil] at h0
            exact h0 rfl
          · rw [updateV_other _ _ _ _ hts]; exact hN t
        cases hnk : (if ((updateV v s ((v s).erase d)) s).length = 1 then
            (peersOf size s).foldlM
              (fun w s2 => elimACO size fuel w s2 (((updateV v s ((v s).erase d)) s).headI))
              (updateV v s ((v s).erase d))
          else some (updateV v s ((v s).erase d))) with
        | none => rw [hnk] at h; cases h
        | some v2 =>
          rw [hnk] at h
          simp only [Option.some_bind] at h
          have hN2 : NEV v2 := by
            by_cases h1 : ((updateV v s ((v s).erase d)) s).length = 1
            · rw [if_pos h1] at hnk
              exact foldlM_inv (fun w a w2 hw hs => ih w a _ w2 hw hs) _ _ _ hN1 hnk
            · rw [if_neg h1] at hnk
              cases hnk
              exact hN1
          exact foldlM_inv (fun w a w2 hw hs =>
            unitStep_inv (fun w3 s3 x w4 hw3 hs2 => ih w3 s3 x w4 hw3 hs2) hw hs)
            _ _ _ hN2 h
    · rw [if_neg hd] at h
      cases h
      exact hN

theorem elimACO_removes (size : Nat) :
    ∀ fuel v s d v', NodupV v → elimACO size fuel v s d = some v' →
      d ∉ v' s := by
  intro fuel v s d v' hN h
  cases fuel with
  | zero => cases h
  | succ fuel =>
    rw [elimACO] at h
    by_cases hd : d ∈ v s
    · rw [if_pos hd] at h
      by_cases h0 : ((updateV v s ((v s).erase d)) s).length = 0
      · rw [if_pos h0] at h; cases h
      · rw [if_neg h0] at h
        have hout : d ∉ (updateV v s ((v s).erase d)) s := by
          rw [updateV_same]
          exact (hN s).not_mem_erase
        cases hnk : (if ((updateV v s ((v s).erase d)) s).length = 1 then
            (peersOf size s).foldlM
              (fun w s2 => elimACO size fuel w s2 (((updateV v s ((v s).erase d)) s).headI))
              (updateV v s ((v s).erase d))
          else some (updateV v s ((v s).erase d))) with
        | none => rw [hnk] at h; cases h
        | some v2 =>
          rw [hnk] at h
          simp only [Option.some_bind] at h
          have hsub2 : ∀ t, v2 t ⊆ (updateV v s ((v s).erase d)) t := by
            by_cases h1 : ((updateV v s ((v s).erase d)) s).length = 1
            · rw [if_pos h1] at hnk
              exact foldlM_mono (fun w a w2 hs =>
                elimACO_mono size fuel w a _ w2 hs) _ _ _ hnk
            · rw [if_neg h1] at hnk
              cases hnk
              exact fun t x hx => hx
          have hsub3 : ∀ t, v' t ⊆ v2 t :=
            foldlM_mono (fun w a w2 hs =>
              unitStep_mono (fun w3 s3 x w4 hs2 =>
                elimACO_mono size fuel w3 s3 x w4 hs2) hs) _ _ _ h
          exact fun hmem => hout (hsub2 s (hsub3 s hmem))
    · rw [if_neg hd] at h
      cases h
      exact hd

theorem eq_single_of_all_eq {l : List Char} {d : Char}
    (h1 : ∀ x ∈ l, x = d) (h2 : l ≠ []) (h3 : l.Nodup) : l = [d] := by
  cases l with
  | nil => exact absurd rfl h2
  | cons a t =>
    have ha : a = d := h1 a (by simp)
    subst ha
    cases t with
    | nil => rfl
    | cons b t2 =>
      have hb : b = a := h1 b (by simp)
      subst hb
      simp at h3

/-- Candidates only shrink, so a solved cell stays solved. -/
theorem singleton_persist {w v' : Values} {c : Cell} {d : Char}
    (hm : ∀ t, v' t ⊆ w t) (hnd : NodupV v') (hne : NEV v')
    (hc : w c = [d]) : v' c = [d] := by
  refine eq_single_of_all_eq ?_ (hne c) (hnd c)
  intro x hx
  have := hm c hx
  rw [hc] at this
  simpa using this

/-- The fold of `_assign_value` eliminates every other candidate from the
cell, so a successful assign pins the cell to the assigned digit. -/
theorem assignACO_fixes (size fuel : Nat) {v v' : Values} {c : Cell} {d : Char}
    (hN : NodupV v) (hNE : NEV v) (hd : d ∈ v c)
    (h : assignACO size fuel v c d = some v') : v' c = [d] := by
  have key : ∀ (l : List Char) (w w' : Values), NodupV w →
      l.foldlM (fun w2 x => elimACO size fuel w2 c x) w = some w' →
      (∀ x ∈ l, x ∉ w' c) ∧ NodupV w' ∧ (∀ t, w' t ⊆ w t) := by
    intro l
    induction l with
    | nil =>
      intro w w' hw h2
      simp only [List.foldlM_nil] at h2
      cases h2
      exact ⟨fun x hx => absurd hx (List.not_mem_nil x), hw, fun t x hx => hx⟩
    | cons a l ih =>
      intro w w' hw h2
      simp only [List.foldlM_cons] at h2
      cases hstep : elimACO size fuel w c a with
      | none => rw [hstep] at h2; cases h2
      | some w1 =>
        rw [hstep] at h2
        have hw1 : NodupV w1 := elimACO_nodup size fuel w c a w1 hw hstep
        obtain ⟨A, B, C⟩ := ih w1 w' hw1 h2
        refine ⟨?_, B, fun t x hx =>
          elimACO_mono size fuel w c a w1 hstep t (C t hx)⟩
        intro x hx
        rcases List.mem_cons.mp hx with rfl | hx2
        · intro hmem
          exact elimACO_removes size fuel w c x w1 hw hstep (C c hmem)
        · exact A x hx2
  obtain ⟨A, B, C⟩ := key _ v v' hN h
  have hne' : NEV v' := foldlM_inv
    (fun w a w2 hw hs => elimACO_ne size fuel w c a w2 hw hs) _ _ _ hNE h
  refine eq_single_of_all_eq ?_ (hne' c) (B c)
  intro x hx
  by_contra hxd
  exact A x (List.mem_filter.mpr ⟨C c hx, by simpa using hxd⟩) hx

/-- Once a unit has no place left for the digit, later (shrinking) steps
cannot restore one, so the unit loop must fail. -/
theorem foldUnits_fails (size fuel : Nat) (d : Char) :
    ∀ (l : List (List Cell)) (w : Values),
      (∃ u ∈ l, ∀ c ∈ u, d ∉ w c) →
      l.foldlM (unitStep (elimACO size fuel) d) w = none := by
  intro l
  induction l with
  | nil =>
    rintro w ⟨u, hu, _⟩
    exact absurd hu (List.not_mem_nil u)
  | cons u0 us ih =>
    rintro w ⟨u, hu, hnp⟩
    simp only [List.foldlM_cons]
    rcases List.mem_cons.mp hu with rfl | hu2
    · have hfilter : u.filter (fun c => decide (d ∈ w c)) = [] := by
        rw [List.filter_eq_nil_iff]
        intro c hc
        simpa using hnp c hc
      rw [show unitStep (elimACO size fuel) d w u = none from by
        rw [unitStep]; simp [hfilter]]
      rfl
    · cases hstep : unitStep (elimACO size fuel) d w u0 with
      | none => rfl
      | some w1 =>
        have hmono := unitStep_mono
          (fun w3 s3 x w4 hs2 => elimACO_mono size fuel w3 s3 x w4 hs2) hstep
        exact ih w1 ⟨u, hu2, fun c hc hmem => hnp c hc (hmono c hmem)⟩

theorem eq_single_of_all_eq_count {l : List Cell} {c : Cell}
    (h1 : ∀ x ∈ l, x = c) (h2 : l.count c = 1) : l = [c] := by
  cases l with
  | nil => simp at h2
  | cons a t =>
    have ha : a = c := h1 a (by simp)
    subst ha
    rw [List.count_cons_self] at h2
    have ht : t.count a = 0 := by omega
    cases t with
    | nil => rfl
    | cons b t2 =>
      have hb : b = a := h1 b (by simp)
      subst hb
      rw [List.count_cons_self] at ht
      omega

/-- If some unit in the loop has exactly one place for the digit (measured
against an over-approximating reference state the fold only shrinks), a
successful pass of the unit loop has assigned the digit there. -/
theorem foldUnits_assigns (size fuel : Nat) (d : Char) (v1 : Values)
    (u : List Cell) (c : Cell)
    (hone : u.filter (fun c2 => decide (d ∈ v1 c2)) = [c]) :
    ∀ (l : List (List Cell)) (w w' : Values), NodupV w → NEV w →
      (∀ t, w t ⊆ v1 t) → u ∈ l →
      l.foldlM (unitStep (elimACO size fuel) d) w = some w' →
      w' c = [d] := by
  intro l
  induction l with
  | nil =>
    intro w w' _ _ _ hu
    exact absurd hu (List.not_mem_nil u)
  | cons u0 us ih =>
    intro w w' hN hNE hsub hu h
    simp only [List.foldlM_cons] at h
    cases hstep : unitStep (elimACO size fuel) d w u0 with
    | none => rw [hstep] at h; cases h
    | some w1 =>
      rw [hstep] at h
      have hN1 : NodupV w1 := unitStep_inv
        (fun w3 s3 x w4 hw3 hs2 => elimACO_nodup size fuel w3 s3 x w4 hw3 hs2)
        hN hstep
      have hNE1 : NEV w1 := unitStep_inv
        (fun w3 s3 x w4 hw3 hs2 => elimACO_ne size fuel w3 s3 x w4 hw3 hs2)
        hNE hstep
      have hmono := unitStep_mono
        (fun w3 s3 x w4 hs2 => elimACO_mono size fuel w3 s3 x w4 hs2) hstep
      rcases List.mem_cons.mp hu with rfl | hu2
      · -- the distinguished unit is processed by this very step
        have hcc : ∀ x ∈ u.filter (fun c2 => decide (d ∈ w c2)), x = c := by
          intro x hx
          rw [List.mem_filter] at hx
          have hx2 : x ∈ u.filter (fun c2 => decide (d ∈ v1 c2)) :=
            List.mem_filter.mpr ⟨hx.1, by
              have h3 := hsub x (by simpa using hx.2)
              simpa using h3⟩
          rw [hone] at hx2
          simpa using hx2
        by_cases hdc : d ∈ w c
        · have hdv1 : d ∈ v1 c := hsub c hdc
          have hcntW : (u.filter (fun c2 => decide (d ∈ w c2))).count c = 1 := by
            rw [List.count_filter (by simpa using hdc)]
            have hcf : (u.filter fun c2 => decide (d ∈ v1 c2)).count c
                = u.count c := List.count_filter (by simpa using hdv1)
            rw [← hcf, hone]
            simp
          have hcount : u.filter (fun c2 => decide (d ∈ w c2)) = [c] :=
            eq_single_of_all_eq_count hcc hcntW
          rw [unitStep_singleton_eq_assign size fuel d w u c hcount] at hstep
          have hw1c : w1 c = [d] := assignACO_fixes size fuel hN hNE hdc hstep
          have hmono2 : ∀ t, w' t ⊆ w1 t :=
            foldlM_mono (fun w3 a w4 hs =>
              unitStep_mono (fun w5 s5 x w6 hs2 =>
                elimACO_mono size fuel w5 s5 x w6 hs2) hs) _ _ _ h
          have hN' : NodupV w' := foldlM_inv (fun w3 a w4 hw3 hs =>
            unitStep_inv (fun w5 s5 x w6 hw5 hs2 =>
              elimACO_nodup size fuel w5 s5 x w6 hw5 hs2) hw3 hs) _ _ _ hN1 h
          have hNE' : NEV w' := foldlM_inv (fun w3 a w4 hw3 hs =>
            unitStep_inv (fun w5 s5 x w6 hw5 hs2 =>
              elimACO_ne size fuel w5 s5 x w6 hw5 hs2) hw3 hs) _ _ _ hNE1 h
          exact singleton_persist hmono2 hN' hNE' hw1c
        · exfalso
          have hfil : u.filter (fun c2 => decide (d ∈ w c2)) = [] := by
            rw [List.filter_eq_nil_iff]
            intro x hxu
            simp only [decide_eq_true_eq]
            intro hdx
            have hxc : x = c := hcc x (List.mem_filter.mpr ⟨hxu, by simpa using hdx⟩)
            subst hxc
            exact hdc hdx
          rw [unitStep] at hstep
          simp only [hfil] at hstep
          cases hstep
      · exact ih w1 w' hN1 hNE1
          (fun t x hx => hsub t (hmono t hx)) hu2 h

/-- Claim C2 (amended): the unit-counting strategy described by the spec
belongs to the ant-colony engine `_eliminate_value` (and to
`norvig.eliminate`), not to `sudo.eliminate`.  For the ant-colony engine
both behaviors hold: after removing `d` from cell `s`, (a) if some unit
containing `s` retains no cell admitting `d`, the call reports a
contradiction; (b) if a unit containing `s` retains exactly one cell `c`
admitting `d`, then any successful call has recursively assigned `d`
to `c`. -/
theorem aco_eliminate_unit_check (size fuel : Nat) (v : Values) (s : Cell)
    (d : Char) (hN : NodupV v) (hNE : NEV v) (hd : d ∈ v s) :
    ((∃ u ∈ unitsOf size s, ∀ c ∈ u, d ∉ updateV v s ((v s).erase d) c) →
      elimACO size fuel v s d = none) ∧
    (∀ v' u c, u ∈ unitsOf size s →
      u.filter (fun c2 => decide (d ∈ updateV v s ((v s).erase d) c2)) = [c] →
      elimACO size fuel v s d = some v' → v' c = [d]) := by
  constructor
  · rintro ⟨u, hu, hnp⟩
    cases fuel with
    | zero => rfl
    | succ fuel =>
      rw [elimACO, if_pos hd]
      by_cases h0 : ((updateV v s ((v s).erase d)) s).length = 0
      · rw [if_pos h0]
      · rw [if_neg h0]
        cases hnk : (if ((updateV v s ((v s).erase d)) s).length = 1 then
            (peersOf size s).foldlM
              (fun w s2 => elimACO size fuel w s2 (((updateV v s ((v s).erase d)) s).headI))
              (updateV v s ((v s).erase d))
          else some (updateV v s ((v s).erase d))) with
        | none => rfl
        | some v2 =>
          simp only [Option.some_bind]
          have hsub2 : ∀ t, v2 t ⊆ (updateV v s ((v s).erase d)) t := by
            by_cases h1 : ((updateV v s ((v s).erase d)) s).length = 1
            · rw [if_pos h1] at hnk
              exact foldlM_mono (fun w a w2 hs =>
                elimACO_mono size fuel w a _ w2 hs) _ _ _ hnk
            · rw [if_neg h1] at hnk
              cases hnk
              exact fun t x hx => hx
          exact foldUnits_fails size fuel d _ v2
            ⟨u, hu, fun c hc hmem => hnp c hc (hsub2 c hmem)⟩
  · intro v' u c hu hone h
    cases fuel with
    | zero => cases h
    | succ fuel =>
      rw [elimACO, if_pos hd] at h
      by_cases h0 : ((updateV v s ((v s).erase d)) s).length = 0
      · rw [if_pos h0] at h; cases h
      · rw [if_neg h0] at h
        have hN1 : NodupV (updateV v s ((v s).erase d)) := by
          intro t
          by_cases hts : t = s
          · subst hts; rw [updateV_same]; exact (hN t).erase d
          · rw [updateV_other _ _ _ _ hts]; exact hN t
        have hNE1 : NEV (updateV v s ((v s).erase d)) := by
          intro t
          by_cases hts : t = s
          · subst hts
            rw [updateV_same]
            rw [updateV_same] at h0
            intro hnil
            rw [hnil] at h0
            exact h0 rfl
          · rw [updateV_other _ _ _ _ hts]; exact hNE t
        cases hnk : (if ((updateV v s ((v s).erase d)) s).length = 1 then
            (peersOf size s).foldlM
              (fun w s2 => elimACO size fuel w s2 (((updateV v s ((v s).erase d)) s).headI))
              (updateV v s ((v s).erase d))
          else some (updateV v s ((v s).erase d))) with
        | none => rw [hnk] at h; cases h
        | some v2 =>
          rw [hnk] at h
          simp only [Option.some_bind] at h
          have hsub2 : ∀ t, v2 t ⊆ (updateV v s ((v s).erase d)) t := by
            by_cases h1 : ((updateV v s ((v s).erase d)) s).length = 1
            · rw [if_pos h1] at hnk
              exact foldlM_mono (fun w a w2 hs =>
                elimACO_mono size fuel w a _ w2 hs) _ _ _ hnk
            · rw [if_neg h1] at hnk
              cases hnk
              exact fun t x hx => hx
          have hN2 : NodupV v2 := by
            by_cases h1 : ((updateV v s ((v s).erase d)) s).length = 1
            · rw [if_pos h1] at hnk
              exact foldlM_inv (fun w a w2 hw hs =>
                elimACO_nodup size fuel w a _ w2 hw hs) _ _ _ hN1 hnk
            · rw [if_neg h1] at hnk
              cases hnk
              exact hN1
          have hNE2 : NEV v2 := by
            by_cases h1 : ((updateV v s ((v s).erase d)) s).length = 1
            · rw [if_pos h1] at hnk
              exact foldlM_inv (fun w a w2 hw hs =>
                elimACO_ne size fuel w a _ w2 hw hs) _ _ _ hNE1 hnk
            · rw [if_neg h1] at hnk
              cases hnk
              exact hNE1
          exact foldUnits_assigns size fuel d _ u c hone _ v2 v' hN2 hNE2 hsub2 hu h

/-- A 4×4 state in which, once `'1'` is eliminated from A1, no cell of
row A admits `'1'` any more (while all other constraints stay slack). -/
def demoV2 : Values := fun t =>
  if t = (('A', 1) : Cell) then ['1', '2']
  else if t ∈ ([(('A', 2) : Cell), ('A', 3), ('A', 4),
                ('B', 1), ('C', 1), ('D', 1), ('B', 2)] : List Cell) then
    ['3', '4']
  else ['1', '2', '3', '4']

/-- Counterexample for C2 as stated: the Exact Search engine's `eliminate`
(`sudo.py`) performs no unit check.  Here, after `'1'` is eliminated from
A1, the row unit of A1 retains no cell admitting `'1'` — the claim demands
a contradiction — yet `eliminate` returns an updated assignment. -/
theorem sudo_eliminate_no_unit_check :
    '1' ∈ demoV2 ('A', 1) ∧
    rowUnit 4 'A' ∈ unitsOf 4 ('A', 1) ∧
    (eliminate 4 20 demoV2 ('A', 1) '1').isSome = true ∧
    (∀ c ∈ rowUnit 4 'A',
      '1' ∉ ((eliminate 4 20 demoV2 ('A', 1) '1').getD demoV2) c) := by
  refine ⟨by decide, by decide, by decide, by decide⟩

/-- A 4×4 state in which, once `'1'` is eliminated from A1, row A has
exactly one remaining place for `'1'` (cell A3). -/
def demoV3 : Values := fun t =>
  if t = (('A', 1) : Cell) then ['1', '2', '3']
  else if t = (('A', 2) : Cell) then ['2', '3', '4']
  else if t = (('A', 3) : Cell) then ['1', '3', '4']
  else if t = (('A', 4) : Cell) then ['2', '3', '4']
  else ['1', '2', '3', '4']

theorem demoV3_nodup : NodupV demoV3 := by
  intro t
  simp only [demoV3]
  split_ifs <;> decide

theorem demoV3_ne : NEV demoV3 := by
  intro t
  simp only [demoV3]
  split_ifs <;> decide

theorem demoV2_nodup : NodupV demoV2 := by
  intro t
  simp only [demoV2]
  split_ifs <;> decide

theorem demoV2_ne : NEV demoV2 := by
  intro t
  simp only [demoV2]
  split_ifs <;> decide

/-- The state produced by the ant-colony engine on `demoV3`. -/
def demoV3Res : Values :=
  fun t => ((elimACO 4 30 demoV3 ('A', 1) '1').getD demoV3) t

/-- Witness for C2: on `demoV2` the ant-colony engine detects the emptied
row unit and fails; on `demoV3` it detects the unique place A3 and pins it
to `'1'`. -/
theorem aco_eliminate_unit_check_witness :
    (NodupV demoV2 ∧ NEV demoV2 ∧ '1' ∈ demoV2 ('A', 1) ∧
      elimACO 4 30 demoV2 ('A', 1) '1' = none) ∧
    (NodupV demoV3 ∧ NEV demoV3 ∧ '1' ∈ demoV3 ('A', 1) ∧
      elimACO 4 30 demoV3 ('A', 1) '1' = some demoV3Res ∧
      demoV3Res ('A', 3) = ['1']) := by
  have h3 : elimACO 4 30 demoV3 ('A', 1) '1' = some demoV3Res := rfl
  refine ⟨⟨demoV2_nodup, demoV2_ne, by decide, ?_⟩,
    demoV3_nodup, demoV3_ne, by decide, h3, ?_⟩
  · exact (aco_eliminate_unit_check 4 30 demoV2 ('A', 1) '1'
      demoV2_nodup demoV2_ne (by decide)).1
      ⟨rowUnit 4 'A', by decide, by decide⟩
  · exact (aco_eliminate_unit_check 4 30 demoV3 ('A', 1) '1'
      demoV3_nodup demoV3_ne (by decide)).2
      demoV3Res (rowUnit 4 'A') ('A', 3) (by decide) (by decide) h3

/-! ## The ant-colony solver cycle (`ACOSolver.solve`)

Randomness — the starting cells drawn by `random.sample` and the
pheromone-weighted digit choice of `_choose_value` — is modelled by oracle
inputs: every index an oracle may supply corresponds to a draw of positive
probability in the Python code (the non-greedy branch samples every
feasible digit with positive probability, and any starting cell can be
drawn), so a property proved for every oracle covers every run.  The
pheromone matrix only biases those probabilities and never the control
flow, so it is not part of the embedded state; likewise the two pheromone
bookkeeping floats (`best_pheromone_to_add` and the decay) influence no
yielded value. -/

/-- The random draws consumed by one ant during one cycle. -/
structure AntOracle where
  start : Nat
  choice : Nat → Nat

/-- The random draws consumed by one cycle. -/
structure CycleOracle where
  ant : Nat → AntOracle

/-- One ant: its private copy of the candidate state, its validity flag,
its current cell index and its cached count of solved cells. -/
structure Ant where
  values : Values
  valid : Bool
  current : Nat
  fixedCount : Nat

/-- The solver state across cycles (`self.values`, `self.best_solution`,
`self.best_fixed`, and whether the generator has ended). -/
structure AcoState where
  values : Values
  bestSolution : Option Values
  bestFixed : Nat
  finished : Bool

/-- `_choose_value`: pick among the feasible candidates of the cell (the
deterministic single-candidate shortcut and the pheromone-weighted draw
both land in this set; the oracle index selects the element). -/
def chooseValueACO (size : Nat) (v : Values) (s : Cell) (idx : Nat) : Char :=
  let possible := (v s).filter fun x => decide (x ∈ digitsOf size)
  possible.getD (idx % possible.length) '?'

/-- `sum(1 for s in squares if len(values[s]) == 1)`. -/
def fixedCountOf (size : Nat) (v : Values) : Nat :=
  (squaresOf size).countP fun s => (v s).length == 1

/-- One step of an ant's walk: visit the current cell, assign a chosen
digit when the cell is still open (a failed assign invalidates the ant and,
  as in the Python `continue`, skips the bookkeeping), refresh the solved
count and advance to the next cell. -/
def antStep (size fuel : Nat) (o : AntOracle) (ant : Ant) (stepIdx : Nat) : Ant :=
  if ant.valid then
    let s := (squaresOf size).getD ant.current (('A', 0) : Cell)
    let ant1 :=
      if 1 < (ant.values s).length then
        match assignACO size fuel ant.values s
            (chooseValueACO size ant.values s (o.choice stepIdx)) with
        | none => { ant with valid := false }
        | some v2 => { ant with values := v2 }
      else ant
    if ant1.valid then
      { ant1 with fixedCount := fixedCountOf size ant1.values,
                  current := (ant1.current + 1) % (size * size) }
    else ant1
  else ant

/-- A full walk of `size * size` steps from the drawn starting cell, on the
ant's own copy of the cycle's start state. -/
def runAnt (size fuel : Nat) (values : Values) (o : AntOracle) : Ant :=
  (List.range (size * size)).foldl (antStep size fuel o)
    { values := values, valid := true,
      current := o.start % (size * size), fixedCount := 0 }

/-- `max(valid_ants, key=lambda x: x["fixed"])`: the first ant with the
maximal solved count. -/
def iterationBest (ants : List Ant) : Option Ant :=
  ants.foldl
    (fun acc a =>
      match acc with
      | none => some a
      | some b => if a.fixedCount > b.fixedCount then some a else some b)
    none

/-- One cycle of `ACOSolver.solve`: dispatch the ants, and either yield
`({}, 0.0)` untouched when every ant went invalid, or update the tracked
best and yield it.  When the best reaches `size*size` the generator breaks
(the extra final `yield best, 1.0` of the Python code repeats the same
fitness and is collapsed into the cycle's single recorded yield). -/
def acoCycle (size fuel numAnts : Nat) (st : AcoState) (o : CycleOracle) :
    AcoState × Option Values × ℚ :=
  let ants := (List.range numAnts).map fun i => runAnt size fuel st.values (o.ant i)
  let validAnts := ants.filter (·.valid)
  match iterationBest validAnts with
  | none => (st, none, 0)
  | some ib =>
    let bf := if ib.fixedCount ≥ st.bestFixed then ib.fixedCount else st.bestFixed
    let bs := if ib.fixedCount ≥ st.bestFixed then some ib.values else st.bestSolution
    let fin := decide (bf = size * size)
    ({ values := st.values, bestSolution := bs, bestFixed := bf, finished := fin },
      bs, (bf : ℚ) / ((size * size : Nat) : ℚ))

/-- The solver state before cycle `n` (absorbing once the generator has
ended). -/
def acoStateAt (size fuel numAnts : Nat) (st0 : AcoState)
    (o : Nat → CycleOracle) : Nat → AcoState
  | 0 => st0
  | n + 1 =>
    let st := acoStateAt size fuel numAnts st0 o n
    if st.finished then st else (acoCycle size fuel numAnts st (o n)).1

/-- The fitness yielded during cycle `n` (`none` once the generator is
exhausted). -/
def acoFitAt (size fuel numAnts : Nat) (st0 : AcoState)
    (o : Nat → CycleOracle) (n : Nat) : Option ℚ :=
  let st := acoStateAt size fuel numAnts st0 o n
  if st.finished then none
  else some (acoCycle size fuel numAnts st (o n)).2.2

/-- `_initialize_values` of the ant-colony constructor. -/
def acoInit (size fuel : Nat) (grid : List (Cell × Char)) : Option Values :=
  grid.foldlM
    (fun v sd =>
      if sd.2 ∈ digitsOf size then assignACO size fuel v sd.1 sd.2 else some v)
    (fun _ => digitsOf size)

/-- The engine invariants the ant walks preserve. -/
def OkV (size : Nat) (v : Values) : Prop := NodupV v ∧ NEV v ∧ SubD size v

theorem squaresOf_length {size : Nat} (h26 : size ≤ 26) :
    (squaresOf size).length = size * size := by
  simp [squaresOf, cross, List.length_flatMap, Function.comp_def,
    List.map_const', List.sum_replicate, smul_eq_mul, colsOf_length,
    rowsOf_length_of_le h26]

theorem assignACO_ok (size fuel : Nat) {v v' : Values} {s : Cell} {d : Char}
    (hOk : OkV size v) (h : assignACO size fuel v s d = some v') :
    OkV size v' := by
  obtain ⟨hN, hNE, hS⟩ := hOk
  refine ⟨foldlM_inv (fun w a w2 hw hs =>
      elimACO_nodup size fuel w s a w2 hw hs) _ _ _ hN h,
    foldlM_inv (fun w a w2 hw hs =>
      elimACO_ne size fuel w s a w2 hw hs) _ _ _ hNE h, ?_⟩
  have hmono : ∀ t, v' t ⊆ v t :=
    foldlM_mono (fun w a w2 hs => elimACO_mono size fuel w s a w2 hs) _ _ _ h
  exact fun t x hx => hS t (hmono t hx)

theorem chooseValueACO_mem {size : Nat} {v : Values} {s : Cell} {idx : Nat}
    (hS : v s ⊆ digitsOf size) (hne : v s ≠ []) :
    chooseValueACO size v s idx ∈ v s := by
  rw [chooseValueACO]
  have hfil : (v s).filter (fun x => decide (x ∈ digitsOf size)) = v s :=
    List.filter_eq_self.mpr fun x hx => by simpa using hS hx
  rw [hfil]
  have hpos : 0 < (v s).length := List.length_pos.mpr hne
  have hlt : idx % (v s).length < (v s).length := Nat.mod_lt idx hpos
  rw [List.getD_eq_getElem _ _ hlt]
  exact List.getElem_mem _

/-- The walk prefix of `k` steps. -/
def antWalk (size fuel : Nat) (values : Values) (o : AntOracle) (k : Nat) : Ant :=
  (List.range k).foldl (antStep size fuel o)
    { values := values, valid := true,
      current := o.start % (size * size), fixedCount := 0 }

theorem antWalk_succ (size fuel : Nat) (values : Values) (o : AntOracle)
    (k : Nat) :
    antWalk size fuel values o (k + 1) =
      antStep size fuel o (antWalk size fuel values o k) k := by
  rw [antWalk, antWalk, List.range_succ, List.foldl_append]
  rfl

theorem runAnt_eq_walk (size fuel : Nat) (values : Values) (o : AntOracle) :
    runAnt size fuel values o = antWalk size fuel values o (size * size) := rfl

theorem antStep_invalid (size fuel : Nat) (o : AntOracle) (ant : Ant)
    (i : Nat) (h : ant.valid = false) : antStep size fuel o ant i = ant := by
  rw [antStep, h]
  simp

theorem antStep_open_none (size fuel : Nat) (o : AntOracle) (ant : Ant)
    (i : Nat) (hval : ant.valid = true)
    (hopen : 1 < (ant.values
      ((squaresOf size).getD ant.current (('A', 0) : Cell))).length)
    (hassign : assignACO size fuel ant.values
      ((squaresOf size).getD ant.current (('A', 0) : Cell))
      (chooseValueACO size ant.values
        ((squaresOf size).getD ant.current (('A', 0) : Cell)) (o.choice i)) = none) :
    antStep size fuel o ant i = { ant with valid := false } := by
  rw [antStep, hval]
  simp only [if_true, if_pos hopen, hassign]
  simp

theorem antStep_open_some (size fuel : Nat) (o : AntOracle) (ant : Ant)
    (i : Nat) (v2 : Values) (hval : ant.valid = true)
    (hopen : 1 < (ant.values
      ((squaresOf size).getD ant.current (('A', 0) : Cell))).length)
    (hassign : assignACO size fuel ant.values
      ((squaresOf size).getD ant.current (('A', 0) : Cell))
      (chooseValueACO size ant.values
        ((squaresOf size).getD ant.current (('A', 0) : Cell)) (o.choice i)) = some v2) :
    antStep size fuel o ant i =
      { values := v2, valid := true,
        current := (ant.current + 1) % (size * size),
        fixedCount := fixedCountOf size v2 } := by
  rw [antStep, hval]
  simp only [if_true, if_pos hopen, hassign]

theorem antStep_closed (size fuel : Nat) (o : AntOracle) (ant : Ant)
    (i : Nat) (hval : ant.valid = true)
    (hopen : ¬ 1 < (ant.values
      ((squaresOf size).getD ant.current (('A', 0) : Cell))).length) :
    antStep size fuel o ant i =
      { ant with current := (ant.current + 1) % (size * size),
                 fixedCount := fixedCountOf size ant.values } := by
  rw [antStep, hval]
  simp only [if_true, if_neg hopen, hval]

/-- Invariant of a valid walk: the engine invariants hold, the ant is at
cell `(start + k) mod n`, and every previously visited cell is solved. -/
theorem antWalk_invariant (size fuel : Nat) (h1 : 1 ≤ size) (h26 : size ≤ 26)
    {values : Values} (hOk : OkV size values) (o : AntOracle) :
    ∀ k, (antWalk size fuel values o k).valid = true →
      OkV size (antWalk size fuel values o k).values ∧
      (antWalk size fuel values o k).current = (o.start + k) % (size * size) ∧
      (∀ j, j < k →
        ((antWalk size fuel values o k).values
          ((squaresOf size).getD ((o.start + j) % (size * size))
            (('A', 0) : Cell))).length = 1) := by
  intro k
  induction k with
  | zero =>
    intro _
    exact ⟨hOk, rfl, fun j hj => absurd hj (by omega)⟩
  | succ k ih =>
    intro hval
    rw [antWalk_succ] at hval ⊢
    have hvk : (antWalk size fuel values o k).valid = true := by
      cases hh : (antWalk size fuel values o k).valid
      · rw [antStep_invalid size fuel o _ k hh] at hval
        rw [hh] at hval
        cases hval
      · rfl
    obtain ⟨hOkk, hcur, hsing⟩ := ih hvk
    obtain ⟨hNk, hNEk, hSk⟩ := hOkk
    by_cases hopen : 1 < ((antWalk size fuel values o k).values
        ((squaresOf size).getD (antWalk size fuel values o k).current
          (('A', 0) : Cell))).length
    · cases hassign : assignACO size fuel (antWalk size fuel values o k).values
          ((squaresOf size).getD (antWalk size fuel values o k).current (('A', 0) : Cell))
          (chooseValueACO size (antWalk size fuel values o k).values
            ((squaresOf size).getD (antWalk size fuel values o k).current
              (('A', 0) : Cell)) (o.choice k)) with
      | none =>
        rw [antStep_open_none size fuel o _ k hvk hopen hassign] at hval
        cases hval
      | some v2 =>
        rw [antStep_open_some size fuel o _ k v2 hvk hopen hassign]
        have hOk2 : OkV size v2 := assignACO_ok size fuel ⟨hNk, hNEk, hSk⟩ hassign
        have hmono : ∀ t, v2 t ⊆ (antWalk size fuel values o k).values t :=
          foldlM_mono (fun w a w2 hs2 =>
            elimACO_mono size fuel w _ a w2 hs2) _ _ _ hassign
        refine ⟨hOk2, ?_, ?_⟩
        · simp only [hcur]
          rw [Nat.mod_add_mod, Nat.add_assoc]
        · intro j hj
          simp only
          rcases Nat.lt_or_ge j k with hjk | hjk
          · have hsj := hsing j hjk
            obtain ⟨x, hx⟩ := List.length_eq_one.mp hsj
            have hp := singleton_persist hmono hOk2.1 hOk2.2.1 hx
            rw [hp]
            rfl
          · have hjeq : j = k := by omega
            subst hjeq
            have hchosen : chooseValueACO size (antWalk size fuel values o j).values
                ((squaresOf size).getD (antWalk size fuel values o j).current
                  (('A', 0) : Cell)) (o.choice j) ∈
                (antWalk size fuel values o j).values
                  ((squaresOf size).getD (antWalk size fuel values o j).current
                    (('A', 0) : Cell)) :=
              chooseValueACO_mem (hSk _) (hNEk _)
            have hfix := assignACO_fixes size fuel hNk hNEk hchosen hassign
            rw [← hcur, hfix]
            rfl
    · rw [antStep_closed size fuel o _ k hvk hopen]
      refine ⟨⟨hNk, hNEk, hSk⟩, ?_, ?_⟩
      · simp only [hcur]
        rw [Nat.mod_add_mod, Nat.add_assoc]
      · intro j hj
        simp only
        rcases Nat.lt_or_ge j k with hjk | hjk
        · exact hsing j hjk
        · have hjeq : j = k := by omega
          subst hjeq
          have hlp : 0 < ((antWalk size fuel values o j).values
              ((squaresOf size).getD (antWalk size fuel values o j).current
                (('A', 0) : Cell))).length :=
            List.length_pos.mpr (hNEk _)
          rw [← hcur]
          omega

theorem exists_shift (n a m : Nat) (hn : 0 < n) (hm : m < n) :
    ∃ j, j < n ∧ (a + j) % n = m := by
  have hr : a % n < n := Nat.mod_lt a hn
  by_cases h : a % n ≤ m
  · refine ⟨m - a % n, by omega, ?_⟩
    rw [Nat.add_mod, Nat.mod_eq_of_lt (show m - a % n < n by omega)]
    have he : a % n + (m - a % n) = m := by omega
    rw [he, Nat.mod_eq_of_lt hm]
  · refine ⟨m + n - a % n, by omega, ?_⟩
    rw [Nat.add_mod, Nat.mod_eq_of_lt (show m + n - a % n < n by omega)]
    have he : a % n + (m + n - a % n) = m + n := by omega
    rw [he, Nat.add_mod_right, Nat.mod_eq_of_lt hm]

theorem antStep_fixedCount (size fuel : Nat) (o : AntOracle) (ant : Ant)
    (i : Nat) (hv : (antStep size fuel o ant i).valid = true) :
    (antStep size fuel o ant i).fixedCount =
      fixedCountOf size (antStep size fuel o ant i).values := by
  have hval : ant.valid = true := by
    cases hh : ant.valid
    · rw [antStep_invalid size fuel o ant i hh, hh] at hv
      cases hv
    · rfl
  by_cases hopen : 1 < (ant.values
      ((squaresOf size).getD ant.current (('A', 0) : Cell))).length
  · cases hassign : assignACO size fuel ant.values
        ((squaresOf size).getD ant.current (('A', 0) : Cell))
        (chooseValueACO size ant.values
          ((squaresOf size).getD ant.current (('A', 0) : Cell)) (o.choice i)) with
    | none =>
      rw [antStep_open_none size fuel o ant i hval hopen hassign] at hv
      cases hv
    | some v2 =>
      rw [antStep_open_some size fuel o ant i v2 hval hopen hassign]
  · rw [antStep_closed size fuel o ant i hval hopen]

/-- A valid ant at the end of its walk has visited every cell, so its
recorded solved count is the full board. -/
theorem runAnt_valid_all_fixed (size fuel : Nat) (h1 : 1 ≤ size)
    (h26 : size ≤ 26) {values : Values} (hOk : OkV size values)
    (o : AntOracle) (hval : (runAnt size fuel values o).valid = true) :
    (runAnt size fuel values o).fixedCount = size * size := by
  rw [runAnt_eq_walk] at hval ⊢
  have hn : 0 < size * size := Nat.mul_pos h1 h1
  obtain ⟨hOkf, _, hsolved⟩ :=
    antWalk_invariant size fuel h1 h26 hOk o (size * size) hval
  obtain ⟨k, hk⟩ : ∃ k, size * size = k + 1 := ⟨size * size - 1, by omega⟩
  have hstep : antWalk size fuel values o (size * size) =
      antStep size fuel o (antWalk size fuel values o k) k := by
    rw [hk, antWalk_succ]
  rw [hstep, antStep_fixedCount size fuel o _ k (hstep ▸ hval), ← hstep]
  have hall : ∀ s ∈ squaresOf size,
      ((antWalk size fuel values o (size * size)).values s).length = 1 := by
    intro s hs
    obtain ⟨m, hmlt, hms⟩ := List.mem_iff_getElem.mp hs
    rw [squaresOf_length h26] at hmlt
    obtain ⟨j, hj, hjm⟩ := exists_shift (size * size) o.start m hn hmlt
    have hone := hsolved j hj
    rw [hjm, List.getD_eq_getElem _ _ (by rw [squaresOf_length h26]; exact hmlt),
      hms] at hone
    exact hone
  rw [fixedCountOf, List.countP_eq_length.mpr, squaresOf_length h26]
  intro a ha
  simp [hall a ha]

theorem bestFold_mem : ∀ (l : List Ant) (acc : Option Ant) (b : Ant),
    l.foldl
      (fun acc a =>
        match acc with
        | none => some a
        | some c => if a.fixedCount > c.fixedCount then some a else some c)
      acc = some b →
    acc = some b ∨ b ∈ l := by
  intro l
  induction l with
  | nil => exact fun acc b h => Or.inl h
  | cons a l ih =>
    intro acc b h
    rcases ih _ b h with h2 | h2
    · cases acc with
      | none =>
        have hb : a = b := Option.some.inj h2
        exact Or.inr (hb ▸ List.mem_cons_self a l)
      | some c =>
        have h3 : (if a.fixedCount > c.fixedCount then some a else some c) =
            some b := h2
        by_cases hgt : a.fixedCount > c.fixedCount
        · rw [if_pos hgt] at h3
          exact Or.inr (Option.some.inj h3 ▸ List.mem_cons_self a l)
        · rw [if_neg hgt] at h3
          exact Or.inl h3
    · exact Or.inr (List.mem_cons_of_mem a h2)

theorem iterationBest_mem {l : List Ant} {b : Ant}
    (h : iterationBest l = some b) : b ∈ l := by
  rcases bestFold_mem l none b h with h2 | h2
  · cases h2
  · exact h2

/-- Any iteration best among the valid ants of a cycle has solved the whole
board (every valid walk ends fully fixed). -/
theorem cycle_valid_ant (size fuel numAnts : Nat) (h1 : 1 ≤ size)
    (h26 : size ≤ 26) (st : AcoState) (hOk : OkV size st.values)
    (o : CycleOracle) {ib : Ant}
    (hib : iterationBest
      (((List.range numAnts).map fun i =>
        runAnt size fuel st.values (o.ant i)).filter (·.valid)) = some ib) :
    ib.fixedCount = size * size := by
  have hmem := iterationBest_mem hib
  have hvalid : ib.valid = true := by
    have := List.of_mem_filter hmem
    simpa using this
  have hmem2 := List.mem_of_mem_filter hmem
  obtain ⟨i, _, hibeq⟩ := List.mem_map.mp hmem2
  rw [← hibeq] at hvalid ⊢
  exact runAnt_valid_all_fixed size fuel h1 h26 hOk (o.ant i) hvalid

/-- A cycle from a sound state either finds no valid ant and yields fitness
0 with the state unchanged, or yields fitness 1 and finishes with the full
board count as best. -/
theorem acoCycle_cases (size fuel numAnts : Nat) (h1 : 1 ≤ size)
    (h26 : size ≤ 26) (st : AcoState) (hOk : OkV size st.values)
    (hbf : st.bestFixed ≤ size * size) (o : CycleOracle) :
    acoCycle size fuel numAnts st o = (st, none, 0) ∨
      ((acoCycle size fuel numAnts st o).2.2 = 1 ∧
        (acoCycle size fuel numAnts st o).1.values = st.values ∧
        (acoCycle size fuel numAnts st o).1.bestFixed = size * size ∧
        (acoCycle size fuel numAnts st o).1.finished = true) := by
  rcases hib : iterationBest
      (((List.range numAnts).map fun i =>
        runAnt size fuel st.values (o.ant i)).filter (·.valid)) with _ | ib
  · left
    simp only [acoCycle]
    rw [hib]
  · right
    have hfc : ib.fixedCount = size * size :=
      cycle_valid_ant size fuel numAnts h1 h26 st hOk o hib
    have hge : ib.fixedCount ≥ st.bestFixed := by omega
    have hnz : ((size * size : Nat) : ℚ) ≠ 0 := by
      have hp : 0 < size * size := Nat.mul_pos h1 h1
      exact_mod_cast hp.ne'
    have hge2 : size * size ≥ st.bestFixed := hbf
    simp only [acoCycle]
    rw [hib]
    simp only [hfc, if_pos hge2]
    exact ⟨div_self hnz, trivial, trivial, by simp⟩

theorem acoState_invariant (size fuel numAnts : Nat) (h1 : 1 ≤ size)
    (h26 : size ≤ 26) (st0 : AcoState) (hOk : OkV size st0.values)
    (hbf : st0.bestFixed ≤ size * size) (o : Nat → CycleOracle) :
    ∀ n, (acoStateAt size fuel numAnts st0 o n).values = st0.values ∧
      (acoStateAt size fuel numAnts st0 o n).bestFixed ≤ size * size := by
  intro n
  induction n with
  | zero => exact ⟨rfl, hbf⟩
  | succ n ih =>
    obtain ⟨hv, hb⟩ := ih
    have hunf : acoStateAt size fuel numAnts st0 o (n + 1) =
        (if (acoStateAt size fuel numAnts st0 o n).finished
          then acoStateAt size fuel numAnts st0 o n
          else (acoCycle size fuel numAnts
            (acoStateAt size fuel numAnts st0 o n) (o n)).1) := rfl
    by_cases hfin : (acoStateAt size fuel numAnts st0 o n).finished
    · rw [hunf, if_pos hfin]
      exact ⟨hv, hb⟩
    · rw [hunf, if_neg hfin]
      have hOkn : OkV size (acoStateAt size fuel numAnts st0 o n).values := by
        rw [hv]
        exact hOk
      rcases acoCycle_cases size fuel numAnts h1 h26 _ hOkn hb (o n) with hc | hc
      · rw [hc]
        exact ⟨hv, hb⟩
      · refine ⟨hc.2.1.trans hv, ?_⟩
        rw [hc.2.2.1]

theorem acoInit_ok (size fuel : Nat) (h1 : 1 ≤ size)
    {grid : List (Cell × Char)} {v : Values}
    (h : acoInit size fuel grid = some v) : OkV size v := by
  have hstart : OkV size (fun _ => digitsOf size) := by
    refine ⟨fun _ => digitsOf_nodup size, fun _ => ?_, fun _ => List.Subset.refl _⟩
    intro hnil
    have hlen := congrArg List.length hnil
    simp only [List.length_nil] at hlen
    rcases le_or_lt size 26 with h26 | h26
    · rw [digitsOf_length h26] at hlen
      omega
    · rw [digitsOf] at hnil
      have : (9 : Nat) ≤ size := by omega
      simp only [Nat.min_def, if_neg (by omega : ¬ size ≤ 9)] at hnil
      have := List.append_eq_nil.mp hnil
      simp only [numerals] at this
      exact absurd this.1 (by simp)
  have hstep : ∀ (w : Values) (a : Cell × Char) (w2 : Values), OkV size w →
      (if a.2 ∈ digitsOf size then assignACO size fuel w a.1 a.2 else some w)
        = some w2 → OkV size w2 := by
    intro w a w2 hw hs
    by_cases hd : a.2 ∈ digitsOf size
    · rw [if_pos hd] at hs
      exact assignACO_ok size fuel hw hs
    · rw [if_neg hd] at hs
      rw [← Option.some.inj hs]
      exact hw
  exact foldlM_inv hstep grid _ v hstart h

/-! ### Termination of the ant-colony `solve` generator

`solve` is a bare `while True:` loop with no cycle counter: the only exit
is `best_fixed == size ** 2` (fitness 1).  A cycle in which no ant stays
valid yields `{}, 0.0` and `continue`s, so a run in which every cycle
invalidates every ant never ends.  The 6×6 puzzle and draw sequence below
exhibit such a run: the single ant contradicts itself every cycle, the
state never changes, and the generator yields fitness 0 forever. -/

def g6 : List (Cell × Char) :=
  [((('A' : Char), 1), '1'), ((('B' : Char), 4), '2'), ((('C' : Char), 2), '3')]

def aco6V : Values := fun t => ((acoInit 6 200 g6).getD (fun _ => [])) t

def aco6St0 : AcoState :=
  { values := aco6V, bestSolution := none, bestFixed := 0, finished := false }

def badChoice : Nat → Nat := fun i => (8 / (3 ^ (i % 8))) % 3

def badCycleOracle : CycleOracle :=
  { ant := fun _ => { start := 3, choice := badChoice } }

set_option maxRecDepth 10000 in
theorem aco6_cycle_stuck :
    acoCycle 6 200 1 aco6St0 badCycleOracle = (aco6St0, none, 0) := rfl

/-- Counter to C6 as stated: a concrete puzzle (a legal 6×6 instance) and
draw sequence on which the ant-colony `solve` generator never terminates —
every cycle's single ant runs into a contradiction, the state never
changes, fitness 0 is yielded at every cycle, and there is no cycle budget
to stop the loop. -/
theorem aco_nontermination_counterexample :
    acoInit 6 200 g6 = some aco6V ∧
    (∀ n, acoFitAt 6 200 1 aco6St0 (fun _ => badCycleOracle) n = some 0) ∧
    ¬ (∃ n, (acoStateAt 6 200 1 aco6St0
        (fun _ => badCycleOracle) n).finished = true) := by
  have hstate : ∀ n,
      acoStateAt 6 200 1 aco6St0 (fun _ => badCycleOracle) n = aco6St0 := by
    intro n
    induction n with
    | zero => rfl
    | succ n ih =>
      have hunf : acoStateAt 6 200 1 aco6St0 (fun _ => badCycleOracle) (n + 1) =
          (if (acoStateAt 6 200 1 aco6St0 (fun _ => badCycleOracle) n).finished
            then acoStateAt 6 200 1 aco6St0 (fun _ => badCycleOracle) n
            else (acoCycle 6 200 1
              (acoStateAt 6 200 1 aco6St0 (fun _ => badCycleOracle) n)
              badCycleOracle).1) := rfl
      rw [hunf, ih, if_neg (by exact fun h => nomatch h), aco6_cycle_stuck]
  refine ⟨rfl, ?_, ?_⟩
  · intro n
    rw [acoFitAt]
    simp only [hstate n]
    rw [if_neg (by exact fun h => nomatch h), aco6_cycle_stuck]
  · rintro ⟨n, hn⟩
    rw [hstate n] at hn
    exact nomatch hn

/-- C6: amended termination behavior of the ant-colony `solve` generator:
there is no cycle budget; after a live state, the run is finished exactly
when that cycle yielded fitness 1 (a fully solved best).  Together with the
non-termination counterexample this corrects the claimed budget-exhaustion
exit. -/
theorem aco_termination_characterization (size fuel numAnts : Nat)
    (h1 : 1 ≤ size) (h26 : size ≤ 26) (st0 : AcoState)
    (hOk : OkV size st0.values) (hbf : st0.bestFixed ≤ size * size)
    (o : Nat → CycleOracle) (n : Nat) :
    (acoStateAt size fuel numAnts st0 o (n + 1)).finished = true ↔
      ((acoStateAt size fuel numAnts st0 o n).finished = true ∨
        acoFitAt size fuel numAnts st0 o n = some 1) := by
  have hunf : acoStateAt size fuel numAnts st0 o (n + 1) =
      (if (acoStateAt size fuel numAnts st0 o n).finished
        then acoStateAt size fuel numAnts st0 o n
        else (acoCycle size fuel numAnts
          (acoStateAt size fuel numAnts st0 o n) (o n)).1) := rfl
  by_cases hfin : (acoStateAt size fuel numAnts st0 o n).finished
  · rw [hunf, if_pos hfin]
    exact ⟨fun _ => Or.inl hfin, fun _ => hfin⟩
  · rw [hunf, if_neg hfin]
    obtain ⟨hv, hb⟩ :=
      acoState_invariant size fuel numAnts h1 h26 st0 hOk hbf o n
    have hOkn : OkV size (acoStateAt size fuel numAnts st0 o n).values := by
      rw [hv]
      exact hOk
    have hfit : acoFitAt size fuel numAnts st0 o n =
        some (acoCycle size fuel numAnts
          (acoStateAt size fuel numAnts st0 o n) (o n)).2.2 := by
      rw [acoFitAt]
      simp only [hfin, if_false]
      rfl
    rcases acoCycle_cases size fuel numAnts h1 h26 _ hOkn hb (o n) with hc | hc
    · rw [hc]
      constructor
      · intro h
        exact Or.inl h
      · rintro (h | h)
        · exact absurd h hfin
        · rw [hfit, hc] at h
          have h0 : (0 : ℚ) = 1 := Option.some.inj h
          norm_num at h0
    · constructor
      · intro _
        refine Or.inr ?_
        rw [hfit, hc.1]
      · intro _
        exact hc.2.2.2

def acoW1St0 : AcoState :=
  { values := fun _ => digitsOf 1, bestSolution := none,
    bestFixed := 0, finished := false }

def acoW1Oracle : Nat → CycleOracle :=
  fun _ => { ant := fun _ => { start := 0, choice := fun _ => 0 } }

theorem aco_termination_characterization_witness :
    (1 : Nat) ≤ 1 ∧ (1 : Nat) ≤ 26 ∧ OkV 1 acoW1St0.values ∧
      acoW1St0.bestFixed ≤ 1 * 1 ∧
      ((acoStateAt 1 1 1 acoW1St0 acoW1Oracle 1).finished = true ↔
        ((acoStateAt 1 1 1 acoW1St0 acoW1Oracle 0).finished = true ∨
          acoFitAt 1 1 1 acoW1St0 acoW1Oracle 0 = some 1)) :=
  ⟨le_refl 1, by decide,
    acoInit_ok 1 1 (le_refl 1)
      (show acoInit 1 1 [] = some acoW1St0.values from rfl), by decide,
    aco_termination_characterization 1 1 1 (le_refl 1) (by decide) acoW1St0
      (acoInit_ok 1 1 (le_refl 1)
        (show acoInit 1 1 [] = some acoW1St0.values from rfl))
      (by decide) acoW1Oracle 0⟩

/-! ## The bee-colony solver (`abc_solver.py`)

`ABCSolver` works on a `size`×`size` integer grid (`numpy` array, entries
`0` for blank, `1..size` for digits); `fixed_cells` marks the clue cells
(`grid != 0`).  Grids are embedded as total functions on indices.
`random.shuffle` and `random.choice` draws are oracle inputs as before:
every oracle value corresponds to a draw of positive probability. -/

def Grid : Type := Nat → Nat → Nat

def updateG (g : Grid) (r c val : Nat) : Grid :=
  fun r2 c2 => if r2 = r ∧ c2 = c then val else g r2 c2

/-- The cells of the subgrid whose top-left corner is `(r0, c0)`: the
nested `for r in range(box_r, box_r + subgrid_rows)` /
`for c in range(box_c, box_c + subgrid_cols)` traversal order. -/
def boxCellsAt (sr sc r0 c0 : Nat) : List (Nat × Nat) :=
  (List.range sr).flatMap fun dr => (List.range sc).map fun dc =>
    (r0 + dr, c0 + dc)

/-- `missing`: the digits `1..size` that appear on no fixed cell of the
box (the `existing` set is the fixed values of the box in the current
solution). -/
def missingOf (size sr sc : Nat) (fixed : Nat → Nat → Bool) (sol : Grid)
    (r0 c0 : Nat) : List Nat :=
  ((List.range size).map (· + 1)).filter fun d =>
    !((boxCellsAt sr sc r0 c0).any fun rc =>
      fixed rc.1 rc.2 && decide (sol rc.1 rc.2 = d))

/-- One iteration of the `idx` loop of `initialize_population`: a fixed
cell is skipped, a non-fixed cell receives `missing[idx]` and `idx`
advances. -/
def fillStep (fixed : Nat → Nat → Bool) (sh : List Nat)
    (acc : Grid × Nat) (rc : Nat × Nat) : Grid × Nat :=
  if fixed rc.1 rc.2 then acc
  else (updateG acc.1 rc.1 rc.2 (sh.getD acc.2 0), acc.2 + 1)

/-- The `idx` loop of `initialize_population`: walk the box cells in order
and write the next entry of the shuffled `missing` list into each
non-fixed cell. -/
def fillBox (fixed : Nat → Nat → Bool) (sh : List Nat)
    (cells : List (Nat × Nat)) (sol : Grid) : Grid :=
  (cells.foldl (fillStep fixed sh) (sol, 0)).1

/-- One population member of `initialize_population`: box by box, compute
`missing`, shuffle it (the oracle `shuffle r0 c0` is the permutation
`random.shuffle` produces), and fill the box's non-fixed cells. -/
def initMember (size sr sc : Nat) (fixed : Nat → Nat → Bool)
    (shuffle : Nat → Nat → List Nat → List Nat) (clue : Grid) : Grid :=
  (stepRange size sr).foldl
    (fun sol r0 =>
      (stepRange size sc).foldl
        (fun sol2 c0 =>
          fillBox fixed (shuffle r0 c0 (missingOf size sr sc fixed sol2 r0 c0))
            (boxCellsAt sr sc r0 c0) sol2)
        sol)
    clue

/-- `evaluate`: `1 / (1 + penalty)` where each row and each column is
penalised by `size` minus its number of distinct values. -/
def evaluate (size : Nat) (g : Grid) : ℚ :=
  let rowPen := ((List.range size).map fun r =>
    size - ((List.range size).map fun c => g r c).dedup.length).sum
  let colPen := ((List.range size).map fun c =>
    size - ((List.range size).map fun r => g r c).dedup.length).sum
  1 / (1 + ((rowPen + colPen : Nat) : ℚ))

/-- `neighbor_search` of the bee-colony solver.  The oracle supplies the
free cell `(row, col)` drawn by the rejection loop, the distinct neighbor
member `nb`, and the rounded random offset `d` (capped at
`|x_ij - x_kj|`, the range `int(round(x_ij + random()*|x_ij-x_kj|))`
can reach). -/
def neighborSearch (size sr sc : Nat) (fixed : Nat → Nat → Bool)
    (cur nb : Grid) (row col d : Nat) : Grid :=
  let x_ij := cur row col
  let x_kj := nb row col
  let diff := if x_kj ≤ x_ij then x_ij - x_kj else x_kj - x_ij
  let v0 := x_ij + min d diff
  let v := if size < v0 then v0 % size + 1
    else if v0 < 1 then size - v0 % size
    else v0
  let r0 := row / sr * sr
  let c0 := col / sc * sc
  let blockCells := boxCellsAt sr sc r0 c0
  if v ∈ blockCells.map (fun rc => cur rc.1 rc.2) then
    match (blockCells.filter fun rc =>
        decide (cur rc.1 rc.2 = v) && !fixed rc.1 rc.2).head? with
    | none => cur
    | some rc => updateG (updateG cur rc.1 rc.2 x_ij) row col v
  else updateG cur row col v

/-- Subgrid legality of a complete assignment: every box holds each digit
`1..size` exactly once. -/
def BoxPerm (size sr sc : Nat) (sol : Grid) : Prop :=
  ∀ r0 ∈ stepRange size sr, ∀ c0 ∈ stepRange size sc,
    ((boxCellsAt sr sc r0 c0).map fun rc => sol rc.1 rc.2).Perm
      ((List.range size).map (· + 1))

/-- Clue preservation: every fixed cell still holds its clue value. -/
def FixedOK (fixed : Nat → Nat → Bool) (clue sol : Grid) : Prop :=
  ∀ r c, fixed r c = true → sol r c = clue r c

theorem mem_boxCellsAt {sr sc r0 c0 : Nat} {rc : Nat × Nat} :
    rc ∈ boxCellsAt sr sc r0 c0 ↔
      (r0 ≤ rc.1 ∧ rc.1 < r0 + sr ∧ c0 ≤ rc.2 ∧ rc.2 < c0 + sc) := by
  rw [boxCellsAt]
  simp only [List.mem_flatMap, List.mem_map, List.mem_range]
  constructor
  · rintro ⟨dr, hdr, dc, hdc, rfl⟩
    omega
  · rintro ⟨h1, h2, h3, h4⟩
    exact ⟨rc.1 - r0, by omega, rc.2 - c0, by omega, by
      rw [Prod.ext_iff]
      constructor <;> simp <;> omega⟩

theorem boxCellsAt_nodup (sr sc r0 c0 : Nat) :
    (boxCellsAt sr sc r0 c0).Nodup := by
  rw [boxCellsAt, List.nodup_flatMap]
  constructor
  · intro dr _
    refine (List.nodup_range sc).map fun a b h => ?_
    simp only [Prod.ext_iff] at h
    omega
  · refine List.Pairwise.imp ?_ (List.pairwise_lt_range sr)
    intro a b hab
    intro x hx hx2
    simp only [List.mem_map, List.mem_range] at hx hx2
    obtain ⟨dc1, _, rfl⟩ := hx
    obtain ⟨dc2, _, h2⟩ := hx2
    have := congrArg Prod.fst h2
    simp only at this
    omega

theorem boxCellsAt_length (sr sc r0 c0 : Nat) :
    (boxCellsAt sr sc r0 c0).length = sr * sc := by
  rw [boxCellsAt]
  simp [List.length_flatMap, Function.comp_def, List.map_const',
    List.sum_replicate, smul_eq_mul]

theorem corner_eq_of_mem {size sr a r0 : Nat} (hsr : 0 < sr)
    (hr0 : r0 ∈ stepRange size sr) (hdvd : sr ∣ size)
    (h1 : r0 ≤ a) (h2 : a < r0 + sr) : a / sr * sr = r0 := by
  rw [mem_stepRange hsr hdvd] at hr0
  obtain ⟨k, _, rfl⟩ := hr0
  have hdiv : a / sr = k :=
    Nat.div_eq_of_lt_le h1 (by
      have : (k + 1) * sr = k * sr + sr := by ring
      omega)
  rw [hdiv]

/-- The sequence of values the fill loop leaves on the traversed cells:
fixed cells keep their value, non-fixed cells take successive entries of
the shuffled list. -/
def fillSpine (fixed : Nat → Nat → Bool) (sol : Grid) (sh : List Nat) :
    List (Nat × Nat) → Nat → List Nat
  | [], _ => []
  | rc :: cs, i =>
    if fixed rc.1 rc.2 then sol rc.1 rc.2 :: fillSpine fixed sol sh cs i
    else sh.getD i 0 :: fillSpine fixed sol sh cs (i + 1)

theorem fillFold_untouched (fixed : Nat → Nat → Bool) (sh : List Nat) :
    ∀ (cells : List (Nat × Nat)) (w : Grid × Nat) (a b : Nat),
      ((a, b) ∉ cells ∨ fixed a b = true) →
      ((cells.foldl (fillStep fixed sh) w).1) a b = w.1 a b := by
  intro cells
  induction cells with
  | nil => intro w a b _; rfl
  | cons rc cs ih =>
    intro w a b hab
    rw [List.foldl_cons]
    have htail : (a, b) ∉ cs ∨ fixed a b = true := by
      rcases hab with h | h
      · exact Or.inl fun hm => h (List.mem_cons_of_mem rc hm)
      · exact Or.inr h
    rw [ih (fillStep fixed sh w rc) a b htail]
    rw [fillStep]
    by_cases hf : fixed rc.1 rc.2
    · rw [if_pos hf]
    · rw [if_neg hf]
      show updateG w.1 rc.1 rc.2 (sh.getD w.2 0) a b = w.1 a b
      rw [updateG]
      rcases hab with h | h
      · rw [if_neg]
        rintro ⟨rfl, rfl⟩
        exact h (List.mem_cons_self _ _)
      · rw [if_neg]
        rintro ⟨rfl, rfl⟩
        exact hf h
  
theorem fillSpine_congr (fixed : Nat → Nat → Bool) (sh : List Nat) :
    ∀ (cells : List (Nat × Nat)) (s1 s2 : Grid) (i : Nat),
      (∀ rc ∈ cells, s1 rc.1 rc.2 = s2 rc.1 rc.2) →
      fillSpine fixed s1 sh cells i = fillSpine fixed s2 sh cells i := by
  intro cells
  induction cells with
  | nil => intro s1 s2 i _; rfl
  | cons rc cs ih =>
    intro s1 s2 i h
    rw [fillSpine, fillSpine]
    have hcs : ∀ p ∈ cs, s1 p.1 p.2 = s2 p.1 p.2 :=
      fun p hp => h p (List.mem_cons_of_mem rc hp)
    by_cases hf : fixed rc.1 rc.2
    · rw [if_pos hf, if_pos hf, h rc (List.mem_cons_self _ _), ih _ _ _ hcs]
    · rw [if_neg hf, if_neg hf, ih _ _ _ hcs]

theorem fillFold_map (fixed : Nat → Nat → Bool) (sh : List Nat) :
    ∀ (cells : List (Nat × Nat)), cells.Nodup → ∀ (w : Grid × Nat),
      cells.map (fun rc => ((cells.foldl (fillStep fixed sh) w).1) rc.1 rc.2)
        = fillSpine fixed w.1 sh cells w.2 := by
  intro cells
  induction cells with
  | nil => intro _ w; rfl
  | cons rc cs ih =>
    intro hnd w
    have hrc : rc ∉ cs := (List.nodup_cons.mp hnd).1
    rw [List.map_cons, List.foldl_cons]
    have hhead : ((cs.foldl (fillStep fixed sh) (fillStep fixed sh w rc)).1)
        rc.1 rc.2 = (fillStep fixed sh w rc).1 rc.1 rc.2 :=
      fillFold_untouched fixed sh cs _ rc.1 rc.2 (Or.inl (by simpa using hrc))
    have htail := ih (List.nodup_cons.mp hnd).2 (fillStep fixed sh w rc)
    rw [fillSpine]
    by_cases hf : fixed rc.1 rc.2
    · rw [if_pos hf]
      have hstep : fillStep fixed sh w rc = w := by rw [fillStep, if_pos hf]
      rw [hhead, htail, hstep]
    · rw [if_neg hf]
      have hstep : fillStep fixed sh w rc =
          (updateG w.1 rc.1 rc.2 (sh.getD w.2 0), w.2 + 1) := by
        rw [fillStep, if_neg hf]
      rw [hhead, htail, hstep]
      show updateG w.1 rc.1 rc.2 (sh.getD w.2 0) rc.1 rc.2 ::
          fillSpine fixed (updateG w.1 rc.1 rc.2 (sh.getD w.2 0)) sh cs (w.2 + 1)
        = sh.getD w.2 0 :: fillSpine fixed w.1 sh cs (w.2 + 1)
      have hval : updateG w.1 rc.1 rc.2 (sh.getD w.2 0) rc.1 rc.2
          = sh.getD w.2 0 := by
        rw [updateG, if_pos ⟨rfl, rfl⟩]
      rw [hval]
      congr 1
      refine fillSpine_congr fixed sh cs _ _ _ fun p hp => ?_
      show updateG w.1 rc.1 rc.2 (sh.getD w.2 0) p.1 p.2 = w.1 p.1 p.2
      rw [updateG, if_neg]
      rintro ⟨h1, h2⟩
      exact hrc (by
        have hpeq : p = rc := Prod.ext h1 h2
        rwa [← hpeq])

theorem fillSpine_perm (fixed : Nat → Nat → Bool) (sol : Grid)
    (sh : List Nat) :
    ∀ (cells : List (Nat × Nat)) (i : Nat),
      i + cells.countP (fun rc => !fixed rc.1 rc.2) ≤ sh.length →
      (fillSpine fixed sol sh cells i).Perm
        (((cells.filter fun rc => fixed rc.1 rc.2).map
            fun rc => sol rc.1 rc.2) ++
          (sh.drop i).take (cells.countP fun rc => !fixed rc.1 rc.2)) := by
  intro cells
  induction cells with
  | nil =>
    intro i _
    exact List.Perm.refl []
  | cons rc cs ih =>
    intro i hlen
    rw [fillSpine]
    by_cases hf : fixed rc.1 rc.2
    · have hcnt : (rc :: cs).countP (fun p => !fixed p.1 p.2)
          = cs.countP (fun p => !fixed p.1 p.2) := by
        rw [List.countP_cons, hf]
        simp
      rw [hcnt] at hlen ⊢
      have hfil : (rc :: cs).filter (fun p => fixed p.1 p.2)
          = rc :: cs.filter (fun p => fixed p.1 p.2) := by
        simp [List.filter_cons, hf]
      rw [if_pos hf, hfil, List.map_cons, List.cons_append]
      exact (ih i hlen).cons (sol rc.1 rc.2)
    · have hf2 : fixed rc.1 rc.2 = false := by
        cases h : fixed rc.1 rc.2
        · rfl
        · exact absurd h hf
      have hcnt : (rc :: cs).countP (fun p => !fixed p.1 p.2)
          = cs.countP (fun p => !fixed p.1 p.2) + 1 := by
        rw [List.countP_cons, hf2]
        simp
      rw [hcnt] at hlen ⊢
      have hfil : (rc :: cs).filter (fun p => fixed p.1 p.2)
          = cs.filter (fun p => fixed p.1 p.2) := by
        simp [List.filter_cons, hf2]
      rw [if_neg hf, hfil]
      have hi : i < sh.length := by omega
      have hdrop : sh.drop i = sh.get ⟨i, hi⟩ :: sh.drop (i + 1) := by
        rw [List.drop_eq_getElem_cons hi]
        rfl
      have hgetD : sh.getD i 0 = sh.get ⟨i, hi⟩ := by
        rw [List.getD_eq_getElem _ _ hi]
        rfl
      have hih := ih (i + 1) (by omega)
      have htake : List.take (cs.countP (fun p => !fixed p.1 p.2) + 1)
          (sh.get ⟨i, hi⟩ :: sh.drop (i + 1))
          = sh.get ⟨i, hi⟩ ::
            List.take (cs.countP fun p => !fixed p.1 p.2) (sh.drop (i + 1)) :=
        rfl
      rw [hdrop, hgetD, htake]
      exact (hih.cons (sh.get ⟨i, hi⟩)).trans (List.perm_middle).symm

theorem perm_append_filter_not_mem {E digits : List Nat} (hE : E.Nodup)
    (hD : digits.Nodup) (hsub : ∀ x ∈ E, x ∈ digits) :
    (E ++ digits.filter fun d => decide (d ∉ E)).Perm digits := by
  rw [List.perm_iff_count]
  intro a
  rw [List.count_append]
  by_cases ha : a ∈ E
  · have h1 : List.count a E = 1 := List.count_eq_one_of_mem hE ha
    have h2 : List.count a (digits.filter fun d => decide (d ∉ E)) = 0 := by
      refine List.count_eq_zero_of_not_mem fun hmem => ?_
      have := List.of_mem_filter hmem
      simp only [decide_eq_true_eq] at this
      exact this ha
    have h3 : List.count a digits = 1 :=
      List.count_eq_one_of_mem hD (hsub a ha)
    omega
  · have h1 : List.count a E = 0 := List.count_eq_zero_of_not_mem ha
    have h2 : List.count a (digits.filter fun d => decide (d ∉ E))
        = List.count a digits :=
      List.count_filter (by simpa using ha)
    omega

theorem fillBox_perm (size sr sc : Nat) (fixed : Nat → Nat → Bool)
    (sol : Grid) (r0 c0 : Nat) (sh : List Nat)
    (hsize : sr * sc = size)
    (hperm : sh.Perm (missingOf size sr sc fixed sol r0 c0))
    (hEnodup : (((boxCellsAt sr sc r0 c0).filter fun rc =>
        fixed rc.1 rc.2).map fun rc => sol rc.1 rc.2).Nodup)
    (hEsub : ∀ x ∈ ((boxCellsAt sr sc r0 c0).filter fun rc =>
        fixed rc.1 rc.2).map fun rc => sol rc.1 rc.2,
      x ∈ (List.range size).map (· + 1)) :
    ((boxCellsAt sr sc r0 c0).map fun rc =>
        fillBox fixed sh (boxCellsAt sr sc r0 c0) sol rc.1 rc.2).Perm
      ((List.range size).map (· + 1)) := by
  set box := boxCellsAt sr sc r0 c0 with hbox
  set E := (box.filter fun rc => fixed rc.1 rc.2).map fun rc => sol rc.1 rc.2
    with hE
  set digits := (List.range size).map (· + 1) with hdigits
  have hmiss : missingOf size sr sc fixed sol r0 c0
      = digits.filter fun d => decide (d ∉ E) := by
    rw [missingOf]
    refine List.filter_congr fun d _ => ?_
    rcases hmem : decide (d ∉ E) with _ | _
    · simp only [decide_eq_false_iff_not, not_not] at hmem
      rw [hE, List.mem_map] at hmem
      obtain ⟨rc, hrc, hrcv⟩ := hmem
      have h1 := List.mem_of_mem_filter hrc
      have h2 := List.of_mem_filter hrc
      have : (box.any fun rc => fixed rc.1 rc.2 && decide (sol rc.1 rc.2 = d))
          = true := by
        rw [List.any_eq_true]
        exact ⟨rc, h1, by rw [h2, hrcv]; simp⟩
      rw [← hbox, this]
      rfl
    · simp only [decide_eq_true_eq] at hmem
      have : (box.any fun rc => fixed rc.1 rc.2 && decide (sol rc.1 rc.2 = d))
          = false := by
        rw [List.any_eq_false]
        intro rc hrc
        simp only [Bool.and_eq_true, decide_eq_true_eq, not_and]
        intro hfix hval
        exact hmem (by
          rw [hE, List.mem_map]
          exact ⟨rc, List.mem_filter.mpr ⟨hrc, hfix⟩, hval⟩)
      rw [← hbox, this]
      rfl
  have hfull : (E ++ digits.filter fun d => decide (d ∉ E)).Perm digits :=
    perm_append_filter_not_mem hEnodup
      (List.Nodup.map (fun a b h => by omega) (List.nodup_range size))
      (fun x hx => hEsub x hx)
  have hElen : E.length + (digits.filter fun d => decide (d ∉ E)).length
      = size := by
    have := hfull.length_eq
    rw [List.length_append] at this
    rw [this, hdigits, List.length_map, List.length_range]
  have hshlen : sh.length = (digits.filter fun d => decide (d ∉ E)).length := by
    rw [hperm.length_eq, hmiss]
  have hboxlen : box.length = size := by
    rw [hbox, boxCellsAt_length, hsize]
  have hcnt : box.countP (fun rc => fixed rc.1 rc.2) = E.length := by
    rw [hE, List.length_map, List.countP_eq_length_filter]
  have hfree : box.countP (fun rc => !fixed rc.1 rc.2)
      = size - E.length := by
    have hcong : box.countP (fun rc => !fixed rc.1 rc.2)
        = box.countP (fun a => decide (¬ ((fun rc => fixed rc.1 rc.2) a
            = true))) := by
      refine List.countP_congr fun rc _ => ?_
      cases h : fixed rc.1 rc.2 <;> simp [h]
    have hsplit := List.length_eq_countP_add_countP
      (fun rc => fixed rc.1 rc.2) box
    rw [← hcong, hboxlen, hcnt] at hsplit
    omega
  have hfreelen : box.countP (fun rc => !fixed rc.1 rc.2) = sh.length := by
    rw [hfree, hshlen]
    omega
  have hnodupBox : box.Nodup := boxCellsAt_nodup sr sc r0 c0
  have hmap := fillFold_map fixed sh box hnodupBox (sol, 0)
  rw [fillBox]
  have hmapEq : (box.map fun rc =>
      (box.foldl (fillStep fixed sh) (sol, 0)).1 rc.1 rc.2)
      = fillSpine fixed sol sh box 0 := hmap
  rw [hmapEq]
  have hsp := fillSpine_perm fixed sol sh box 0 (by omega)
  rw [List.drop_zero] at hsp
  have htake : sh.take (box.countP fun rc => !fixed rc.1 rc.2) = sh := by
    rw [hfreelen]
    exact List.take_length sh
  rw [htake] at hsp
  refine hsp.trans ?_
  refine (List.Perm.append_left E (hperm.trans (by rw [hmiss]))).trans hfull

/-- One box of `initialize_population`: compute `missing` from the current
solution, shuffle it, and fill the box. -/
def boxFill (size sr sc : Nat) (fixed : Nat → Nat → Bool)
    (shuffle : Nat → Nat → List Nat → List Nat) (sol : Grid)
    (r0 c0 : Nat) : Grid :=
  fillBox fixed (shuffle r0 c0 (missingOf size sr sc fixed sol r0 c0))
    (boxCellsAt sr sc r0 c0) sol

theorem foldl_nested_eq (g : Grid → Nat → Nat → Grid) :
    ∀ (rows cols : List Nat) (init : Grid),
      rows.foldl (fun sol r0 => cols.foldl (fun s c0 => g s r0 c0) sol) init
        = (rows.flatMap fun r0 => cols.map fun c0 => (r0, c0)).foldl
            (fun s p => g s p.1 p.2) init := by
  intro rows
  induction rows with
  | nil => intro cols init; rfl
  | cons r rs ih =>
    intro cols init
    rw [List.foldl_cons, List.flatMap_cons, List.foldl_append,
      List.foldl_map]
    exact ih cols _

theorem initMember_eq_pairs (size sr sc : Nat) (fixed : Nat → Nat → Bool)
    (shuffle : Nat → Nat → List Nat → List Nat) (clue : Grid) :
    initMember size sr sc fixed shuffle clue
      = ((stepRange size sr).flatMap fun r0 =>
          (stepRange size sc).map fun c0 => (r0, c0)).foldl
          (fun s p => boxFill size sr sc fixed shuffle s p.1 p.2) clue := by
  rw [initMember]
  exact foldl_nested_eq (fun s r0 c0 => boxFill size sr sc fixed shuffle s r0 c0)
    (stepRange size sr) (stepRange size sc) clue

theorem stepRange_nodup (stop step : Nat) (hstep : 1 ≤ step) :
    (stepRange stop step).Nodup := by
  refine (List.nodup_range _).map fun a b h => ?_
  exact Nat.eq_of_mul_eq_mul_right (by omega) h

theorem boxes_nodup (size sr sc : Nat) (hsr : 0 < sr) (hsc : 0 < sc) :
    ((stepRange size sr).flatMap fun r0 =>
      (stepRange size sc).map fun c0 => (r0, c0)).Nodup := by
  rw [List.nodup_flatMap]
  constructor
  · intro r0 _
    refine (stepRange_nodup size sc hsc).map fun a b h => ?_
    exact congrArg Prod.snd h
  · refine List.Pairwise.imp ?_ (stepRange_nodup size sr hsr)
    intro a b hab x hx hx2
    simp only [List.mem_map] at hx hx2
    obtain ⟨c1, _, rfl⟩ := hx
    obtain ⟨c2, _, h2⟩ := hx2
    exact hab (congrArg Prod.fst h2).symm

theorem initFold_inv (size sr sc : Nat) (fixed : Nat → Nat → Bool)
    (shuffle : Nat → Nat → List Nat → List Nat) (clue : Grid)
    (hsize : sr * sc = size) (hsr : 0 < sr) (hsc : 0 < sc)
    (hshuffle : ∀ r0 c0 l, (shuffle r0 c0 l).Perm l)
    (hclueN : ∀ r0 ∈ stepRange size sr, ∀ c0 ∈ stepRange size sc,
      (((boxCellsAt sr sc r0 c0).filter fun rc => fixed rc.1 rc.2).map
        fun rc => clue rc.1 rc.2).Nodup)
    (hclueS : ∀ r c, fixed r c = true →
      clue r c ∈ (List.range size).map (· + 1)) :
    ∀ (bs : List (Nat × Nat)), bs.Nodup →
      (∀ p ∈ bs, p.1 ∈ stepRange size sr ∧ p.2 ∈ stepRange size sc) →
      ∀ (sol : Grid), FixedOK fixed clue sol →
      FixedOK fixed clue
        (bs.foldl (fun s p => boxFill size sr sc fixed shuffle s p.1 p.2) sol) ∧
      (∀ a b, (∀ p ∈ bs, (a, b) ∉ boxCellsAt sr sc p.1 p.2) →
        (bs.foldl (fun s p => boxFill size sr sc fixed shuffle s p.1 p.2) sol)
          a b = sol a b) ∧
      (∀ p ∈ bs, ((boxCellsAt sr sc p.1 p.2).map fun rc =>
          (bs.foldl (fun s p => boxFill size sr sc fixed shuffle s p.1 p.2) sol)
            rc.1 rc.2).Perm ((List.range size).map (· + 1))) := by
  intro bs
  induction bs with
  | nil =>
    intro _ _ sol hFO
    exact ⟨hFO, fun a b _ => rfl, fun p hp => absurd hp (List.not_mem_nil p)⟩
  | cons p ps ih =>
    intro hnd hmem sol hFO
    have hpmem := hmem p (List.mem_cons_self p ps)
    have hpnotin : p ∉ ps := (List.nodup_cons.mp hnd).1
    set sol1 := boxFill size sr sc fixed shuffle sol p.1 p.2 with hsol1
    have hFO1 : FixedOK fixed clue sol1 := by
      intro a b hab
      rw [hsol1, boxFill, fillBox,
        fillFold_untouched fixed _ _ _ a b (Or.inr hab)]
      exact hFO a b hab
    have hframe1 : ∀ a b, (a, b) ∉ boxCellsAt sr sc p.1 p.2 →
        sol1 a b = sol a b := by
      intro a b hab
      rw [hsol1, boxFill, fillBox,
        fillFold_untouched fixed _ _ _ a b (Or.inl hab)]
    have hEcong : (((boxCellsAt sr sc p.1 p.2).filter fun rc =>
        fixed rc.1 rc.2).map fun rc => sol rc.1 rc.2)
        = ((boxCellsAt sr sc p.1 p.2).filter fun rc =>
          fixed rc.1 rc.2).map fun rc => clue rc.1 rc.2 :=
      List.map_congr_left fun rc hrc =>
        hFO rc.1 rc.2 (List.mem_filter.mp hrc).2
    have hbp1 : ((boxCellsAt sr sc p.1 p.2).map fun rc =>
        sol1 rc.1 rc.2).Perm ((List.range size).map (· + 1)) := by
      rw [hsol1, boxFill]
      refine fillBox_perm size sr sc fixed sol p.1 p.2 _ hsize
        (hshuffle p.1 p.2 _) ?_ ?_
      · rw [hEcong]
        exact hclueN p.1 hpmem.1 p.2 hpmem.2
      · rw [hEcong]
        intro x hx
        rw [List.mem_map] at hx
        obtain ⟨rc, hrc, rfl⟩ := hx
        exact hclueS rc.1 rc.2 (List.mem_filter.mp hrc).2
    obtain ⟨ihFO, ihframe, ihbox⟩ :=
      ih (List.nodup_cons.mp hnd).2
        (fun q hq => hmem q (List.mem_cons_of_mem p hq)) sol1 hFO1
    have hsrdvd : sr ∣ size := ⟨sc, hsize.symm⟩
    have hscdvd : sc ∣ size := ⟨sr, by rw [← hsize]; ring⟩
    refine ⟨by rw [List.foldl_cons]; exact ihFO, ?_, ?_⟩
    · intro a b hab
      rw [List.foldl_cons]
      rw [ihframe a b fun q hq => hab q (List.mem_cons_of_mem p hq)]
      exact hframe1 a b (hab p (List.mem_cons_self p ps))
    · intro q hq
      rcases List.mem_cons.mp hq with rfl | hq2
      · rw [List.foldl_cons]
        have hcells : ∀ rc ∈ boxCellsAt sr sc q.1 q.2,
            (ps.foldl (fun s p => boxFill size sr sc fixed shuffle s p.1 p.2)
              sol1) rc.1 rc.2 = sol1 rc.1 rc.2 := by
          intro rc hrc
          refine ihframe rc.1 rc.2 fun p2 hp2 hmem2 => ?_
          have hp2v := hmem p2 (List.mem_cons_of_mem q hp2)
          rw [mem_boxCellsAt] at hrc hmem2
          have h1 : rc.1 / sr * sr = q.1 :=
            corner_eq_of_mem hsr hpmem.1 hsrdvd hrc.1 hrc.2.1
          have h2 : rc.1 / sr * sr = p2.1 :=
            corner_eq_of_mem hsr hp2v.1 hsrdvd hmem2.1 hmem2.2.1
          have h3 : rc.2 / sc * sc = q.2 :=
            corner_eq_of_mem hsc hpmem.2 hscdvd hrc.2.2.1 hrc.2.2.2
          have h4 : rc.2 / sc * sc = p2.2 :=
            corner_eq_of_mem hsc hp2v.2 hscdvd hmem2.2.2.1 hmem2.2.2.2
          have : p2 = q := Prod.ext (h2 ▸ h1) (h4 ▸ h3)
          exact hpnotin (this ▸ hp2)
        have hmapcong := List.map_congr_left fun rc hrc => hcells rc hrc
        rw [hmapcong]
        exact hbp1
      · rw [List.foldl_cons]
        exact ihbox q hq2

/-- `initialize_population` members are box-legal and clue-preserving. -/
theorem initMember_inv (size sr sc : Nat) (fixed : Nat → Nat → Bool)
    (shuffle : Nat → Nat → List Nat → List Nat) (clue : Grid)
    (hsize : sr * sc = size) (hsr : 0 < sr) (hsc : 0 < sc)
    (hshuffle : ∀ r0 c0 l, (shuffle r0 c0 l).Perm l)
    (hclueN : ∀ r0 ∈ stepRange size sr, ∀ c0 ∈ stepRange size sc,
      (((boxCellsAt sr sc r0 c0).filter fun rc => fixed rc.1 rc.2).map
        fun rc => clue rc.1 rc.2).Nodup)
    (hclueS : ∀ r c, fixed r c = true →
      clue r c ∈ (List.range size).map (· + 1)) :
    BoxPerm size sr sc (initMember size sr sc fixed shuffle clue) ∧
    FixedOK fixed clue (initMember size sr sc fixed shuffle clue) := by
  rw [initMember_eq_pairs]
  have hmem : ∀ p ∈ ((stepRange size sr).flatMap fun r0 =>
      (stepRange size sc).map fun c0 => (r0, c0)),
      p.1 ∈ stepRange size sr ∧ p.2 ∈ stepRange size sc := by
    intro p hp
    rw [List.mem_flatMap] at hp
    obtain ⟨r0, hr0, hp2⟩ := hp
    rw [List.mem_map] at hp2
    obtain ⟨c0, hc0, rfl⟩ := hp2
    exact ⟨hr0, hc0⟩
  obtain ⟨hFO, _, hbox⟩ := initFold_inv size sr sc fixed shuffle clue hsize
    hsr hsc hshuffle hclueN hclueS _ (boxes_nodup size sr sc hsr hsc) hmem
    clue (fun _ _ _ => rfl)
  refine ⟨?_, hFO⟩
  intro r0 hr0 c0 hc0
  exact hbox (r0, c0) (List.mem_flatMap.mpr
    ⟨r0, hr0, List.mem_map.mpr ⟨c0, hc0, rfl⟩⟩)

theorem mem_digitsNat {size v : Nat} :
    v ∈ (List.range size).map (· + 1) ↔ 1 ≤ v ∧ v ≤ size := by
  rw [List.mem_map]
  constructor
  · rintro ⟨k, hk, rfl⟩
    rw [List.mem_range] at hk
    omega
  · rintro ⟨h1, h2⟩
    exact ⟨v - 1, List.mem_range.mpr (by omega), by omega⟩

/-- Swapping the values of two cells of a duplicate-free cell list permutes
the listed values. -/
theorem map_swap_perm {l : List (Nat × Nat)} (hl : l.Nodup) (f : Grid)
    (p1 p2 : Nat × Nat) (hp1 : p1 ∈ l) (hp2 : p2 ∈ l) :
    (l.map fun rc =>
      (updateG (updateG f p2.1 p2.2 (f p1.1 p1.2)) p1.1 p1.2 (f p2.1 p2.2))
        rc.1 rc.2).Perm (l.map fun rc => f rc.1 rc.2) := by
  by_cases hpp : p1 = p2
  · subst hpp
    have hcong : ∀ rc ∈ l,
        (updateG (updateG f p1.1 p1.2 (f p1.1 p1.2)) p1.1 p1.2 (f p1.1 p1.2))
          rc.1 rc.2 = f rc.1 rc.2 := by
      intro rc _
      rw [updateG, updateG]
      by_cases h : rc.1 = p1.1 ∧ rc.2 = p1.2
      · rw [if_pos h]
        rw [h.1, h.2]
      · rw [if_neg h, if_neg h]
    rw [List.map_congr_left hcong]
  · have hne : ¬ (p2.1 = p1.1 ∧ p2.2 = p1.2) := by
      rintro ⟨h1, h2⟩
      exact hpp (Prod.ext h1 h2).symm
    have hg1 : (updateG (updateG f p2.1 p2.2 (f p1.1 p1.2)) p1.1 p1.2
        (f p2.1 p2.2)) p1.1 p1.2 = f p2.1 p2.2 := by
      rw [updateG, if_pos ⟨rfl, rfl⟩]
    have hg2 : (updateG (updateG f p2.1 p2.2 (f p1.1 p1.2)) p1.1 p1.2
        (f p2.1 p2.2)) p2.1 p2.2 = f p1.1 p1.2 := by
      rw [updateG, if_neg hne, updateG, if_pos ⟨rfl, rfl⟩]
    obtain ⟨l1, l2, rfl⟩ := List.append_of_mem hp1
    have hl2 : (l1 ++ p1 :: l2).Perm (p1 :: (l1 ++ l2)) := List.perm_middle
    have hp2m : p2 ∈ l1 ++ l2 := by
      rcases List.mem_append.mp hp2 with h | h
      · exact List.mem_append.mpr (Or.inl h)
      · rcases List.mem_cons.mp h with h2 | h2
        · exact absurd h2.symm hpp
        · exact List.mem_append.mpr (Or.inr h2)
    obtain ⟨m1, m2, hm⟩ := List.append_of_mem hp2m
    have hl3 : (l1 ++ l2).Perm (p2 :: (m1 ++ m2)) := by
      rw [hm]
      exact List.perm_middle
    have hlfull : (l1 ++ p1 :: l2).Perm (p1 :: p2 :: (m1 ++ m2)) :=
      hl2.trans (hl3.cons p1)
    have hnd2 : (p1 :: p2 :: (m1 ++ m2)).Nodup := hlfull.nodup hl
    have hp1t : p1 ∉ (m1 ++ m2) := fun h =>
      (List.nodup_cons.mp hnd2).1 (List.mem_cons_of_mem _ h)
    have hp2t : p2 ∉ (m1 ++ m2) :=
      (List.nodup_cons.mp (List.nodup_cons.mp hnd2).2).1
    have hcong : ∀ rc ∈ m1 ++ m2,
        (updateG (updateG f p2.1 p2.2 (f p1.1 p1.2)) p1.1 p1.2
          (f p2.1 p2.2)) rc.1 rc.2 = f rc.1 rc.2 := by
      intro rc hrc
      rw [updateG, if_neg, updateG, if_neg]
      · rintro ⟨h1, h2⟩
        exact hp2t ((Prod.ext h1 h2 : rc = p2) ▸ hrc)
      · rintro ⟨h1, h2⟩
        exact hp1t ((Prod.ext h1 h2 : rc = p1) ▸ hrc)
    refine ((hlfull.map _).trans ?_).trans ((hlfull.map _).symm)
    rw [List.map_cons, List.map_cons, List.map_cons, List.map_cons]
    rw [hg1, hg2]
    rw [List.map_congr_left hcong]
    exact List.Perm.swap (f p1.1 p1.2) (f p2.1 p2.2) _

theorem mem_of_headq_eq_some {α : Type} {l : List α} {a : α}
    (h : l.head? = some a) : a ∈ l := by
  cases l with
  | nil => cases h
  | cons b t =>
    rw [List.head?_cons] at h
    rw [← Option.some.inj h]
    exact List.mem_cons_self b t

/-- The neighbor move preserves subgrid legality and clue preservation:
the wrapped value `v` lies in `1..size`, hence (by box legality) occurs in
the block, so the move either swaps `v` with the visited cell's value
inside the block (both cells non-fixed) or leaves the grid unchanged. -/
theorem neighborSearch_inv (size sr sc : Nat) (fixed : Nat → Nat → Bool)
    (clue cur nb : Grid) (row col d : Nat)
    (hsize : sr * sc = size) (hsr : 0 < sr) (hsc : 0 < sc)
    (hrow : row < size) (hcol : col < size) (hfree : fixed row col = false)
    (hBP : BoxPerm size sr sc cur) (hFO : FixedOK fixed clue cur) :
    BoxPerm size sr sc (neighborSearch size sr sc fixed cur nb row col d) ∧
    FixedOK fixed clue (neighborSearch size sr sc fixed cur nb row col d) := by
  have hdvdr : sr ∣ size := ⟨sc, hsize.symm⟩
  have hdvdc : sc ∣ size := ⟨sr, by rw [← hsize]; ring⟩
  have hr0mem : row / sr * sr ∈ stepRange size sr := by
    rw [mem_stepRange hsr hdvdr]
    refine ⟨row / sr, ?_, rfl⟩
    have h1 : row / sr * sr ≤ row := Nat.div_mul_le_self row sr
    have h2 : size / sr * sr = size := Nat.div_mul_cancel hdvdr
    by_contra hcon
    push_neg at hcon
    have := Nat.mul_le_mul_right sr hcon
    omega
  have hc0mem : col / sc * sc ∈ stepRange size sc := by
    rw [mem_stepRange hsc hdvdc]
    refine ⟨col / sc, ?_, rfl⟩
    have h1 : col / sc * sc ≤ col := Nat.div_mul_le_self col sc
    have h2 : size / sc * sc = size := Nat.div_mul_cancel hdvdc
    by_contra hcon
    push_neg at hcon
    have := Nat.mul_le_mul_right sc hcon
    omega
  have hcellmem : (row, col) ∈ boxCellsAt sr sc (row / sr * sr) (col / sc * sc) := by
    rw [mem_boxCellsAt]
    have h1 := Nat.div_add_mod row sr
    have h2 := Nat.mod_lt row hsr
    have h3 := Nat.div_add_mod col sc
    have h4 := Nat.mod_lt col hsc
    have h5 : row / sr * sr ≤ row := Nat.div_mul_le_self row sr
    have h6 : col / sc * sc ≤ col := Nat.div_mul_le_self col sc
    have hc1 : row / sr * sr = sr * (row / sr) := Nat.mul_comm _ _
    have hc2 : col / sc * sc = sc * (col / sc) := Nat.mul_comm _ _
    refine ⟨h5, by omega, h6, by omega⟩
  have hboxperm := hBP (row / sr * sr) hr0mem (col / sc * sc) hc0mem
  have hx : cur row col ∈ (List.range size).map (· + 1) := by
    refine hboxperm.mem_iff.mp ?_
    rw [List.mem_map]
    exact ⟨(row, col), hcellmem, rfl⟩
  rw [mem_digitsNat] at hx
  have hszpos : 0 < size := by omega
  -- the wrapped candidate value is a digit
  set x_ij := cur row col with hxij
  set diff := if nb row col ≤ x_ij then x_ij - nb row col
    else nb row col - x_ij with hdiff
  set v0 := x_ij + min d diff with hv0
  set v := if size < v0 then v0 % size + 1
    else if v0 < 1 then size - v0 % size
    else v0 with hv
  have hvrange : 1 ≤ v ∧ v ≤ size := by
    rw [hv]
    by_cases h1 : size < v0
    · rw [if_pos h1]
      have := Nat.mod_lt v0 hszpos
      omega
    · rw [if_neg h1, if_neg (by omega)]
      omega
  have hvmem : v ∈ (boxCellsAt sr sc (row / sr * sr) (col / sc * sc)).map
      fun rc => cur rc.1 rc.2 := by
    refine hboxperm.mem_iff.mpr ?_
    rw [mem_digitsNat]
    exact hvrange
  have hbody : neighborSearch size sr sc fixed cur nb row col d
      = match (((boxCellsAt sr sc (row / sr * sr) (col / sc * sc)).filter
          fun rc => decide (cur rc.1 rc.2 = v) && !fixed rc.1 rc.2)).head? with
        | none => cur
        | some rc => updateG (updateG cur rc.1 rc.2 x_ij) row col v := by
    rw [neighborSearch]
    simp only [← hxij, ← hdiff, ← hv0, ← hv]
    rw [if_pos hvmem]
  rw [hbody]
  cases hh : (((boxCellsAt sr sc (row / sr * sr) (col / sc * sc)).filter
      fun rc => decide (cur rc.1 rc.2 = v) && !fixed rc.1 rc.2)).head? with
  | none => exact ⟨hBP, hFO⟩
  | some rc =>
    have hrcmem : rc ∈ ((boxCellsAt sr sc (row / sr * sr) (col / sc * sc)).filter
        fun rc => decide (cur rc.1 rc.2 = v) && !fixed rc.1 rc.2) :=
      mem_of_headq_eq_some hh
    have hrcbox := List.mem_of_mem_filter hrcmem
    have hrcprop := List.of_mem_filter hrcmem
    rw [Bool.and_eq_true] at hrcprop
    have hrcval : cur rc.1 rc.2 = v := by
      have := hrcprop.1
      simpa using this
    have hrcfree : fixed rc.1 rc.2 = false := by
      have := hrcprop.2
      cases h : fixed rc.1 rc.2
      · rfl
      · rw [h] at this
        cases this
    constructor
    · -- subgrid legality
      intro a0 ha0 b0 hb0
      by_cases hsame : a0 = row / sr * sr ∧ b0 = col / sc * sc
      · rw [hsame.1, hsame.2]
        have hswap := map_swap_perm (boxCellsAt_nodup sr sc
          (row / sr * sr) (col / sc * sc)) cur
          (row, col) rc hcellmem hrcbox
        -- identify the updated grid with the swap form
        have heq : ∀ p ∈ boxCellsAt sr sc (row / sr * sr) (col / sc * sc),
            (updateG (updateG cur rc.1 rc.2 x_ij) row col v) p.1 p.2
            = (updateG (updateG cur rc.1 rc.2 (cur row col)) row col
                (cur rc.1 rc.2)) p.1 p.2 := by
          intro p _
          rw [← hxij, hrcval]
        rw [List.map_congr_left heq]
        exact (List.Perm.trans (by exact hswap) hboxperm)
      · have hother : ∀ p ∈ boxCellsAt sr sc a0 b0,
            (updateG (updateG cur rc.1 rc.2 x_ij) row col v) p.1 p.2
            = cur p.1 p.2 := by
          intro p hp
          rw [mem_boxCellsAt] at hp
          have hpc1 : p.1 / sr * sr = a0 :=
            corner_eq_of_mem hsr ha0 hdvdr hp.1 hp.2.1
          have hpc2 : p.2 / sc * sc = b0 :=
            corner_eq_of_mem hsc hb0 hdvdc hp.2.2.1 hp.2.2.2
          have hrowne : ¬ (p.1 = row ∧ p.2 = col) := by
            rintro ⟨h1, h2⟩
            apply hsame
            have hrow2 : row / sr * sr = row / sr * sr := rfl
            constructor
            · rw [← hpc1, h1]
            · rw [← hpc2, h2]
          have hrcne : ¬ (p.1 = rc.1 ∧ p.2 = rc.2) := by
            rintro ⟨h1, h2⟩
            rw [mem_boxCellsAt] at hrcbox
            apply hsame
            constructor
            · rw [← hpc1, h1,
                corner_eq_of_mem hsr hr0mem hdvdr hrcbox.1 hrcbox.2.1]
            · rw [← hpc2, h2,
                corner_eq_of_mem hsc hc0mem hdvdc hrcbox.2.2.1 hrcbox.2.2.2]
          show (if p.1 = row ∧ p.2 = col then v
            else (updateG cur rc.1 rc.2 x_ij) p.1 p.2) = cur p.1 p.2
          rw [if_neg hrowne]
          show (if p.1 = rc.1 ∧ p.2 = rc.2 then x_ij else cur p.1 p.2)
            = cur p.1 p.2
          rw [if_neg hrcne]
        rw [List.map_congr_left hother]
        exact hBP a0 ha0 b0 hb0
    · -- clue preservation
      intro a b hab
      have hrowne : ¬ (a = row ∧ b = col) := by
        rintro ⟨h1, h2⟩
        rw [h1, h2] at hab
        rw [hab] at hfree
        cases hfree
      have hrcne : ¬ (a = rc.1 ∧ b = rc.2) := by
        rintro ⟨h1, h2⟩
        rw [h1, h2] at hab
        rw [hab] at hrcfree
        cases hrcfree
      show (if a = row ∧ b = col then v
        else (updateG cur rc.1 rc.2 x_ij) a b) = clue a b
      rw [if_neg hrowne]
      show (if a = rc.1 ∧ b = rc.2 then x_ij else cur a b) = clue a b
      rw [if_neg hrcne]
      exact hFO a b hab

/-- The random draws consumed by one `neighbor_search` call: the free cell
picked by the rejection loop, the index of the distinct population member
drawn by `random.choice`, and the rounded offset. -/
structure NsOracle where
  row : Nat
  col : Nat
  nbIdx : Nat
  d : Nat

/-- The bee-colony solver state across cycles: `population`, `fitnesses`,
`trials`, `best_solution`, `best_fitness`. -/
structure AbcState where
  population : Nat → Grid
  fitnesses : Nat → ℚ
  trials : Nat → Nat
  bestSolution : Grid
  bestFitness : ℚ

/-- The draws of one full cycle: one neighbor move per employed bee, the
onlooker moves (indexed by bee and inner repetition), and the shuffles of a
scout's fresh member. -/
structure AbcCycleOracle where
  employed : Nat → NsOracle
  onlooker : Nat → Nat → NsOracle
  scoutShuffle : Nat → Nat → List Nat → List Nat

def update1 {α : Type} (f : Nat → α) (i : Nat) (x : α) : Nat → α :=
  fun j => if j = i then x else f j

/-- One employed-bee step: a neighbor move on member `i`, greedy `>=`
acceptance with trial bookkeeping, then the guarded `>=` best update. -/
def employedStep (size sr sc popsize : Nat) (fixed : Nat → Nat → Bool)
    (o : Nat → NsOracle) (st : AbcState) (i : Nat) : AbcState :=
  let ns := o i
  let neighbor := neighborSearch size sr sc fixed (st.population i)
    (st.population (ns.nbIdx % popsize)) ns.row ns.col ns.d
  let nfit := evaluate size neighbor
  let st1 :=
    if nfit ≥ st.fitnesses i then
      { st with population := update1 st.population i neighbor,
                fitnesses := update1 st.fitnesses i nfit,
                trials := update1 st.trials i 0 }
    else { st with trials := update1 st.trials i (st.trials i + 1) }
  if nfit ≥ st1.bestFitness then
    { st1 with bestSolution := neighbor, bestFitness := nfit }
  else st1

def employedPhase (size sr sc popsize : Nat) (fixed : Nat → Nat → Bool)
    (o : Nat → NsOracle) (st : AbcState) : AbcState :=
  (List.range popsize).foldl (employedStep size sr sc popsize fixed o) st

/-- One onlooker move on member `i` (no trial increment on rejection). -/
def onlookerInner (size sr sc popsize : Nat) (fixed : Nat → Nat → Bool)
    (o : Nat → NsOracle) (i : Nat) (st : AbcState) (j : Nat) : AbcState :=
  let ns := o j
  let neighbor := neighborSearch size sr sc fixed (st.population i)
    (st.population (ns.nbIdx % popsize)) ns.row ns.col ns.d
  let nfit := evaluate size neighbor
  let st1 :=
    if nfit ≥ st.fitnesses i then
      { st with population := update1 st.population i neighbor,
                fitnesses := update1 st.fitnesses i nfit,
                trials := update1 st.trials i 0 }
    else st
  if nfit ≥ st1.bestFitness then
    { st1 with bestSolution := neighbor, bestFitness := nfit }
  else st1

/-- The onlooker phase: guarded by `sum_fitness > 0`; bee `i` receives
`int(fitnesses[i] / sum_fitness * onlooker_bees)` moves, with
`onlooker_bees = 2 * employed_bees`. -/
def onlookerPhase (size sr sc popsize : Nat) (fixed : Nat → Nat → Bool)
    (o : Nat → Nat → NsOracle) (st : AbcState) : AbcState :=
  let sumFit := ((List.range popsize).map st.fitnesses).sum
  if 0 < sumFit then
    (List.range popsize).foldl
      (fun st2 i =>
        let count := (Int.floor (st2.fitnesses i / sumFit
          * ((2 * popsize : Nat) : ℚ))).toNat
        (List.range count).foldl
          (onlookerInner size sr sc popsize fixed (o i) i) st2)
      st
  else st

def maxTrials (popsize : Nat) (trials : Nat → Nat) : Nat :=
  ((List.range popsize).map trials).foldl max 0

/-- `self.trials.index(max(self.trials))`: the first bee attaining the
maximal trial count. -/
def scoutIdx (popsize : Nat) (trials : Nat → Nat) : Nat :=
  ((List.range popsize).findIdx fun i => trials i == maxTrials popsize trials)

/-- The scout phase: when some trial counter exceeds the limit (10),
replace that bee with a fresh `initialize_population()[0]` member and apply
the guarded `>=` best update. -/
def scoutPhase (size sr sc popsize : Nat) (fixed : Nat → Nat → Bool)
    (shuffle : Nat → Nat → List Nat → List Nat) (clue : Grid)
    (st : AbcState) : AbcState :=
  if 10 < maxTrials popsize st.trials then
    let idx := scoutIdx popsize st.trials
    let fresh := initMember size sr sc fixed shuffle clue
    let nfit := evaluate size fresh
    let st1 := { st with population := update1 st.population idx fresh,
                         fitnesses := update1 st.fitnesses idx nfit,
                         trials := update1 st.trials idx 0 }
    if nfit ≥ st1.bestFitness then
      { st1 with bestSolution := fresh, bestFitness := nfit }
    else st1
  else st

/-- One full cycle of `ABCSolver.solve`: employed, onlooker, scout. -/
def abcCycle (size sr sc popsize : Nat) (fixed : Nat → Nat → Bool)
    (clue : Grid) (o : AbcCycleOracle) (st : AbcState) : AbcState :=
  scoutPhase size sr sc popsize fixed o.scoutShuffle clue
    (onlookerPhase size sr sc popsize fixed o.onlooker
      (employedPhase size sr sc popsize fixed o.employed st))

/-- The state before cycle `n`; once `best_fitness` hits 1 the generator
returns, so the state freezes. -/
def abcStateAt (size sr sc popsize : Nat) (fixed : Nat → Nat → Bool)
    (clue : Grid) (st0 : AbcState) (o : Nat → AbcCycleOracle) :
    Nat → AbcState
  | 0 => st0
  | n + 1 =>
    let st := abcStateAt size sr sc popsize fixed clue st0 o n
    if st.bestFitness = 1 then st
    else abcCycle size sr sc popsize fixed clue (o n) st

def pyTypeError : String := "TypeError: 'int' object is not subscriptable"

def sudoAssignParamCount : Nat := 4

def hybridDictToValuesArgCount : Nat := 6

/-- `eliminate(values, s, d, peers)` with `peers` bound to an `int`: the
only `peers` subscript sits in the naked-single branch, so the call either
returns normally before reaching it or raises `TypeError` there. -/
def elimIntPeers (v : Values) (s : Cell) (d : Char) :
    Except String (Option Values) :=
  if d ∈ v s then
    let v2 := updateV v s ((v s).erase d)
    if (v2 s).length = 0 then Except.ok none
    else if (v2 s).length = 1 then Except.error pyTypeError
    else Except.ok (some v2)
  else Except.ok (some v)

/-- The `for d2 in other_values` loop of `assign` (with the integer
`peers` threaded through). -/
def assignIntLoop (s : Cell) : List Char → Values → Except String (Option Values)
  | [], v => Except.ok (some v)
  | d2 :: ds, v =>
    match elimIntPeers v s d2 with
    | Except.error e => Except.error e
    | Except.ok none => Except.ok none
    | Except.ok (some v2) => assignIntLoop s ds v2

/-- `assign(new_values.copy(), s, d, self.size)` as called by the hybrid
`neighbor_search`. -/
def assignIntPeers (v : Values) (s : Cell) (d : Char) :
    Except String (Option Values) :=
  assignIntLoop s ((v s).filter fun x => decide (x ≠ d)) v

/-- The candidate loop of the hybrid `neighbor_search` (`cands` is the
`random.sample` order of the chosen cell's candidates). -/
def hybridNeighborLoop (v : Values) (s : Cell) :
    List Char → Except String Values
  | [] => Except.ok v
  | d :: ds =>
    match assignIntPeers v s d with
    | Except.error e => Except.error e
    | Except.ok (some v2) => Except.ok v2
    | Except.ok none => hybridNeighborLoop v s ds

theorem assignIntLoop_error (s : Cell) (d : Char) :
    ∀ (ds : List Char) (v : Values), ds ≠ [] → ds.Nodup → (v s).Nodup →
      (∀ x ∈ ds, x ∈ v s) → d ∈ v s → d ∉ ds →
      (v s).length = ds.length + 1 →
      assignIntLoop s ds v = Except.error pyTypeError := by
  intro ds
  induction ds with
  | nil => intro v h; exact absurd rfl h
  | cons d2 ds ih =>
    intro v _ hnd hvs hsub hdmem hdnot hlen
    have hd2mem : d2 ∈ v s := hsub d2 (List.mem_cons_self d2 ds)
    have herase : (updateV v s ((v s).erase d2)) s = (v s).erase d2 :=
      updateV_same v s _
    have helen : ((v s).erase d2).length = (v s).length - 1 :=
      List.length_erase_of_mem hd2mem
    rw [assignIntLoop]
    rw [elimIntPeers, if_pos hd2mem]
    cases hds : ds with
    | nil =>
      have hl2 : (v s).length = 2 := by
        rw [hds] at hlen
        simpa using hlen
      have h1 : ((updateV v s ((v s).erase d2)) s).length = 1 := by
        rw [herase, helen, hl2]
      rw [if_neg (by omega), if_pos h1]
    | cons d3 ds2 =>
      have hlen3 : 3 ≤ (v s).length := by
        rw [hds] at hlen
        simp only [List.length_cons] at hlen
        omega
      have h2 : ((updateV v s ((v s).erase d2)) s).length
          = (v s).length - 1 := by
        rw [herase, helen]
      rw [if_neg (by omega), if_neg (by omega)]
      rw [← hds]
      refine ih _ (by rw [hds]; exact List.cons_ne_nil d3 ds2)
        (List.nodup_cons.mp hnd).2 ?_ ?_ ?_ ?_ ?_
      · rw [herase]
        exact hvs.erase d2
      · intro x hx
        rw [herase]
        have hxne : x ≠ d2 := by
          intro hxeq
          exact (List.nodup_cons.mp hnd).1 (hxeq ▸ hx)
        rw [List.mem_erase_of_ne hxne]
        exact hsub x (List.mem_cons_of_mem d2 hx)
      · rw [herase]
        have hdne : d ≠ d2 := by
          intro hdeq
          exact hdnot (hdeq ▸ List.mem_cons_self d2 ds)
        rw [List.mem_erase_of_ne hdne]
        exact hdmem
      · intro hd
        exact hdnot (List.mem_cons_of_mem d2 hd)
      · rw [herase, helen]
        simp only [List.length_cons] at hlen
        omega

/-- The hybrid neighbor move always raises: the first candidate's
`assign` eliminates the cell's other values one by one; the last
elimination collapses the cell and reaches `peers[s]` with `peers` an
integer. -/
theorem hybrid_first_move_raises (v : Values) (s : Cell)
    (cands : List Char) (hvs : (v s).Nodup) (hlen : 2 ≤ (v s).length)
    (hperm : cands.Perm (v s)) :
    hybridNeighborLoop v s cands = Except.error pyTypeError := by
  cases hcands : cands with
  | nil =>
    rw [hcands] at hperm
    have := hperm.length_eq
    simp only [List.length_nil] at this
    omega
  | cons d ds =>
    have hdmem : d ∈ v s := by
      refine hperm.mem_iff.mp ?_
      rw [hcands]
      exact List.mem_cons_self d ds
    have hferr : assignIntPeers v s d = Except.error pyTypeError := by
      rw [assignIntPeers]
      set other := (v s).filter fun x => decide (x ≠ d) with hother
      have hcnt : (v s).length = other.length + 1 := by
        have hsplit := List.length_eq_countP_add_countP
          (fun x => decide (x ≠ d)) (v s)
        have hc1 : (v s).countP (fun x => decide (x ≠ d)) = other.length := by
          rw [hother, List.countP_eq_length_filter]
        have hc2 : (v s).countP
            (fun a => decide (¬ (decide (a ≠ d) = true)))
            = 1 := by
          have hcong : (v s).countP
              (fun a => decide (¬ (decide (a ≠ d) = true)))
              = (v s).countP (· == d) := by
            refine List.countP_congr fun x _ => ?_
            by_cases hx : x = d
            · subst hx
              simp
            · simp [hx]
          rw [hcong]
          exact List.count_eq_one_of_mem hvs hdmem
        omega
      have hone : other ≠ [] := by
        intro h
        rw [h] at hcnt
        simp only [List.length_nil] at hcnt
        omega
      refine assignIntLoop_error s d other v hone
        (hvs.filter _) hvs
        (fun x hx => List.mem_of_mem_filter hx) hdmem ?_ hcnt
      intro hd
      have := List.of_mem_filter hd
      simp at this
    rw [hybridNeighborLoop, hferr]

/-! ## The multi-swarm coordinator (`msabc_solver.py`)

`MSABCSolver.__init__` stores the sub-swarm list in `self.swarms`;
`solve` iterates `self.subswarms`, an attribute no method ever defines, so
its first cycle raises `AttributeError` before advancing any sub-swarm or
yielding.  (`ABCSolver` instances also lack the `abc` and `update_best`
attributes the loop body uses, and `swarm.abc.solve()` would merely create
a generator without advancing it.) -/

def msabcAttrs : List String :=
  ["size", "population_size", "num_swarms", "max_cycles", "rcloud",
   "swarms", "global_best", "global_fitness"]

def msabcSolveLoopAttr : String := "subswarms"

/-! ## Population invariant of the bee-colony cycle -/

/-- The C9 invariant: box legality plus clue preservation. -/
def AbcInv (size sr sc : Nat) (fixed : Nat → Nat → Bool) (clue : Grid)
    (g : Grid) : Prop :=
  BoxPerm size sr sc g ∧ FixedOK fixed clue g

/-- Validity of one neighbor-move oracle: the rejection loop of
`neighbor_search` only ever exits on an in-range non-fixed cell. -/
def NsOK (size : Nat) (fixed : Nat → Nat → Bool) (ns : NsOracle) : Prop :=
  ns.row < size ∧ ns.col < size ∧ fixed ns.row ns.col = false

/-- Validity of a cycle's oracle draws. -/
def CycleOK (size : Nat) (fixed : Nat → Nat → Bool)
    (o : AbcCycleOracle) : Prop :=
  (∀ i, NsOK size fixed (o.employed i)) ∧
  (∀ i j, NsOK size fixed (o.onlooker i j)) ∧
  (∀ r0 c0 l, (o.scoutShuffle r0 c0 l).Perm l)

theorem update1_inv {P : Grid → Prop} {pop : Nat → Grid}
    (hpop : ∀ j, P (pop j)) {g : Grid} (hg : P g) (i : Nat) :
    ∀ j, P (update1 pop i g j) := by
  intro j
  rw [update1]
  by_cases h : j = i
  · rw [if_pos h]
    exact hg
  · rw [if_neg h]
    exact hpop j

theorem foldl_state_inv {β : Type} (Q : AbcState → Prop)
    (step : AbcState → β → AbcState)
    (h : ∀ st x, Q st → Q (step st x)) :
    ∀ (l : List β) (st : AbcState), Q st → Q (l.foldl step st) := by
  intro l
  induction l with
  | nil => intro st hQ; exact hQ
  | cons x xs ih =>
    intro st hQ
    rw [List.foldl_cons]
    exact ih (step st x) (h st x hQ)

theorem employedStep_inv (size sr sc popsize : Nat)
    (fixed : Nat → Nat → Bool) (clue : Grid) (o : Nat → NsOracle)
    (st : AbcState) (i : Nat)
    (hsize : sr * sc = size) (hsr : 0 < sr) (hsc : 0 < sc)
    (hns : NsOK size fixed (o i))
    (hpop : ∀ j, AbcInv size sr sc fixed clue (st.population j)) :
    ∀ j, AbcInv size sr sc fixed clue
      ((employedStep size sr sc popsize fixed o st i).population j) := by
  have hnb := neighborSearch_inv size sr sc fixed clue (st.population i)
    (st.population ((o i).nbIdx % popsize)) (o i).row (o i).col (o i).d
    hsize hsr hsc hns.1 hns.2.1 hns.2.2 (hpop i).1 (hpop i).2
  simp only [employedStep]
  split
  · split
    · exact update1_inv hpop hnb i
    · exact update1_inv hpop hnb i
  · split
    · exact hpop
    · exact hpop

theorem onlookerInner_inv (size sr sc popsize : Nat)
    (fixed : Nat → Nat → Bool) (clue : Grid) (o : Nat → NsOracle)
    (i : Nat) (st : AbcState) (j2 : Nat)
    (hsize : sr * sc = size) (hsr : 0 < sr) (hsc : 0 < sc)
    (hns : NsOK size fixed (o j2))
    (hpop : ∀ j, AbcInv size sr sc fixed clue (st.population j)) :
    ∀ j, AbcInv size sr sc fixed clue
      ((onlookerInner size sr sc popsize fixed o i st j2).population j) := by
  have hnb := neighborSearch_inv size sr sc fixed clue (st.population i)
    (st.population ((o j2).nbIdx % popsize)) (o j2).row (o j2).col (o j2).d
    hsize hsr hsc hns.1 hns.2.1 hns.2.2 (hpop i).1 (hpop i).2
  simp only [onlookerInner]
  split
  · split
    · exact update1_inv hpop hnb i
    · exact update1_inv hpop hnb i
  · split
    · exact hpop
    · exact hpop

theorem abcCycle_inv (size sr sc popsize : Nat)
    (fixed : Nat → Nat → Bool) (clue : Grid) (o : AbcCycleOracle)
    (st : AbcState)
    (hsize : sr * sc = size) (hsr : 0 < sr) (hsc : 0 < sc)
    (hclueN : ∀ r0 ∈ stepRange size sr, ∀ c0 ∈ stepRange size sc,
      (((boxCellsAt sr sc r0 c0).filter fun rc => fixed rc.1 rc.2).map
        fun rc => clue rc.1 rc.2).Nodup)
    (hclueS : ∀ r c, fixed r c = true →
      clue r c ∈ (List.range size).map (· + 1))
    (hok : CycleOK size fixed o)
    (hpop : ∀ j, AbcInv size sr sc fixed clue (st.population j)) :
    ∀ j, AbcInv size sr sc fixed clue
      ((abcCycle size sr sc popsize fixed clue o st).population j) := by
  rw [abcCycle]
  have hemp : ∀ j, AbcInv size sr sc fixed clue
      ((employedPhase size sr sc popsize fixed o.employed st).population j) := by
    rw [employedPhase]
    refine foldl_state_inv
      (fun st2 => ∀ j, AbcInv size sr sc fixed clue (st2.population j))
      _ ?_ _ st hpop
    intro st2 i hQ
    exact employedStep_inv size sr sc popsize fixed clue o.employed st2 i
      hsize hsr hsc (hok.1 i) hQ
  have honl : ∀ j, AbcInv size sr sc fixed clue
      ((onlookerPhase size sr sc popsize fixed o.onlooker
        (employedPhase size sr sc popsize fixed o.employed st)).population j) := by
    rw [onlookerPhase]
    split
    · refine foldl_state_inv
        (fun st2 => ∀ j, AbcInv size sr sc fixed clue (st2.population j))
        _ ?_ _ _ hemp
      intro st2 i hQ
      refine foldl_state_inv
        (fun st3 => ∀ j, AbcInv size sr sc fixed clue (st3.population j))
        _ ?_ _ st2 hQ
      intro st3 j2 hQ3
      exact onlookerInner_inv size sr sc popsize fixed clue (o.onlooker i) i
        st3 j2 hsize hsr hsc (hok.2.1 i j2) hQ3
    · exact hemp
  simp only [scoutPhase]
  split
  · have hfresh : AbcInv size sr sc fixed clue
        (initMember size sr sc fixed o.scoutShuffle clue) := by
      obtain ⟨h1, h2⟩ := initMember_inv size sr sc fixed o.scoutShuffle clue
        hsize hsr hsc hok.2.2 hclueN hclueS
      exact ⟨h1, h2⟩
    split
    · exact update1_inv honl hfresh _
    · exact update1_inv honl hfresh _
  · exact honl

/-- The population invariant holds at every cycle of a run. -/
theorem abcStateAt_inv (size sr sc popsize : Nat)
    (fixed : Nat → Nat → Bool) (clue : Grid) (st0 : AbcState)
    (o : Nat → AbcCycleOracle)
    (hsize : sr * sc = size) (hsr : 0 < sr) (hsc : 0 < sc)
    (hclueN : ∀ r0 ∈ stepRange size sr, ∀ c0 ∈ stepRange size sc,
      (((boxCellsAt sr sc r0 c0).filter fun rc => fixed rc.1 rc.2).map
        fun rc => clue rc.1 rc.2).Nodup)
    (hclueS : ∀ r c, fixed r c = true →
      clue r c ∈ (List.range size).map (· + 1))
    (hok : ∀ n, CycleOK size fixed (o n))
    (hpop0 : ∀ j, AbcInv size sr sc fixed clue (st0.population j)) :
    ∀ n j, AbcInv size sr sc fixed clue
      ((abcStateAt size sr sc popsize fixed clue st0 o n).population j) := by
  intro n
  induction n with
  | zero => exact hpop0
  | succ n ih =>
    have hunf : abcStateAt size sr sc popsize fixed clue st0 o (n + 1)
        = (if (abcStateAt size sr sc popsize fixed clue st0 o n).bestFitness = 1
          then abcStateAt size sr sc popsize fixed clue st0 o n
          else abcCycle size sr sc popsize fixed clue (o n)
            (abcStateAt size sr sc popsize fixed clue st0 o n)) := rfl
    rw [hunf]
    split
    · exact ih
    · exact abcCycle_inv size sr sc popsize fixed clue (o n) _
        hsize hsr hsc hclueN hclueS (hok n) ih

/-- C8: the multi-swarm coordinator cannot run a single cycle: `solve`
iterates `self.subswarms`, an attribute the constructor never defines (it
stores the sub-swarms in `swarms`), so the first `next()` raises
`AttributeError` before any sub-swarm is advanced, any best compared, or
any pair yielded. -/
theorem msabc_solve_attribute_missing :
    msabcSolveLoopAttr ∉ msabcAttrs ∧ "swarms" ∈ msabcAttrs := by
  decide

/-- C7: counter to the claimed neighbor-move behavior of the hybrid
solver: `neighbor_search` calls `assign(new_values.copy(), s, d,
self.size)`, binding the integer `self.size` to the 4-parameter
`assign`'s `peers`; on the first candidate the `assign` cascade collapses
the chosen cell to one value and subscripts `peers[s]`, raising
`TypeError` — the move neither returns the first successful candidate nor
falls back to the parent.  (The 6-argument `assign` calls in
`dict_to_values`/`create_cp_solution` are likewise `TypeError`s.) -/
theorem hybrid_neighbor_move_raises (v : Values) (s : Cell)
    (cands : List Char) (hvs : (v s).Nodup) (hlen : 2 ≤ (v s).length)
    (hperm : cands.Perm (v s)) :
    hybridNeighborLoop v s cands = Except.error pyTypeError ∧
    sudoAssignParamCount ≠ hybridDictToValuesArgCount :=
  ⟨hybrid_first_move_raises v s cands hvs hlen hperm, by decide⟩

def demoHybridV : Values := fun t =>
  if t = (('A', 1) : Cell) then ['1', '2'] else ['1']

theorem hybrid_neighbor_move_raises_witness :
    (demoHybridV ('A', 1)).Nodup ∧ 2 ≤ (demoHybridV ('A', 1)).length ∧
    (['1', '2'] : List Char).Perm (demoHybridV ('A', 1)) ∧
    hybridNeighborLoop demoHybridV ('A', 1) ['1', '2']
      = Except.error pyTypeError :=
  ⟨by decide, by decide, by decide,
    (hybrid_neighbor_move_raises demoHybridV ('A', 1) ['1', '2']
      (by decide) (by decide) (by decide)).1⟩

/-- C9: on a puzzle whose clues repeat no digit inside a subgrid, every
bee-colony population member is box-legal (each subgrid a permutation of
`1..N`) with all clue cells intact: initialization establishes the
invariant, the neighbor move preserves it, and hence it holds for every
member at every cycle of a run. -/
theorem bee_population_box_invariant (size sr sc popsize : Nat)
    (fixed : Nat → Nat → Bool) (clue : Grid) (st0 : AbcState)
    (o : Nat → AbcCycleOracle) (shuffle0 : Nat → Nat → List Nat → List Nat)
    (hsize : sr * sc = size) (hsr : 0 < sr) (hsc : 0 < sc)
    (hclueN : ∀ r0 ∈ stepRange size sr, ∀ c0 ∈ stepRange size sc,
      (((boxCellsAt sr sc r0 c0).filter fun rc => fixed rc.1 rc.2).map
        fun rc => clue rc.1 rc.2).Nodup)
    (hclueS : ∀ r c, fixed r c = true →
      clue r c ∈ (List.range size).map (· + 1))
    (hshuffle0 : ∀ r0 c0 l, (shuffle0 r0 c0 l).Perm l)
    (hok : ∀ n, CycleOK size fixed (o n))
    (hpop0 : ∀ j, AbcInv size sr sc fixed clue (st0.population j)) :
    AbcInv size sr sc fixed clue
      (initMember size sr sc fixed shuffle0 clue) ∧
    (∀ (cur nb : Grid) (row col d : Nat), row < size → col < size →
      fixed row col = false → AbcInv size sr sc fixed clue cur →
      AbcInv size sr sc fixed clue
        (neighborSearch size sr sc fixed cur nb row col d)) ∧
    (∀ n j, AbcInv size sr sc fixed clue
      ((abcStateAt size sr sc popsize fixed clue st0 o n).population j)) := by
  refine ⟨?_, ?_, ?_⟩
  · exact initMember_inv size sr sc fixed shuffle0 clue hsize hsr hsc
      hshuffle0 hclueN hclueS
  · intro cur nb row col d hrow hcol hfr hInv
    exact neighborSearch_inv size sr sc fixed clue cur nb row col d
      hsize hsr hsc hrow hcol hfr hInv.1 hInv.2
  · exact abcStateAt_inv size sr sc popsize fixed clue st0 o
      hsize hsr hsc hclueN hclueS hok hpop0

def w9fixed : Nat → Nat → Bool := fun _ _ => false

def w9clue : Grid := fun _ _ => 0

def w9grid : Grid := fun _ _ => 1

def w9st0 : AbcState :=
  { population := fun _ => w9grid, fitnesses := fun _ => 1,
    trials := fun _ => 0, bestSolution := w9grid, bestFitness := 1 }

def w9shuffle : Nat → Nat → List Nat → List Nat := fun _ _ l => l

def w9oracle : Nat → AbcCycleOracle := fun _ =>
  { employed := fun _ => ⟨0, 0, 0, 0⟩,
    onlooker := fun _ _ => ⟨0, 0, 0, 0⟩,
    scoutShuffle := fun _ _ l => l }

theorem w9pop0 : ∀ j, AbcInv 1 1 1 w9fixed w9clue (w9st0.population j) := by
  intro j
  show AbcInv 1 1 1 w9fixed w9clue w9grid
  refine ⟨?_, fun _ _ h => nomatch h⟩
  intro r0 hr0 c0 hc0
  have hsr : stepRange 1 1 = [0] := by decide
  rw [hsr] at hr0 hc0
  have h1 : r0 = 0 := by simpa using hr0
  have h2 : c0 = 0 := by simpa using hc0
  subst h1
  subst h2
  decide

theorem bee_population_box_invariant_witness :
    (1 * 1 = 1) ∧ (0 : Nat) < 1 ∧
    (AbcInv 1 1 1 w9fixed w9clue
      (initMember 1 1 1 w9fixed w9shuffle w9clue) ∧
    (∀ (cur nb : Grid) (row col d : Nat), row < 1 → col < 1 →
      w9fixed row col = false → AbcInv 1 1 1 w9fixed w9clue cur →
      AbcInv 1 1 1 w9fixed w9clue
        (neighborSearch 1 1 1 w9fixed cur nb row col d)) ∧
    (∀ n j, AbcInv 1 1 1 w9fixed w9clue
      ((abcStateAt 1 1 1 1 w9fixed w9clue w9st0 w9oracle n).population j))) :=
  ⟨rfl, Nat.one_pos,
    bee_population_box_invariant 1 1 1 1 w9fixed w9clue w9st0 w9oracle
      w9shuffle rfl Nat.one_pos Nat.one_pos (by decide)
      (fun _ _ h => nomatch h) (fun _ _ l => List.Perm.refl l)
      (fun _ => ⟨fun _ => ⟨Nat.one_pos, Nat.one_pos, rfl⟩,
        fun _ _ => ⟨Nat.one_pos, Nat.one_pos, rfl⟩,
        fun _ _ l => List.Perm.refl l⟩)
      w9pop0⟩

end SudokuRepo
